import Mathlib

/-!
# Kasper partition processor: in-flight tracking and the offset-commit protocol

A shallow embedding of `partition_processor.go`.  Go pointers are modelled by an
address carried in the pointed-to value (`addr`); pointer comparison is comparison
of addresses.  Slices that the code tests against `nil` are `Option (List _)`,
with `none` for the nil slice.  Functions that can end in `log.Fatal` or in a
runtime panic return `Except Fault _`.
-/

namespace Kasper

/-! ## Data model -/

/-- Modelled from the spec: the declaration of `Topic` is not in these sources; it is
a topic name, converted from and to `string`. -/
abbrev Topic := String

/-- Modelled from the spec: the declaration of `Partition` is not in these sources; it
is an integer index, converted from and to sarama's `int32`. -/
abbrev Partition := Int

/-- Modelled from the spec: the declaration of `Offset` is not in these sources; it is
an integer position in a topic-partition with -1 for "unset", converted from and to
sarama's `int64`, so its values are 64-bit and `offset + 1` wraps around (`int64`). -/
abbrev Offset := Int

/-- An address: the identity of a heap object. -/
abbrev Addr := Nat

/-- An encoded key or value. -/
abbrev Bytes := List Nat

/-- A decoded key or value (`interface{}` in the code). -/
abbrev Datum := String

/-- Conversion to a 64-bit signed integer (two's complement wrap-around). -/
def int64 (x : Int) : Int :=
  (x + 9223372036854775808) % 18446744073709551616 - 9223372036854775808

/-- Conversion to a 32-bit signed integer (two's complement wrap-around). -/
def int32 (x : Int) : Int :=
  (x + 2147483648) % 4294967296 - 2147483648

/-- The two ways a call can fail to return: `log.Fatal`/`log.Fatalf` and a runtime panic. -/
inductive Fault where
  | fatal (msg : String)
  | panic (msg : String)
deriving DecidableEq

/-- Modelled from the spec: the declaration of `IncomingMessage` is not in these
sources; its fields are those of the spec's data model, the ones that
`processConsumerMessage` sets.  `addr` is the address of the object
(`&incomingMessage`), by which the code compares messages. -/
structure IncomingMessage where
  addr : Addr
  topic : Topic
  partition : Partition
  offset : Offset
  key : Datum
  value : Datum
  timestamp : Int
deriving DecidableEq

/-- Modelled from the spec: the declaration of `OutgoingMessage` is not in these
sources; its fields are those of the spec's data model, the ones that `Send` reads. -/
structure OutgoingMessage where
  topic : Topic
  partition : Partition
  key : Datum
  value : Datum
deriving DecidableEq

/-- The fields of `sarama.ConsumerMessage` read by `processConsumerMessage`. -/
structure ConsumerMessage where
  topic : String
  partition : Int
  offset : Int
  key : Bytes
  value : Bytes
  timestamp : Int
deriving DecidableEq

/-- The fields of `sarama.ProducerMessage` set by `Send`, with the address of the
object.  `metadata` is `none` when the `Metadata` interface value does not hold an
`*IncomingMessage`. -/
structure ProducerMessage where
  addr : Addr
  topic : String
  key : Bytes
  value : Bytes
  partition : Int
  metadata : Option IncomingMessage
deriving DecidableEq

/-- Modelled from the spec: the codec of the keys or of the values of a topic
(`Serde` is declared outside these sources). -/
structure Serde where
  Serialize : Datum → Bytes
  Deserialize : Bytes → Datum

/-- Modelled from the spec: the pair of codecs registered for a topic (`TopicSerde`
is declared outside these sources). -/
structure TopicSerde where
  KeySerde : Serde
  ValueSerde : Serde

structure inFlightMessage where
  msg : ProducerMessage
  ack : Bool
deriving DecidableEq

structure inFlightMessageGroup where
  incomingMessage : IncomingMessage
  inFlightMessages : Option (List inFlightMessage)
deriving DecidableEq

structure outgoingMessageSender where
  incomingMessage : IncomingMessage
  producerMessages : List ProducerMessage
deriving DecidableEq

/-- State of one partition processor.
* `TopicSerdes` is `pp.topicProcessor.config.TopicSerdes`;
* `inputTopics` is `pp.topicProcessor.inputTopics`;
* `offsetManagers t` is the offset manager of topic `t`, represented by the values
  passed to its `MarkOffset`, oldest first (`none`: no manager in the map);
* `producerInput` is the sequence of records sent on `pp.producer.Input()`, oldest first;
* `nextAddr` is the next address the allocator hands out. -/
structure partitionProcessor where
  TopicSerdes : Topic → Option TopicSerde
  inputTopics : List Topic
  offsetManagers : Topic → Option (List Int)
  producerInput : List ProducerMessage
  inFlightMessageGroups : Topic → List inFlightMessageGroup
  nextAddr : Addr

/-! ## In-flight groups -/

def newOutgoingMessageSender (incomingMessage : IncomingMessage) : outgoingMessageSender :=
  { incomingMessage := incomingMessage, producerMessages := [] }

/-- Go's `append(s, x)` on a possibly nil slice. -/
def appendSlice {α : Type} (s : Option (List α)) (x : α) : Option (List α) :=
  match s with
  | none => some [x]
  | some l => some (l ++ [x])

def outgoingMessageSender.createInFlightMessageGroup (sender : outgoingMessageSender) :
    inFlightMessageGroup :=
  { incomingMessage := sender.incomingMessage
    inFlightMessages :=
      sender.producerMessages.foldl
        (fun res msg => appendSlice res { msg := msg, ack := false }) none }

/-- The `for _, msg := range group.inFlightMessages` loop of `allAcksAreTrue`. -/
def allAcksLoop : List inFlightMessage → Bool
  | [] => true
  | msg :: rest => if msg.ack == false then false else allAcksLoop rest

def inFlightMessageGroup.allAcksAreTrue (group : inFlightMessageGroup) : Bool :=
  match group.inFlightMessages with
  | none => true
  | some msgs => allAcksLoop msgs

/-! ## Sending -/

def outgoingMessageSender.Send (pp : partitionProcessor) (sender : outgoingMessageSender)
    (msg : OutgoingMessage) : Except Fault (partitionProcessor × outgoingMessageSender) :=
  match pp.TopicSerdes msg.topic with
  | none => .error (.fatal ("Could not find Serde for topic '" ++ msg.topic ++ "'"))
  | some topicSerde =>
    let producerMessage : ProducerMessage :=
      { addr := pp.nextAddr
        topic := msg.topic
        key := topicSerde.KeySerde.Serialize msg.key
        value := topicSerde.ValueSerde.Serialize msg.value
        partition := int32 msg.partition
        metadata := some sender.incomingMessage }
    .ok ({ pp with
            nextAddr := pp.nextAddr + 1
            producerInput := pp.producerInput ++ [producerMessage] },
         { sender with producerMessages := sender.producerMessages ++ [producerMessage] })

/-- The call `pp.messageProcessor.Process(incomingMessage, sender, coordinator)`: the
user logic is an interface value, and what the processor observes of it is the
sequence of `Send` calls it makes before returning. -/
def Process (pp : partitionProcessor) (sender : outgoingMessageSender) :
    List OutgoingMessage → Except Fault (partitionProcessor × outgoingMessageSender)
  | [] => .ok (pp, sender)
  | msg :: rest =>
    match sender.Send pp msg with
    | .error e => .error e
    | .ok r => Process r.1 r.2 rest

/-! ## Compaction -/

/-- The loop of `pruneInFlightMessageGroupsForTopic` on the queue of one topic. -/
def pruneLoop : List inFlightMessageGroup → List inFlightMessageGroup
  | [] => []
  | headGroup :: tail =>
    match tail with
    | [] => [headGroup]
    | nextGroup :: _ =>
      if !headGroup.allAcksAreTrue || !nextGroup.allAcksAreTrue then headGroup :: tail
      else pruneLoop tail

def pruneInFlightMessageGroupsForTopic (pp : partitionProcessor) (topic : Topic) :
    partitionProcessor :=
  { pp with
    inFlightMessageGroups :=
      Function.update pp.inFlightMessageGroups topic (pruneLoop (pp.inFlightMessageGroups topic)) }

def pruneInFlightMessageGroups (pp : partitionProcessor) : partitionProcessor :=
  pp.inputTopics.foldl pruneInFlightMessageGroupsForTopic pp

/-! ## Consuming -/

def processConsumerMessage (pp : partitionProcessor) (consumerMessage : ConsumerMessage)
    (sends : List OutgoingMessage) : Except Fault partitionProcessor :=
  match pp.TopicSerdes consumerMessage.topic with
  | none =>
    .error (.fatal ("Could not find Serde for topic '" ++ consumerMessage.topic ++ "'"))
  | some topicSerde =>
    let incomingMessage : IncomingMessage :=
      { addr := pp.nextAddr
        topic := consumerMessage.topic
        partition := consumerMessage.partition
        offset := consumerMessage.offset
        key := topicSerde.KeySerde.Deserialize consumerMessage.key
        value := topicSerde.ValueSerde.Deserialize consumerMessage.value
        timestamp := consumerMessage.timestamp }
    let sender := newOutgoingMessageSender incomingMessage
    match Process { pp with nextAddr := pp.nextAddr + 1 } sender sends with
    | .error e => .error e
    | .ok r =>
      let group := r.2.createInFlightMessageGroup
      .ok (pruneInFlightMessageGroups
        { r.1 with
          inFlightMessageGroups :=
            Function.update r.1.inFlightMessageGroups consumerMessage.topic
              (r.1.inFlightMessageGroups consumerMessage.topic ++ [group]) })

/-! ## Committing -/

/-- The loop of `markOffsetsForTopic`: the running `offset` and the queue. -/
def markLoop : Offset → List inFlightMessageGroup → Offset × List inFlightMessageGroup
  | offset, [] => (offset, [])
  | offset, group :: rest =>
    if !group.allAcksAreTrue then (offset, group :: rest)
    else markLoop group.incomingMessage.offset rest

def markOffsetsForTopic (pp : partitionProcessor) (topic : Topic) :
    Except Fault partitionProcessor :=
  let walk := markLoop (-1) (pp.inFlightMessageGroups topic)
  let groups := Function.update pp.inFlightMessageGroups topic walk.2
  if walk.1 != -1 then
    match pp.offsetManagers topic with
    | none => .error (.panic "nil offset manager")
    | some marked =>
      .ok { pp with
            inFlightMessageGroups := groups
            offsetManagers :=
              Function.update pp.offsetManagers topic (some (marked ++ [int64 (walk.1 + 1)])) }
  else .ok { pp with inFlightMessageGroups := groups }

/-- The `for _, topic := range pp.topicProcessor.inputTopics` loop of `markOffsets`. -/
def markOffsetsLoop : partitionProcessor → List Topic → Except Fault partitionProcessor
  | pp, [] => .ok pp
  | pp, topic :: rest =>
    match markOffsetsForTopic pp topic with
    | .error e => .error e
    | .ok pp1 => markOffsetsLoop pp1 rest

def markOffsets (pp : partitionProcessor) : Except Fault partitionProcessor :=
  markOffsetsLoop pp pp.inputTopics

/-! ## Send completions -/

/-- The inner loop of `processProducerMessageSuccess`: sets the flag of the first
in-flight message whose record is `producerMessage`; `none` when `foundMsg` stays false. -/
def ackLoop (producerMessage : ProducerMessage) :
    List inFlightMessage → Option (List inFlightMessage)
  | [] => none
  | m :: rest =>
    if m.msg.addr == producerMessage.addr then some ({ m with ack := true } :: rest)
    else (ackLoop producerMessage rest).map (fun r => m :: r)

/-- The outer loop of `processProducerMessageSuccess` on the queue of the topic. -/
def groupLoop (incomingMessage : IncomingMessage) (producerMessage : ProducerMessage) :
    List inFlightMessageGroup → Except Fault (List inFlightMessageGroup)
  | [] => .error (.fatal "Could not find group in inFlightMessageGroups")
  | group :: rest =>
    if group.incomingMessage.addr == incomingMessage.addr then
      match ackLoop producerMessage (group.inFlightMessages.getD []) with
      | none => .error (.fatal "Could not find producer message in inFlightMessageGroups")
      | some msgs => .ok ({ group with inFlightMessages := some msgs } :: rest)
    else
      match groupLoop incomingMessage producerMessage rest with
      | .error e => .error e
      | .ok r => .ok (group :: r)

def processProducerMessageSuccess (pp : partitionProcessor) (producerMessage : ProducerMessage) :
    Except Fault partitionProcessor :=
  match producerMessage.metadata with
  | none => .error (.panic "interface conversion: Metadata is not *IncomingMessage")
  | some incomingMessage =>
    match groupLoop incomingMessage producerMessage
        (pp.inFlightMessageGroups incomingMessage.topic) with
    | .error e => .error e
    | .ok groups =>
      .ok { pp with
            inFlightMessageGroups :=
              Function.update pp.inFlightMessageGroups incomingMessage.topic groups }

/-! ## The event loop of one partition -/

/-- Modelled from the spec: the three event sources that the single-threaded loop of
one partition serialises (a consumed record together with the `Send` calls the user
logic makes for it, a successful send completion, the commit timer).  The loop
itself belongs to the topic processor, which is outside these sources. -/
inductive Event where
  | consumerMessage (consumerMessage : ConsumerMessage) (sends : List OutgoingMessage)
  | producerSuccess (producerMessage : ProducerMessage)
  | markOffsetsTick
deriving DecidableEq

/-- One iteration of the loop: the handler of the event. -/
def step (pp : partitionProcessor) : Event → Except Fault partitionProcessor
  | .consumerMessage consumerMessage sends => processConsumerMessage pp consumerMessage sends
  | .producerSuccess producerMessage => processProducerMessageSuccess pp producerMessage
  | .markOffsetsTick => markOffsets pp

/-- The loop on a finite sequence of events; it stops at the first fault. -/
def run (pp : partitionProcessor) : List Event → Except Fault partitionProcessor
  | [] => .ok pp
  | e :: rest =>
    match step pp e with
    | .error f => .error f
    | .ok pp1 => run pp1 rest

/-! ## Vocabulary of the properties -/

/-- The elements of the in-flight slice of a group (a nil slice has none). -/
def inFlightMessageGroup.messages (group : inFlightMessageGroup) : List inFlightMessage :=
  group.inFlightMessages.getD []

/-- Length of the longest head segment of a queue in which every group is fully
acknowledged. -/
def ackedPrefixLength (q : List inFlightMessageGroup) : Nat :=
  (q.takeWhile inFlightMessageGroup.allAcksAreTrue).length

/-- The state `pp` with the queue of `topic` replaced by `q`. -/
def withQueue (pp : partitionProcessor) (topic : Topic) (q : List inFlightMessageGroup) :
    partitionProcessor :=
  { pp with inFlightMessageGroups := Function.update pp.inFlightMessageGroups topic q }

/-- The consumed records of a sequence of events, in order. -/
def consumedMessages (evs : List Event) : List ConsumerMessage :=
  evs.filterMap (fun e =>
    match e with
    | .consumerMessage consumerMessage _ => some consumerMessage
    | _ => none)

/-- The record has been acknowledged: the events hold a successful completion for
the record at that address. -/
def acknowledgedIn (evs : List Event) (producerMessage : ProducerMessage) : Prop :=
  ∃ completed, Event.producerSuccess completed ∈ evs ∧ completed.addr = producerMessage.addr

/-- The consumed records carry non-negative 64-bit offsets, and the offsets of the
records of one topic are strictly increasing. -/
def offsetsAscend (evs : List Event) : Prop :=
  (∀ cm ∈ consumedMessages evs, 0 ≤ cm.offset ∧ cm.offset ≤ 9223372036854775807) ∧
  (consumedMessages evs).Pairwise (fun x y => x.topic = y.topic → x.offset < y.offset)

/-- A processor that has not processed anything yet: empty queues, no record sent,
no offset marked. -/
def partitionProcessor.isFresh (pp : partitionProcessor) : Prop :=
  (∀ t, pp.inFlightMessageGroups t = []) ∧ pp.producerInput = [] ∧
    ∀ t marked, pp.offsetManagers t = some marked → marked = []

/-- The invariant of the event loop, relative to the events handled so far:
the queues are strictly ascending in offset; each queued group belongs to the topic
of its queue and to a consumed record; each record sent belongs to a consumed
record and is either acknowledged or still queued with its flag unset; each marked
value is `int64(o + 1)` for a consumed offset `o` of the topic up to which every
record sent has been acknowledged. -/
structure LoopInvariant (evs : List Event) (pp : partitionProcessor) : Prop where
  sorted : ∀ t, (pp.inFlightMessageGroups t).Pairwise
    (fun x y => x.incomingMessage.offset < y.incomingMessage.offset)
  queued : ∀ t, ∀ g ∈ pp.inFlightMessageGroups t,
    g.incomingMessage.topic = t ∧
      ∃ cm ∈ consumedMessages evs, cm.topic = t ∧ cm.offset = g.incomingMessage.offset
  sent : ∀ pm ∈ pp.producerInput, ∀ im, pm.metadata = some im →
    (∃ cm ∈ consumedMessages evs, cm.topic = im.topic ∧ cm.offset = im.offset) ∧
    (acknowledgedIn evs pm ∨
      ∃ g ∈ pp.inFlightMessageGroups im.topic, g.incomingMessage.offset = im.offset ∧
        ∃ m ∈ g.messages, m.msg.addr = pm.addr ∧ m.ack = false)
  written : ∀ t marked, pp.offsetManagers t = some marked → ∀ v ∈ marked,
    ∃ cm ∈ consumedMessages evs, cm.topic = t ∧ v = int64 (cm.offset + 1) ∧
      ∀ pm ∈ pp.producerInput, ∀ im, pm.metadata = some im → im.topic = t →
        im.offset ≤ cm.offset → acknowledgedIn evs pm

/-- The values passed to `MarkOffset` for a topic in the final state of a run
(`none` after a fault or without a manager). -/
def committed (topic : Topic) (r : Except Fault partitionProcessor) : Option (List Int) :=
  match r with
  | .error _ => none
  | .ok pp => pp.offsetManagers topic

/-- Merges of `x :: xs` with a second sequence, given the merges `mergesTail` of `xs`
with any second sequence. -/
def mergesCons {α : Type} (x : α) (mergesTail : List α → List (List α)) :
    List α → List (List α)
  | [] => (mergesTail []).map (fun l => x :: l)
  | y :: ys =>
    (mergesTail (y :: ys)).map (fun l => x :: l) ++
      (mergesCons x mergesTail ys).map (fun l => y :: l)

/-- All the ways of merging two sequences while keeping the order inside each. -/
def merges {α : Type} : List α → List α → List (List α)
  | [] => fun ys => [ys]
  | x :: xs => mergesCons x (merges xs)

/-! ## A concrete processor: one input topic, "orders" -/

def textSerde : Serde :=
  { Serialize := fun s => s.toList.map Char.toNat
    Deserialize := fun b => String.mk (b.map Char.ofNat) }

/-- A processor as `newPartitionProcessor` returns it: serdes for "orders" and
"shipments", input topic "orders" with its offset manager, empty queues. -/
def ordersProcessor : partitionProcessor :=
  { TopicSerdes := fun t =>
      if t = "orders" ∨ t = "shipments" then some ⟨textSerde, textSerde⟩ else none
    inputTopics := ["orders"]
    offsetManagers := fun t => if t = "orders" then some [] else none
    producerInput := []
    inFlightMessageGroups := fun _ => []
    nextAddr := 0 }

def ordersMessage (offset : Int) : ConsumerMessage :=
  { topic := "orders", partition := 0, offset := offset, key := [], value := [], timestamp := 0 }

def shipment : OutgoingMessage :=
  { topic := "shipments", partition := 0, key := "k", value := "v" }

/-- The incoming message built from `ordersMessage offset` when it is allocated at `addr`. -/
def ordersIncoming (addr : Addr) (offset : Int) : IncomingMessage :=
  { addr := addr, topic := "orders", partition := 0, offset := offset, key := "", value := "",
    timestamp := 0 }

/-- The record built by `Send` for `shipment` when it is allocated at `addr`. -/
def shipmentRecord (addr : Addr) (incomingMessage : IncomingMessage) : ProducerMessage :=
  { addr := addr, topic := "shipments", key := [107], value := [118], partition := 0,
    metadata := some incomingMessage }

/-- A group of `ordersIncoming addr offset` with the given acknowledgment flags, its
records allocated right after the message. -/
def ordersGroup (addr : Addr) (offset : Int) (acks : Option (List Bool)) : inFlightMessageGroup :=
  { incomingMessage := ordersIncoming addr offset
    inFlightMessages :=
      acks.map (fun l =>
        l.enum.map (fun p =>
          { msg := shipmentRecord (addr + 1 + p.1) (ordersIncoming addr offset), ack := p.2 })) }

/-- The state `ordersProcessor` with the given queue for "orders" and the allocator
past the addresses used in the queue. -/
def ordersProcessorWith (q : List inFlightMessageGroup) : partitionProcessor :=
  { ordersProcessor with
    inFlightMessageGroups := fun t => if t = "orders" then q else []
    nextAddr := 100 }

/-- The end-to-end scenario: offsets 10, 11, 12 emit 2, 0 and 1 records. -/
def consume10 : Event := .consumerMessage (ordersMessage 10) [shipment, shipment]
def consume11 : Event := .consumerMessage (ordersMessage 11) []
def consume12 : Event := .consumerMessage (ordersMessage 12) [shipment]
def ack10a : Event := .producerSuccess (shipmentRecord 1 (ordersIncoming 0 10))
def ack10b : Event := .producerSuccess (shipmentRecord 2 (ordersIncoming 0 10))
def ack12 : Event := .producerSuccess (shipmentRecord 5 (ordersIncoming 4 12))

/-- Every order of events in which the three messages are consumed, both records of
offset 10 are acknowledged after it was processed, the record of offset 12 is not,
and the commit pass runs at the end. -/
def stopCaseTraces : List (List Event) :=
  (merges [consume11, consume12] [ack10a, ack10b] ++
    merges [consume11, consume12] [ack10b, ack10a]).map
      (fun tr => consume10 :: tr ++ [Event.markOffsetsTick])

/-- Every order of events in which the three messages are consumed, every record is
acknowledged after its message was processed, and the commit pass runs at the end. -/
def allAcknowledgedTraces : List (List Event) :=
  (merges [consume11, consume12, ack12] [ack10a, ack10b] ++
    merges [consume11, consume12, ack12] [ack10b, ack10a]).map
      (fun tr => consume10 :: tr ++ [Event.markOffsetsTick])

/-- The invariant behind the matching of completions, relative to the events handled
so far: the groups in the queues were allocated before the next address and have
distinct addresses within a queue; each record sent refers back to a message and is
either acknowledged or held, with its flag unset, by the group of that message in
the queue of the message's topic. -/
structure TrackingInvariant (evs : List Event) (pp : partitionProcessor) : Prop where
  allocated : ∀ t, ∀ g ∈ pp.inFlightMessageGroups t, g.incomingMessage.addr < pp.nextAddr
  distinct : ∀ t, ((pp.inFlightMessageGroups t).map (fun g => g.incomingMessage.addr)).Nodup
  tracked : ∀ pm ∈ pp.producerInput, ∃ im, pm.metadata = some im ∧
    (acknowledgedIn evs pm ∨
      ∃ g ∈ pp.inFlightMessageGroups im.topic, g.incomingMessage.addr = im.addr ∧
        ∃ m ∈ g.messages, m.msg.addr = pm.addr ∧ m.ack = false)

/-- The invariant behind the forward movement of the marked offsets: the values
passed to the offset manager of a topic are strictly increasing, and none exceeds
the offset of a group still in the queue of the topic. -/
structure ForwardInvariant (pp : partitionProcessor) : Prop where
  ordered : ∀ t marked, pp.offsetManagers t = some marked →
    marked.Pairwise (fun v w => v < w)
  below : ∀ t marked, pp.offsetManagers t = some marked → ∀ v ∈ marked,
    ∀ g ∈ pp.inFlightMessageGroups t, v ≤ g.incomingMessage.offset

/-- The messages of offsets 2^63 - 2 and 2^63 - 1, the two largest 64-bit offsets,
each without output and each followed by the commit pass. -/
def lastOffsetsTrace : List Event :=
  [Event.consumerMessage (ordersMessage 9223372036854775806) [], Event.markOffsetsTick,
    Event.consumerMessage (ordersMessage 9223372036854775807) [], Event.markOffsetsTick]

/-! ## Startup -/

/-- Modelled from the spec: sarama's `OffsetNewest`, the "latest" position; the
constant is declared in the sarama library. -/
def OffsetNewest : Int := -1

/-- Modelled from the spec: sarama's `OffsetOldest`, the "earliest available"
position; the constant is declared in the sarama library. -/
def OffsetOldest : Int := -2

/-- Modelled from the spec: the Broker Client boundary as `newPartitionProcessor`
uses it (the sarama client, consumer, offset manager and producer are outside these
sources).
* `newConsumerFromClient` is the `err` of `sarama.NewConsumerFromClient` (`none`: nil);
* `managePartition topic partition` is `ManagePartition`: an error, or the manager,
  given by the offset that its `NextOffset()` returns;
* `getOffset topic partition time` is `client.GetOffset`;
* `consumePartition topic partition offset` is the `err` of `ConsumePartition`;
* `newAsyncProducer` is the `err` of `sarama.NewAsyncProducer`. -/
structure BrokerClient where
  newConsumerFromClient : Option String
  managePartition : String → Int → Except String Int
  getOffset : String → Int → Int → Except String Int
  consumePartition : String → Int → Int → Option String
  newAsyncProducer : Option String

/-- A consumption stream, given by the arguments of the `ConsumePartition` call that
opened it. -/
structure PartitionConsumer where
  topic : String
  partition : Int
  offset : Int
deriving DecidableEq

/-- Modelled from the spec: the part of the topic processor that
`newPartitionProcessor` reads (its declaration is outside these sources). -/
structure TopicProcessor where
  client : BrokerClient
  inputTopics : List Topic
  TopicSerdes : Topic → Option TopicSerde

/-- The `for i, topic := range tp.inputTopics` loop of `newPartitionProcessor`: the
streams opened so far and the offset managers. -/
def newPartitionProcessorLoop (tp : TopicProcessor) (partition : Partition) :
    List Topic → List PartitionConsumer → (Topic → Option (List Int)) →
      Except Fault (List PartitionConsumer × (Topic → Option (List Int)))
  | [], partitionConsumers, partitionOffsetManagers =>
    .ok (partitionConsumers, partitionOffsetManagers)
  | topic :: rest, partitionConsumers, partitionOffsetManagers =>
    match tp.client.managePartition topic (int32 partition) with
    | .error err => .error (.fatal err)
    | .ok pomNextOffset =>
      match tp.client.getOffset topic (int32 partition) OffsetNewest with
      | .error err => .error (.fatal err)
      | .ok newestOffset =>
        let nextOffset := if pomNextOffset > newestOffset then OffsetNewest else pomNextOffset
        match tp.client.consumePartition topic (int32 partition) nextOffset with
        | some err => .error (.fatal err)
        | none =>
          newPartitionProcessorLoop tp partition rest
            (partitionConsumers ++
              [{ topic := topic, partition := int32 partition, offset := nextOffset }])
            (Function.update partitionOffsetManagers topic (some []))

/-- The streams opened by `newPartitionProcessor` and the processor it returns (the
allocator starts at address 0). -/
def newPartitionProcessor (tp : TopicProcessor) (partition : Partition) :
    Except Fault (List PartitionConsumer × partitionProcessor) :=
  match tp.client.newConsumerFromClient with
  | some err => .error (.fatal err)
  | none =>
    match newPartitionProcessorLoop tp partition tp.inputTopics [] (fun _ => none) with
    | .error f => .error f
    | .ok r =>
      match tp.client.newAsyncProducer with
      | some err => .error (.fatal err)
      | none =>
        .ok (r.1,
          { TopicSerdes := tp.TopicSerdes
            inputTopics := tp.inputTopics
            offsetManagers := r.2
            producerInput := []
            inFlightMessageGroups := fun _ => []
            nextAddr := 0 })

/-- Modelled from the spec: a Broker Client that answers every request of
`newPartitionProcessor` and, as the sarama library does, opens a stream only at
"latest", at "earliest", or at an offset from the earliest available to the newest
offset of the topic; any other offset is refused (sarama's `ErrOffsetOutOfRange`).
`stored` is the next-offset held by the offset manager of the topic. -/
def rangeCheckedClient (stored earliest newest : Topic → Int) : BrokerClient :=
  { newConsumerFromClient := none
    managePartition := fun topic _ => .ok (stored topic)
    getOffset := fun topic _ time =>
      if time = OffsetOldest then .ok (earliest topic) else .ok (newest topic)
    consumePartition := fun topic _ offset =>
      if offset = OffsetNewest ∨ offset = OffsetOldest ∨
          (earliest topic ≤ offset ∧ offset ≤ newest topic) then none
      else some "kafka server: The requested offset is outside the range of offsets"
    newAsyncProducer := none }

/-- A topic processor for the input topic "orders" over `rangeCheckedClient`, with
the stored next-offset `stored`, the earliest available offset `earliest` and the
newest offset `newest`. -/
def ordersTopicProcessor (stored earliest newest : Int) : TopicProcessor :=
  { client := rangeCheckedClient (fun _ => stored) (fun _ => earliest) (fun _ => newest)
    inputTopics := ["orders"]
    TopicSerdes := fun t =>
      if t = "orders" ∨ t = "shipments" then some ⟨textSerde, textSerde⟩ else none }

/-- The fault of an outcome, if it is one. -/
def faultOf {α : Type} : Except Fault α → Option Fault
  | .error f => some f
  | .ok _ => none

/-! ## The key-value companion library (`kv.go`) -/

namespace kv

/-- A key-value pair (`value` is an `interface{}` in the code). -/
structure Entry (V : Type) where
  key : String
  value : V
deriving DecidableEq

/-- A Go `map[string]interface{}`, represented by its entries; the keys of a map are
distinct. -/
abbrev GoMap (V : Type) := List (String × V)

/-- The assignment `res[key] = value` on a map. -/
def mapSet {V : Type} (key : String) (value : V) : GoMap V → GoMap V
  | [] => [(key, value)]
  | (k, v) :: rest => if k = key then (key, value) :: rest else (k, v) :: mapSet key value rest

/-- The `for _, entry := range entries` loop of `ToMap`; a nil entry pointer makes
`entry.key` panic. -/
def toMapLoop {V : Type} : List (Option (Entry V)) → GoMap V → Except Fault (GoMap V)
  | [], res => .ok res
  | none :: _, _ => .error (.panic "nil pointer dereference")
  | some entry :: rest, res => toMapLoop rest (mapSet entry.key entry.value res)

/-- The two results of `ToMap`: the map (`none`: the nil map) and the error (`none`: nil). -/
def ToMap {V : Type} (entries : List (Option (Entry V))) (err : Option String) :
    Except Fault (Option (GoMap V) × Option String) :=
  match err with
  | some e => .ok (none, some e)
  | none =>
    match toMapLoop entries [] with
    | .error f => .error f
    | .ok res => .ok (some res, none)

/-- The `for key, value := range m` loop of `FromMap`, on the entries in the order in
which the iteration visits them; an index outside `res` panics. -/
def fromMapLoop {V : Type} :
    List (String × V) → List (Option (Entry V)) → Nat → Except Fault (List (Option (Entry V)))
  | [], res, _ => .ok res
  | (key, value) :: rest, res, i =>
    if i < res.length then
      fromMapLoop rest (res.set i (some { key := key, value := value })) (i + 1)
    else .error (.panic "index out of range")

/-- The result of `FromMap m` when the iteration over `m`, whose order Go leaves
unspecified, visits the entries in the order `iteration`. -/
def FromMap {V : Type} (m : GoMap V) (iteration : List (String × V)) :
    Except Fault (List (Option (Entry V))) :=
  fromMapLoop iteration (List.replicate m.length none) 0

end kv

/-! # Properties -/

/-! ## Basic facts on the loops -/

theorem allAcksLoop_iff (msgs : List inFlightMessage) :
    allAcksLoop msgs = true ↔ ∀ m ∈ msgs, m.ack = true := by
  induction msgs with
  | nil => simp [allAcksLoop]
  | cons m rest ih =>
    cases hm : m.ack <;> simp [allAcksLoop, hm, ih]

theorem allAcksAreTrue_iff (group : inFlightMessageGroup) :
    group.allAcksAreTrue = true ↔ ∀ m ∈ group.messages, m.ack = true := by
  unfold inFlightMessageGroup.allAcksAreTrue inFlightMessageGroup.messages
  cases h : group.inFlightMessages with
  | none => simp
  | some msgs => simp [allAcksLoop_iff]

theorem ackedPrefixLength_le (q : List inFlightMessageGroup) :
    ackedPrefixLength q ≤ q.length := by
  unfold ackedPrefixLength
  exact (List.takeWhile_sublist _).length_le

theorem take_ackedPrefixLength (q : List inFlightMessageGroup) :
    q.take (ackedPrefixLength q) = q.takeWhile inFlightMessageGroup.allAcksAreTrue := by
  induction q with
  | nil => rfl
  | cons g rest ih =>
    unfold ackedPrefixLength at *
    cases hg : g.allAcksAreTrue <;> simp [List.takeWhile, hg, ih]

theorem drop_ackedPrefixLength (q : List inFlightMessageGroup) :
    q.drop (ackedPrefixLength q) = q.dropWhile inFlightMessageGroup.allAcksAreTrue := by
  induction q with
  | nil => rfl
  | cons g rest ih =>
    unfold ackedPrefixLength at *
    cases hg : g.allAcksAreTrue <;> simp [List.takeWhile, List.dropWhile, hg, ih]

/-- The number computed by `ackedPrefixLength` is the length of the longest head
segment whose groups are all fully acknowledged. -/
theorem ackedPrefixLength_spec (q : List inFlightMessageGroup) :
    ackedPrefixLength q ≤ q.length ∧
    (∀ g ∈ q.take (ackedPrefixLength q), g.allAcksAreTrue = true) ∧
    ∀ j, j ≤ q.length → (∀ g ∈ q.take j, g.allAcksAreTrue = true) →
      j ≤ ackedPrefixLength q := by
  refine ⟨ackedPrefixLength_le q, ?_, ?_⟩
  · intro g hg
    rw [take_ackedPrefixLength] at hg
    exact List.mem_takeWhile_imp hg
  · induction q with
    | nil => intro j hj _; simp at hj; simp [hj]
    | cons g rest ih =>
      intro j hj hall
      cases j with
      | zero => exact Nat.zero_le _
      | succ j =>
        have hg : g.allAcksAreTrue = true := hall g (by simp)
        have hrest : ∀ x ∈ rest.take j, x.allAcksAreTrue = true := by
          intro x hx
          exact hall x (by simp [hx])
        have := ih j (by simpa using hj) hrest
        unfold ackedPrefixLength at *
        simp [List.takeWhile, hg]
        exact this

theorem markLoop_snd (offset : Offset) (q : List inFlightMessageGroup) :
    (markLoop offset q).2 = q.drop (ackedPrefixLength q) := by
  induction q generalizing offset with
  | nil => rfl
  | cons g rest ih =>
    unfold ackedPrefixLength at *
    cases hg : g.allAcksAreTrue <;> simp [markLoop, List.takeWhile, hg, ih]

theorem markLoop_fst_zero (offset : Offset) (q : List inFlightMessageGroup)
    (hk : ackedPrefixLength q = 0) : (markLoop offset q).1 = offset := by
  cases q with
  | nil => rfl
  | cons g rest =>
    unfold ackedPrefixLength at hk
    cases hg : g.allAcksAreTrue <;> simp_all [markLoop, List.takeWhile]

theorem markLoop_fst_pos (offset : Offset) (q : List inFlightMessageGroup)
    (hk : 1 ≤ ackedPrefixLength q) :
    ∃ g, q[ackedPrefixLength q - 1]? = some g ∧ (markLoop offset q).1 = g.incomingMessage.offset := by
  induction q generalizing offset with
  | nil => simp [ackedPrefixLength] at hk
  | cons g rest ih =>
    cases hg : g.allAcksAreTrue with
    | false => simp [ackedPrefixLength, List.takeWhile, hg] at hk
    | true =>
      have hlen : ackedPrefixLength (g :: rest) = ackedPrefixLength rest + 1 := by
        simp [ackedPrefixLength, List.takeWhile, hg]
      rw [hlen]
      by_cases hr : ackedPrefixLength rest = 0
      · refine ⟨g, by simp [hr], ?_⟩
        simp [markLoop, hg, markLoop_fst_zero _ _ hr]
      · obtain ⟨g', hg', hoff⟩ := ih g.incomingMessage.offset (by omega)
        refine ⟨g', ?_, ?_⟩
        · have : ackedPrefixLength rest + 1 - 1 = (ackedPrefixLength rest - 1) + 1 := by omega
          rw [this]
          simpa using hg'
        · simpa [markLoop, hg] using hoff

theorem pruneLoop_of_head_unacked (g : inFlightMessageGroup) (rest : List inFlightMessageGroup)
    (hg : g.allAcksAreTrue = false) : pruneLoop (g :: rest) = g :: rest := by
  cases rest with
  | nil => rfl
  | cons n t => simp [pruneLoop, hg]

theorem pruneLoop_ne_nil (q : List inFlightMessageGroup) (hq : q ≠ []) : pruneLoop q ≠ [] := by
  induction q with
  | nil => exact absurd rfl hq
  | cons g rest ih =>
    cases rest with
    | nil => simp [pruneLoop]
    | cons n t =>
      unfold pruneLoop
      simp only
      split
      · simp
      · exact ih (by simp)

/-- What compaction removes is a head segment of fully acknowledged groups. -/
theorem pruneLoop_split (q : List inFlightMessageGroup) :
    ∃ removed, q = removed ++ pruneLoop q ∧ ∀ g ∈ removed, g.allAcksAreTrue = true := by
  induction q with
  | nil => exact ⟨[], rfl, by simp⟩
  | cons g rest ih =>
    cases rest with
    | nil => exact ⟨[], rfl, by simp⟩
    | cons n t =>
      unfold pruneLoop
      simp only
      split
      · exact ⟨[], rfl, by simp⟩
      · rename_i h
        obtain ⟨removed, hsplit, hall⟩ := ih
        refine ⟨g :: removed, by simpa using hsplit, ?_⟩
        intro x hx
        rcases List.mem_cons.mp hx with rfl | hx
        · simp at h; exact h.1
        · exact hall x hx

theorem pruneLoop_all_acked (q : List inFlightMessageGroup) (hq : q ≠ [])
    (hall : ∀ g ∈ q, g.allAcksAreTrue = true) : pruneLoop q = [q.getLast hq] := by
  induction q with
  | nil => exact absurd rfl hq
  | cons g rest ih =>
    cases rest with
    | nil => rfl
    | cons n t =>
      have hg := hall g (by simp)
      have hn := hall n (by simp)
      have := ih (by simp) (fun x hx => hall x (List.mem_cons_of_mem _ hx))
      unfold pruneLoop
      simp [hg, hn, this]


/-! ## Full acknowledgment (C9) -/

/-- C9: `allAcksAreTrue` returns true exactly when every in-flight message of the
group has `ack = true`; in particular it returns true for a group whose in-flight
slice is nil and for one whose slice is empty. -/
theorem allAcksAreTrue_decides_full_acknowledgment :
    (∀ g : inFlightMessageGroup,
      g.allAcksAreTrue = true ↔
        ∀ msgs, g.inFlightMessages = some msgs → ∀ m ∈ msgs, m.ack = true) ∧
    (∀ im : IncomingMessage,
      inFlightMessageGroup.allAcksAreTrue { incomingMessage := im, inFlightMessages := none }
        = true) ∧
    (∀ im : IncomingMessage,
      inFlightMessageGroup.allAcksAreTrue { incomingMessage := im, inFlightMessages := some [] }
        = true) := by
  refine ⟨?_, ?_, ?_⟩
  · intro g
    rw [allAcksAreTrue_iff]
    unfold inFlightMessageGroup.messages
    cases h : g.inFlightMessages with
    | none => simp
    | some msgs => simp
  · intro im; rfl
  · intro im; rfl

/-! ## Compaction (C7, C8) -/

/-- C7: a queue of exactly `K ≥ 1` groups that are all fully acknowledged is reduced
by `pruneInFlightMessageGroupsForTopic` to exactly one group, the last of the `K`; a
queue whose head group is not fully acknowledged is left as it is. -/
theorem prune_compaction_boundary (pp : partitionProcessor) (topic : Topic) :
    (∀ K : Nat, 1 ≤ K → (pp.inFlightMessageGroups topic).length = K →
      (∀ g ∈ pp.inFlightMessageGroups topic, g.allAcksAreTrue = true) →
      ∃ last, (pp.inFlightMessageGroups topic).getLast? = some last ∧
        (pruneInFlightMessageGroupsForTopic pp topic).inFlightMessageGroups topic = [last]) ∧
    (∀ head rest, pp.inFlightMessageGroups topic = head :: rest →
      head.allAcksAreTrue = false →
      pruneInFlightMessageGroupsForTopic pp topic = pp) := by
  constructor
  · intro K hK hlen hall
    have hne : pp.inFlightMessageGroups topic ≠ [] := by
      intro h
      rw [h] at hlen
      simp at hlen
      omega
    refine ⟨(pp.inFlightMessageGroups topic).getLast hne, List.getLast?_eq_getLast _ hne, ?_⟩
    simp [pruneInFlightMessageGroupsForTopic, pruneLoop_all_acked _ hne hall]
  · intro head rest hq hhead
    unfold pruneInFlightMessageGroupsForTopic
    rw [hq, pruneLoop_of_head_unacked head rest hhead, ← hq, Function.update_eq_self]

/-- Witness of C7 on the queue of three fully acknowledged groups at offsets 10, 11,
12, and on a queue whose head has an unacknowledged record. -/
theorem prune_compaction_boundary_witness :
    (pruneInFlightMessageGroupsForTopic
        (ordersProcessorWith
          [ordersGroup 0 10 (some [true, true]), ordersGroup 3 11 none,
            ordersGroup 4 12 (some [true])])
        "orders").inFlightMessageGroups "orders" = [ordersGroup 4 12 (some [true])] ∧
    pruneInFlightMessageGroupsForTopic
        (ordersProcessorWith
          [ordersGroup 0 10 (some [true, false]), ordersGroup 3 11 none]) "orders" =
      ordersProcessorWith [ordersGroup 0 10 (some [true, false]), ordersGroup 3 11 none] := by
  constructor
  · obtain ⟨last, hlast, hres⟩ :=
      (prune_compaction_boundary
        (ordersProcessorWith
          [ordersGroup 0 10 (some [true, true]), ordersGroup 3 11 none,
            ordersGroup 4 12 (some [true])]) "orders").1 3 (by decide) (by decide) (by decide)
    have : last = ordersGroup 4 12 (some [true]) := by
      have h : (some (ordersGroup 4 12 (some [true])) : Option inFlightMessageGroup) = some last := by
        rw [← hlast]; decide
      exact (Option.some.inj h).symm
    rw [hres, this]
  · exact (prune_compaction_boundary _ "orders").2
      (ordersGroup 0 10 (some [true, false])) [ordersGroup 3 11 none] (by decide) (by decide)

/-- C8: the queue left by `pruneInFlightMessageGroupsForTopic` is a tail segment of
the queue it was given, is non-empty when that queue was non-empty, every removed
group was fully acknowledged, and every group that is not fully acknowledged is
still there. -/
theorem prune_is_conservative (pp : partitionProcessor) (topic : Topic) :
    (∃ removed,
      pp.inFlightMessageGroups topic =
        removed ++ (pruneInFlightMessageGroupsForTopic pp topic).inFlightMessageGroups topic ∧
      ∀ g ∈ removed, g.allAcksAreTrue = true) ∧
    (pp.inFlightMessageGroups topic ≠ [] →
      (pruneInFlightMessageGroupsForTopic pp topic).inFlightMessageGroups topic ≠ []) ∧
    (∀ g ∈ pp.inFlightMessageGroups topic, g.allAcksAreTrue = false →
      g ∈ (pruneInFlightMessageGroupsForTopic pp topic).inFlightMessageGroups topic) := by
  have hq : (pruneInFlightMessageGroupsForTopic pp topic).inFlightMessageGroups topic =
      pruneLoop (pp.inFlightMessageGroups topic) := by
    simp [pruneInFlightMessageGroupsForTopic]
  rw [hq]
  obtain ⟨removed, hsplit, hall⟩ := pruneLoop_split (pp.inFlightMessageGroups topic)
  refine ⟨⟨removed, hsplit, hall⟩, pruneLoop_ne_nil _, ?_⟩
  intro g hg hun
  rw [hsplit] at hg
  rcases List.mem_append.mp hg with h | h
  · rw [hall g h] at hun
    exact absurd hun (by decide)
  · exact h

/-- Witness of C8 on a non-empty queue with an unacknowledged group in it. -/
theorem prune_is_conservative_witness :
    (pruneInFlightMessageGroupsForTopic
        (ordersProcessorWith
          [ordersGroup 0 10 (some [true]), ordersGroup 2 11 none, ordersGroup 3 12 (some [false])])
        "orders").inFlightMessageGroups "orders" ≠ [] ∧
    ordersGroup 3 12 (some [false]) ∈
      (pruneInFlightMessageGroupsForTopic
        (ordersProcessorWith
          [ordersGroup 0 10 (some [true]), ordersGroup 2 11 none, ordersGroup 3 12 (some [false])])
        "orders").inFlightMessageGroups "orders" :=
  ⟨(prune_is_conservative _ "orders").2.1 (by decide),
   (prune_is_conservative _ "orders").2.2 _ (by decide) (by decide)⟩

/-! ## The commit walk (C2) -/

theorem int64_succ (o : Int) (h0 : -9223372036854775808 ≤ o) (h1 : o < 9223372036854775807) :
    int64 (o + 1) = o + 1 := by
  unfold int64
  omega

theorem ackedPrefixLength_eq_zero_iff (q : List inFlightMessageGroup) :
    ackedPrefixLength q = 0 ↔
      q = [] ∨ ∃ head rest, q = head :: rest ∧ head.allAcksAreTrue = false := by
  cases q with
  | nil => simp [ackedPrefixLength]
  | cons g rest =>
    cases hg : g.allAcksAreTrue <;> simp [ackedPrefixLength, List.takeWhile, hg]

/-- C2 (as stated, refuted): the messages of offsets 2^63 - 2 (one record, then
acknowledged) and 2^63 - 1 (no record) have been processed, so the queue holds two
fully acknowledged groups with non-negative offsets and `k = 2`; `markOffsetsForTopic`
passes -2^63 to `MarkOffset`, not offset(q[1]) + 1 = 2^63: `offset + 1` wraps around
at the largest 64-bit offset. -/
theorem commit_walk_wraps_at_last_offset :
    (run ordersProcessor
        [Event.consumerMessage (ordersMessage 9223372036854775806) [shipment],
          Event.consumerMessage (ordersMessage 9223372036854775807) [],
          Event.producerSuccess
            (shipmentRecord 1 (ordersIncoming 0 9223372036854775806))]).toOption.map
        (fun pp => pp.inFlightMessageGroups "orders") =
      some [ordersGroup 0 9223372036854775806 (some [true]),
        ordersGroup 2 9223372036854775807 none] ∧
    ackedPrefixLength
        [ordersGroup 0 9223372036854775806 (some [true]),
          ordersGroup 2 9223372036854775807 none] = 2 ∧
    committed "orders"
        ((run ordersProcessor
            [Event.consumerMessage (ordersMessage 9223372036854775806) [shipment],
              Event.consumerMessage (ordersMessage 9223372036854775807) [],
              Event.producerSuccess
                (shipmentRecord 1 (ordersIncoming 0 9223372036854775806))]).bind
          (fun pp => markOffsetsForTopic pp "orders")) =
      some [-9223372036854775808] ∧
    (-9223372036854775808 : Int) ≠
      (ordersGroup 2 9223372036854775807 none).incomingMessage.offset + 1 := by
  decide

/-- C2 (amended): let `k` be the length of the longest head segment of the queue of
`topic` whose groups are all fully acknowledged, the offsets in the queue being
non-negative and below 2^63 - 1.  If `k ≥ 1`, `markOffsetsForTopic` passes exactly
one value to the offset manager of the topic, the offset of the `k`-th group plus 1,
and leaves the queue without its first `k` groups; if `k = 0`, which is when the
queue is empty or its head is not fully acknowledged, it writes nothing and leaves
the state as it is. -/
theorem markOffsetsForTopic_commit_walk (pp : partitionProcessor) (topic : Topic)
    (hrange : ∀ g ∈ pp.inFlightMessageGroups topic,
      0 ≤ g.incomingMessage.offset ∧ g.incomingMessage.offset < 9223372036854775807) :
    (1 ≤ ackedPrefixLength (pp.inFlightMessageGroups topic) →
      ∀ marked, pp.offsetManagers topic = some marked →
      ∃ g, (pp.inFlightMessageGroups topic)[ackedPrefixLength (pp.inFlightMessageGroups topic) - 1]?
            = some g ∧
        markOffsetsForTopic pp topic =
          .ok { pp with
                inFlightMessageGroups :=
                  Function.update pp.inFlightMessageGroups topic
                    ((pp.inFlightMessageGroups topic).drop
                      (ackedPrefixLength (pp.inFlightMessageGroups topic)))
                offsetManagers :=
                  Function.update pp.offsetManagers topic
                    (some (marked ++ [g.incomingMessage.offset + 1])) }) ∧
    (ackedPrefixLength (pp.inFlightMessageGroups topic) = 0 →
      markOffsetsForTopic pp topic = .ok pp) ∧
    (ackedPrefixLength (pp.inFlightMessageGroups topic) = 0 ↔
      pp.inFlightMessageGroups topic = [] ∨
        ∃ head rest, pp.inFlightMessageGroups topic = head :: rest ∧
          head.allAcksAreTrue = false) := by
  refine ⟨?_, ?_, ackedPrefixLength_eq_zero_iff _⟩
  · intro hk marked hmarked
    obtain ⟨g, hg, hoff⟩ := markLoop_fst_pos (-1) (pp.inFlightMessageGroups topic) hk
    refine ⟨g, hg, ?_⟩
    have hmem : g ∈ pp.inFlightMessageGroups topic := List.getElem?_mem hg
    obtain ⟨h0, hmax⟩ := hrange g hmem
    have hne : g.incomingMessage.offset ≠ -1 := by
      intro h
      rw [h] at h0
      exact absurd h0 (by decide)
    have hval : int64 (g.incomingMessage.offset + 1) = g.incomingMessage.offset + 1 :=
      int64_succ g.incomingMessage.offset (le_trans (by decide) h0) hmax
    unfold markOffsetsForTopic
    simp only [hoff, markLoop_snd, hmarked, hval]
    simp [hne]
  · intro hk
    unfold markOffsetsForTopic
    simp only [markLoop_fst_zero _ _ hk, markLoop_snd, hk]
    simp

/-- Witness of the amended C2: groups at offsets 10 (acknowledged), 11 (no records)
and 12 (not acknowledged): the walk writes 12 and leaves the group of offset 12. -/
theorem markOffsetsForTopic_commit_walk_witness :
    (∀ g ∈ (ordersProcessorWith
        [ordersGroup 0 10 (some [true, true]), ordersGroup 3 11 none,
          ordersGroup 4 12 (some [false])]).inFlightMessageGroups "orders",
      0 ≤ g.incomingMessage.offset ∧ g.incomingMessage.offset < 9223372036854775807) ∧
    committed "orders"
      (markOffsetsForTopic
        (ordersProcessorWith
          [ordersGroup 0 10 (some [true, true]), ordersGroup 3 11 none,
            ordersGroup 4 12 (some [false])]) "orders") = some [12] := by
  refine ⟨by decide, ?_⟩
  obtain ⟨g, hg, hres⟩ :=
    (markOffsetsForTopic_commit_walk
      (ordersProcessorWith
        [ordersGroup 0 10 (some [true, true]), ordersGroup 3 11 none,
          ordersGroup 4 12 (some [false])]) "orders" (by decide)).1 (by decide) [] (by decide)
  rw [hres]
  have hg2 : g = ordersGroup 3 11 none := by
    have h : (some (ordersGroup 3 11 none) : Option inFlightMessageGroup) = some g := by
      rw [← hg]; decide
    exact (Option.some.inj h).symm
  subst hg2
  decide

/-! ## The end-to-end scenario (C4, C5) -/

/-- C4 (as stated, refuted): the three messages are processed, both records of offset
10 are acknowledged, the record of offset 12 is not; the commit pass then passes 12
to `MarkOffset`, not 11: the group of offset 11 has no record and is walked too. -/
theorem stop_case_commits_twelve_not_eleven :
    (run ordersProcessor [consume10, consume11, consume12, ack10a, ack10b]).toOption.map
        (fun pp => (pp.producerInput, pp.inFlightMessageGroups "orders")) =
      some
        ([shipmentRecord 1 (ordersIncoming 0 10), shipmentRecord 2 (ordersIncoming 0 10),
            shipmentRecord 5 (ordersIncoming 4 12)],
         [ordersGroup 0 10 (some [true, true]), ordersGroup 3 11 none,
            ordersGroup 4 12 (some [false])]) ∧
    committed "orders"
      (run ordersProcessor
        [consume10, consume11, consume12, ack10a, ack10b, Event.markOffsetsTick]) = some [12] ∧
    committed "orders"
      (run ordersProcessor
        [consume10, consume11, consume12, ack10a, ack10b, Event.markOffsetsTick]) ≠ some [11] := by
  decide

/-- C4 (amended): in every order of events of the stop case (messages at offsets 10,
11, 12 emitting 2, 0 and 1 records, both records of offset 10 acknowledged, the
record of offset 12 not), the commit pass commits next-offset 12 and nothing else. -/
theorem stop_case_commits_twelve :
    ∀ tr ∈ stopCaseTraces, committed "orders" (run ordersProcessor tr) = some [12] := by
  decide

/-- Witness of the amended C4 on one order of the events. -/
theorem stop_case_commits_twelve_witness :
    [consume10, ack10b, consume11, consume12, ack10a, Event.markOffsetsTick] ∈ stopCaseTraces ∧
    committed "orders"
      (run ordersProcessor
        [consume10, ack10b, consume11, consume12, ack10a, Event.markOffsetsTick]) = some [12] :=
  ⟨by decide, stop_case_commits_twelve _ (by decide)⟩

/-- C5 (as stated, refuted): the three messages are processed and all three records
are acknowledged; the commit pass then passes 13 to `MarkOffset`, not 12. -/
theorem all_acknowledged_commits_thirteen_not_twelve :
    (run ordersProcessor [consume10, consume11, consume12, ack10a, ack10b, ack12]).toOption.map
        (fun pp => (pp.producerInput, pp.inFlightMessageGroups "orders")) =
      some
        ([shipmentRecord 1 (ordersIncoming 0 10), shipmentRecord 2 (ordersIncoming 0 10),
            shipmentRecord 5 (ordersIncoming 4 12)],
         [ordersGroup 0 10 (some [true, true]), ordersGroup 3 11 none,
            ordersGroup 4 12 (some [true])]) ∧
    committed "orders"
      (run ordersProcessor
        [consume10, consume11, consume12, ack10a, ack10b, ack12, Event.markOffsetsTick]) =
      some [13] ∧
    committed "orders"
      (run ordersProcessor
        [consume10, consume11, consume12, ack10a, ack10b, ack12, Event.markOffsetsTick]) ≠
      some [12] := by
  decide

/-- C5 (amended): in every order of events of the all-acknowledged case (messages at
offsets 10, 11, 12 emitting 2, 0 and 1 records, every record acknowledged), the
commit pass commits next-offset 13 and nothing else. -/
theorem all_acknowledged_commits_thirteen :
    ∀ tr ∈ allAcknowledgedTraces, committed "orders" (run ordersProcessor tr) = some [13] := by
  decide

/-- Witness of the amended C5 on one order of the events. -/
theorem all_acknowledged_commits_thirteen_witness :
    [consume10, ack10a, consume11, ack10b, consume12, ack12, Event.markOffsetsTick] ∈
      allAcknowledgedTraces ∧
    committed "orders"
      (run ordersProcessor
        [consume10, ack10a, consume11, ack10b, consume12, ack12, Event.markOffsetsTick]) =
      some [13] :=
  ⟨by decide, all_acknowledged_commits_thirteen _ (by decide)⟩



/-! ## Zero-output immediacy (C6) -/

theorem pruneLoop_idem (q : List inFlightMessageGroup) : pruneLoop (pruneLoop q) = pruneLoop q := by
  induction q with
  | nil => rfl
  | cons g rest ih =>
    cases rest with
    | nil => rfl
    | cons n t =>
      by_cases h : (!g.allAcksAreTrue || !n.allAcksAreTrue) = true
      · have : pruneLoop (g :: n :: t) = g :: n :: t := by simp [pruneLoop, h]
        rw [this, this]
      · have : pruneLoop (g :: n :: t) = pruneLoop (n :: t) := by simp [pruneLoop, h]
        rw [this, ih]

theorem foldl_prune_fields (topics : List Topic) (pp : partitionProcessor) :
    (topics.foldl pruneInFlightMessageGroupsForTopic pp).TopicSerdes = pp.TopicSerdes ∧
    (topics.foldl pruneInFlightMessageGroupsForTopic pp).inputTopics = pp.inputTopics ∧
    (topics.foldl pruneInFlightMessageGroupsForTopic pp).offsetManagers = pp.offsetManagers ∧
    (topics.foldl pruneInFlightMessageGroupsForTopic pp).producerInput = pp.producerInput ∧
    (topics.foldl pruneInFlightMessageGroupsForTopic pp).nextAddr = pp.nextAddr := by
  induction topics generalizing pp with
  | nil => simp
  | cons t rest ih =>
    simp only [List.foldl_cons]
    obtain ⟨h1, h2, h3, h4, h5⟩ := ih (pruneInFlightMessageGroupsForTopic pp t)
    exact ⟨h1, h2, h3, h4, h5⟩

theorem foldl_prune_queue (topics : List Topic) (pp : partitionProcessor) (t : Topic) :
    (topics.foldl pruneInFlightMessageGroupsForTopic pp).inFlightMessageGroups t =
      if t ∈ topics then pruneLoop (pp.inFlightMessageGroups t) else pp.inFlightMessageGroups t := by
  induction topics generalizing pp with
  | nil => simp
  | cons t1 rest ih =>
    simp only [List.foldl_cons]
    rw [ih]
    by_cases h1 : t = t1
    · subst h1
      by_cases hr : t ∈ rest
      · simp [hr, pruneInFlightMessageGroupsForTopic, pruneLoop_idem]
      · simp [hr, pruneInFlightMessageGroupsForTopic]
    · have hq : (pruneInFlightMessageGroupsForTopic pp t1).inFlightMessageGroups t =
          pp.inFlightMessageGroups t := by
        simp [pruneInFlightMessageGroupsForTopic, Function.update_noteq h1]
      rw [hq]
      by_cases hr : t ∈ rest <;> simp [hr, h1]

theorem pruneInFlightMessageGroups_queue (pp : partitionProcessor) (t : Topic) :
    (pruneInFlightMessageGroups pp).inFlightMessageGroups t =
      if t ∈ pp.inputTopics then pruneLoop (pp.inFlightMessageGroups t)
      else pp.inFlightMessageGroups t :=
  foldl_prune_queue pp.inputTopics pp t

theorem markLoop_all_acked (offset : Offset) (q : List inFlightMessageGroup) (hq : q ≠ [])
    (hall : ∀ g ∈ q, g.allAcksAreTrue = true) :
    markLoop offset q = ((q.getLast hq).incomingMessage.offset, []) := by
  induction q generalizing offset with
  | nil => exact absurd rfl hq
  | cons g rest ih =>
    have hg := hall g (by simp)
    cases rest with
    | nil => simp [markLoop, hg]
    | cons n t =>
      have := ih g.incomingMessage.offset (by simp) (fun x hx => hall x (List.mem_cons_of_mem _ hx))
      simp [markLoop, hg] at this ⊢
      simpa [markLoop] using this

/-- C6 (as stated, refuted): a fresh processor, whose queue is empty, handles the
message of offset 2^63 - 1, which is non-negative, without any `Send` call; the
`markOffsetsForTopic` that follows passes -2^63 to `MarkOffset`, not `o + 1 = 2^63`:
`offset + 1` wraps around at the largest 64-bit offset. -/
theorem zero_output_wraps_at_last_offset :
    (0 : Int) ≤ (ordersMessage 9223372036854775807).offset ∧
    committed "orders"
        ((processConsumerMessage ordersProcessor (ordersMessage 9223372036854775807) []).bind
          (fun pp1 => markOffsetsForTopic pp1 "orders")) =
      some [-9223372036854775808] ∧
    (-9223372036854775808 : Int) ≠ (ordersMessage 9223372036854775807).offset + 1 := by
  decide

/-- C6 (amended): in a state where every group in the queue of the topic is fully
acknowledged (the queue may be empty) and the topic has a serde and an offset
manager, `processConsumerMessage` for a message with non-negative offset `o` below
2^63 - 1 whose processing makes no `Send` call returns, sends no record, and the
`markOffsetsForTopic` that follows, with no completion in between, passes `o + 1` to
`MarkOffset`. -/
theorem zero_output_immediacy (pp : partitionProcessor) (consumerMessage : ConsumerMessage)
    (topicSerde : TopicSerde) (marked : List Int)
    (hserde : pp.TopicSerdes consumerMessage.topic = some topicSerde)
    (hmanager : pp.offsetManagers consumerMessage.topic = some marked)
    (hready : ∀ g ∈ pp.inFlightMessageGroups consumerMessage.topic, g.allAcksAreTrue = true)
    (hoffset : 0 ≤ consumerMessage.offset)
    (hbelow : consumerMessage.offset < 9223372036854775807) :
    ∃ pp1 pp2,
      processConsumerMessage pp consumerMessage [] = .ok pp1 ∧
      pp1.producerInput = pp.producerInput ∧
      pp1.offsetManagers = pp.offsetManagers ∧
      markOffsetsForTopic pp1 consumerMessage.topic = .ok pp2 ∧
      pp2.offsetManagers consumerMessage.topic =
        some (marked ++ [consumerMessage.offset + 1]) := by
  let newGroup : inFlightMessageGroup :=
    { incomingMessage :=
        { addr := pp.nextAddr
          topic := consumerMessage.topic
          partition := consumerMessage.partition
          offset := consumerMessage.offset
          key := topicSerde.KeySerde.Deserialize consumerMessage.key
          value := topicSerde.ValueSerde.Deserialize consumerMessage.value
          timestamp := consumerMessage.timestamp }
      inFlightMessages := none }
  let appended : partitionProcessor :=
    { pp with
      nextAddr := pp.nextAddr + 1
      inFlightMessageGroups :=
        Function.update pp.inFlightMessageGroups consumerMessage.topic
          (pp.inFlightMessageGroups consumerMessage.topic ++ [newGroup]) }
  have hnew : processConsumerMessage pp consumerMessage [] =
      .ok (pruneInFlightMessageGroups appended) := by
    simp only [processConsumerMessage, hserde, Process]
    rfl
  have hacked : newGroup.allAcksAreTrue = true := rfl
  have hall : ∀ g ∈ pp.inFlightMessageGroups consumerMessage.topic ++ [newGroup],
      g.allAcksAreTrue = true := by
    intro g hg
    rcases List.mem_append.mp hg with h | h
    · exact hready g h
    · rw [List.mem_singleton.mp h]; exact hacked
  have hne : pp.inFlightMessageGroups consumerMessage.topic ++ [newGroup] ≠ [] := by simp
  have hwalk : (markLoop (-1)
      ((pruneInFlightMessageGroups appended).inFlightMessageGroups consumerMessage.topic)).1 =
        consumerMessage.offset := by
    rw [pruneInFlightMessageGroups_queue]
    simp only [appended, Function.update_same]
    split
    · rw [pruneLoop_all_acked _ hne hall]
      simp [markLoop, hacked, newGroup]
    · rw [markLoop_all_acked _ _ hne hall]
      simp [newGroup]
  have hneg : consumerMessage.offset ≠ -1 := by
    intro h
    rw [h] at hoffset
    exact absurd hoffset (by decide)
  have hfields := foldl_prune_fields appended.inputTopics appended
  have hman : (pruneInFlightMessageGroups appended).offsetManagers consumerMessage.topic =
      some marked := by
    rw [show (pruneInFlightMessageGroups appended).offsetManagers = appended.offsetManagers from
      hfields.2.2.1]
    exact hmanager
  have hval : int64 (consumerMessage.offset + 1) = consumerMessage.offset + 1 :=
    int64_succ consumerMessage.offset (le_trans (by decide) hoffset) hbelow
  have hmark : ∃ pp2,
      markOffsetsForTopic (pruneInFlightMessageGroups appended) consumerMessage.topic = .ok pp2 ∧
      pp2.offsetManagers consumerMessage.topic =
        some (marked ++ [consumerMessage.offset + 1]) := by
    simp only [markOffsetsForTopic, hwalk, hman, hval]
    simp [hneg]
  obtain ⟨pp2, hpp2, hwritten⟩ := hmark
  exact ⟨_, pp2, hnew, hfields.2.2.2.1, hfields.2.2.1, hpp2, hwritten⟩

/-- Witness of the amended C6: a message at offset 11 without output, behind the
fully acknowledged group of offset 10. -/
theorem zero_output_immediacy_witness :
    ∃ pp1 pp2,
      processConsumerMessage (ordersProcessorWith [ordersGroup 0 10 (some [true, true])])
        (ordersMessage 11) [] = .ok pp1 ∧
      pp1.producerInput = [] ∧
      pp1.offsetManagers = ordersProcessor.offsetManagers ∧
      markOffsetsForTopic pp1 "orders" = .ok pp2 ∧
      pp2.offsetManagers "orders" = some [12] :=
  zero_output_immediacy (ordersProcessorWith [ordersGroup 0 10 (some [true, true])])
    (ordersMessage 11) ⟨textSerde, textSerde⟩ [] rfl rfl (by decide) (by decide) (by decide)



/-! ## Send completions (C10) -/

theorem ackLoop_spec (producerMessage : ProducerMessage) (msgs : List inFlightMessage)
    (m : inFlightMessage) (hm : m ∈ msgs) (hid : m.msg.addr = producerMessage.addr)
    (hnodup : (msgs.map (fun x => x.msg.addr)).Nodup) :
    ∃ mpre mpost, msgs = mpre ++ m :: mpost ∧
      ackLoop producerMessage msgs = some (mpre ++ { m with ack := true } :: mpost) := by
  induction msgs with
  | nil => simp at hm
  | cons x rest ih =>
    rw [List.map_cons, List.nodup_cons] at hnodup
    rcases List.mem_cons.mp hm with rfl | hrest
    · exact ⟨[], rest, rfl, by simp [ackLoop, hid]⟩
    · have hx : x.msg.addr ≠ producerMessage.addr := by
        intro h
        apply hnodup.1
        rw [h, ← hid]
        exact List.mem_map_of_mem (fun x => x.msg.addr) hrest
      obtain ⟨mpre, mpost, hsplit, hres⟩ := ih hrest hnodup.2
      exact ⟨x :: mpre, mpost, by simp [hsplit], by simp [ackLoop, hx, hres]⟩

theorem groupLoop_spec (incomingMessage : IncomingMessage) (producerMessage : ProducerMessage)
    (q : List inFlightMessageGroup) (g : inFlightMessageGroup) (msgs : List inFlightMessage)
    (m : inFlightMessage) (hg : g ∈ q) (hgid : g.incomingMessage.addr = incomingMessage.addr)
    (hmsgs : g.inFlightMessages = some msgs) (hm : m ∈ msgs)
    (hmid : m.msg.addr = producerMessage.addr)
    (hgroups : (q.map (fun x => x.incomingMessage.addr)).Nodup)
    (hrecords : (msgs.map (fun x => x.msg.addr)).Nodup) :
    ∃ pre post mpre mpost, q = pre ++ g :: post ∧ msgs = mpre ++ m :: mpost ∧
      groupLoop incomingMessage producerMessage q =
        .ok (pre ++ { g with inFlightMessages := some (mpre ++ { m with ack := true } :: mpost) }
          :: post) := by
  induction q with
  | nil => simp at hg
  | cons x rest ih =>
    rw [List.map_cons, List.nodup_cons] at hgroups
    rcases List.mem_cons.mp hg with rfl | hrest
    · obtain ⟨mpre, mpost, hsplit, hres⟩ := ackLoop_spec producerMessage msgs m hm hmid hrecords
      exact ⟨[], rest, mpre, mpost, rfl, hsplit, by simp [groupLoop, hgid, hmsgs, hres]⟩
    · have hx : x.incomingMessage.addr ≠ incomingMessage.addr := by
        intro h
        apply hgroups.1
        rw [h, ← hgid]
        exact List.mem_map_of_mem (fun x => x.incomingMessage.addr) hrest
      obtain ⟨pre, post, mpre, mpost, hq, hsplit, hres⟩ := ih hrest hgroups.2
      exact ⟨x :: pre, post, mpre, mpost, by simp [hq], hsplit, by simp [groupLoop, hx, hres]⟩

/-- C10: the record `producerMessage` refers back to the message `incomingMessage`;
the queue of that message's topic holds a group `g` with that originating message
(same address), and `g` holds an in-flight message `m` for that record (same
address); addresses identify the groups of the queue and the records of the group.
Then `processProducerMessageSuccess` returns, and the new state is the old one with
the flag of `m` set to true at its place in `g`, `g` at its place in the queue:
every other flag, the groups and their order in every queue, the offset managers,
the records sent and the serdes are the same. -/
theorem processProducerMessageSuccess_sets_one_flag (pp : partitionProcessor)
    (producerMessage : ProducerMessage) (incomingMessage : IncomingMessage)
    (g : inFlightMessageGroup) (msgs : List inFlightMessage) (m : inFlightMessage)
    (hmeta : producerMessage.metadata = some incomingMessage)
    (hg : g ∈ pp.inFlightMessageGroups incomingMessage.topic)
    (hgid : g.incomingMessage.addr = incomingMessage.addr)
    (hmsgs : g.inFlightMessages = some msgs) (hm : m ∈ msgs)
    (hmid : m.msg.addr = producerMessage.addr)
    (hgroups :
      ((pp.inFlightMessageGroups incomingMessage.topic).map
        (fun x => x.incomingMessage.addr)).Nodup)
    (hrecords : (msgs.map (fun x => x.msg.addr)).Nodup) :
    ∃ pre post mpre mpost,
      pp.inFlightMessageGroups incomingMessage.topic = pre ++ g :: post ∧
      msgs = mpre ++ m :: mpost ∧
      processProducerMessageSuccess pp producerMessage =
        .ok { pp with
              inFlightMessageGroups :=
                Function.update pp.inFlightMessageGroups incomingMessage.topic
                  (pre ++
                    { g with inFlightMessages := some (mpre ++ { m with ack := true } :: mpost) }
                    :: post) } := by
  obtain ⟨pre, post, mpre, mpost, hq, hsplit, hres⟩ :=
    groupLoop_spec incomingMessage producerMessage _ g msgs m hg hgid hmsgs hm hmid hgroups hrecords
  refine ⟨pre, post, mpre, mpost, hq, hsplit, ?_⟩
  simp only [processProducerMessageSuccess, hmeta, hres]

/-- Witness of C10: the second record of the group of offset 10 is acknowledged while
the group of offset 11 has an outstanding record. -/
theorem processProducerMessageSuccess_sets_one_flag_witness :
    ∃ pre post mpre mpost,
      (ordersProcessorWith
          [ordersGroup 0 10 (some [false, false]), ordersGroup 3 11 (some [false])]
        ).inFlightMessageGroups (ordersIncoming 0 10).topic =
        pre ++ ordersGroup 0 10 (some [false, false]) :: post ∧
      [({ msg := shipmentRecord 1 (ordersIncoming 0 10), ack := false } : inFlightMessage),
        { msg := shipmentRecord 2 (ordersIncoming 0 10), ack := false }] =
        mpre ++ { msg := shipmentRecord 2 (ordersIncoming 0 10), ack := false } :: mpost ∧
      processProducerMessageSuccess
          (ordersProcessorWith
            [ordersGroup 0 10 (some [false, false]), ordersGroup 3 11 (some [false])])
          (shipmentRecord 2 (ordersIncoming 0 10)) =
        .ok { ordersProcessorWith
                [ordersGroup 0 10 (some [false, false]), ordersGroup 3 11 (some [false])] with
              inFlightMessageGroups :=
                Function.update
                  (ordersProcessorWith
                    [ordersGroup 0 10 (some [false, false]), ordersGroup 3 11 (some [false])]
                  ).inFlightMessageGroups (ordersIncoming 0 10).topic
                  (pre ++
                    { ordersGroup 0 10 (some [false, false]) with
                      inFlightMessages :=
                        some (mpre ++
                          { msg := shipmentRecord 2 (ordersIncoming 0 10), ack := true } :: mpost) }
                    :: post) } :=
  processProducerMessageSuccess_sets_one_flag
    (ordersProcessorWith [ordersGroup 0 10 (some [false, false]), ordersGroup 3 11 (some [false])])
    (shipmentRecord 2 (ordersIncoming 0 10)) (ordersIncoming 0 10)
    (ordersGroup 0 10 (some [false, false]))
    [{ msg := shipmentRecord 1 (ordersIncoming 0 10), ack := false },
      { msg := shipmentRecord 2 (ordersIncoming 0 10), ack := false }]
    { msg := shipmentRecord 2 (ordersIncoming 0 10), ack := false }
    rfl (by decide) rfl (by decide) (by decide) rfl (by decide) (by decide)



/-! ## Out-of-order acknowledgments (C3) -/

theorem prune_eq_self_of_head_unacked (pp : partitionProcessor) (topic : Topic)
    (head : inFlightMessageGroup) (rest : List inFlightMessageGroup)
    (hq : pp.inFlightMessageGroups topic = head :: rest) (hhead : head.allAcksAreTrue = false) :
    pruneInFlightMessageGroupsForTopic pp topic = pp := by
  unfold pruneInFlightMessageGroupsForTopic
  rw [hq, pruneLoop_of_head_unacked head rest hhead, ← hq, Function.update_eq_self]

theorem mark_eq_self_of_head_unacked (pp : partitionProcessor) (topic : Topic)
    (head : inFlightMessageGroup) (rest : List inFlightMessageGroup)
    (hq : pp.inFlightMessageGroups topic = head :: rest) (hhead : head.allAcksAreTrue = false) :
    markOffsetsForTopic pp topic = .ok pp := by
  unfold markOffsetsForTopic
  rw [hq]
  simp only [markLoop, hhead]
  simp [← hq]

theorem success_eq (pp : partitionProcessor) (producerMessage : ProducerMessage)
    (incomingMessage : IncomingMessage) (groups : List inFlightMessageGroup)
    (hmeta : producerMessage.metadata = some incomingMessage)
    (hloop : groupLoop incomingMessage producerMessage
      (pp.inFlightMessageGroups incomingMessage.topic) = .ok groups) :
    processProducerMessageSuccess pp producerMessage =
      .ok (withQueue pp incomingMessage.topic groups) := by
  simp only [processProducerMessageSuccess, hmeta, hloop, withQueue]

theorem withQueue_queue (pp : partitionProcessor) (topic : Topic)
    (q : List inFlightMessageGroup) : (withQueue pp topic q).inFlightMessageGroups topic = q := by
  simp [withQueue]

theorem withQueue_withQueue (pp : partitionProcessor) (topic : Topic)
    (q q1 : List inFlightMessageGroup) :
    withQueue (withQueue pp topic q) topic q1 = withQueue pp topic q1 := by
  simp [withQueue]

theorem run_success_cons (pp pp1 : partitionProcessor) (producerMessage : ProducerMessage)
    (rest : List Event) (h : processProducerMessageSuccess pp producerMessage = .ok pp1) :
    run pp (Event.producerSuccess producerMessage :: rest) = run pp1 rest := by
  simp [run, step, h]

/-- C3 (as stated, refuted): the messages of offsets 2^63 - 2 (two records) and
2^63 - 1 (one record) have been processed, so the queue holds group A followed by
group B with offset(A) < offset(B) and all records unacknowledged; after the record
of B and both records of A have been acknowledged, `markOffsetsForTopic` empties the
queue and passes -2^63 to `MarkOffset`, not offset(B) + 1 = 2^63: `offset + 1` wraps
around at the largest 64-bit offset. -/
theorem out_of_order_acks_wrap_at_last_offset :
    (run ordersProcessor
        [Event.consumerMessage (ordersMessage 9223372036854775806) [shipment, shipment],
          Event.consumerMessage (ordersMessage 9223372036854775807) [shipment]]).toOption.map
        (fun pp => pp.inFlightMessageGroups "orders") =
      some [ordersGroup 0 9223372036854775806 (some [false, false]),
        ordersGroup 3 9223372036854775807 (some [false])] ∧
    ((run ordersProcessor
        [Event.consumerMessage (ordersMessage 9223372036854775806) [shipment, shipment],
          Event.consumerMessage (ordersMessage 9223372036854775807) [shipment],
          Event.producerSuccess (shipmentRecord 4 (ordersIncoming 3 9223372036854775807)),
          Event.producerSuccess (shipmentRecord 1 (ordersIncoming 0 9223372036854775806)),
          Event.producerSuccess (shipmentRecord 2 (ordersIncoming 0 9223372036854775806))]).bind
      (fun pp1 => markOffsetsForTopic pp1 "orders")).toOption.map
        (fun pp2 => (pp2.offsetManagers "orders", pp2.inFlightMessageGroups "orders")) =
      some (some [-9223372036854775808], []) ∧
    (-9223372036854775808 : Int) ≠
      (ordersGroup 3 9223372036854775807 (some [false])).incomingMessage.offset + 1 := by
  decide

/-- C3 (amended): the queue of the topic holds group A (two records, both
unacknowledged) followed by group B (one record), with
0 ≤ offset(A) < offset(B) < 2^63 - 1.  After the completion of B's record alone, and
after that of B's record and one of A's records, compaction changes nothing and
`markOffsetsForTopic` writes nothing and removes nothing; after B's record and both
of A's records, in either order, `markOffsetsForTopic` writes offset(B) + 1 and
empties the queue. -/
theorem out_of_order_ack_robustness (pp : partitionProcessor) (topic : Topic)
    (A B : inFlightMessageGroup) (a1 a2 b : ProducerMessage) (bAck : Bool) (marked : List Int)
    (hq : pp.inFlightMessageGroups topic = [A, B])
    (hA : A.inFlightMessages = some [{ msg := a1, ack := false }, { msg := a2, ack := false }])
    (hB : B.inFlightMessages = some [{ msg := b, ack := bAck }])
    (hAt : A.incomingMessage.topic = topic) (hBt : B.incomingMessage.topic = topic)
    (hAB : A.incomingMessage.addr ≠ B.incomingMessage.addr)
    (ha : a1.addr ≠ a2.addr)
    (ha1 : a1.metadata = some A.incomingMessage) (ha2 : a2.metadata = some A.incomingMessage)
    (hb : b.metadata = some B.incomingMessage)
    (hnonneg : 0 ≤ A.incomingMessage.offset)
    (hlt : A.incomingMessage.offset < B.incomingMessage.offset)
    (hbelow : B.incomingMessage.offset < 9223372036854775807)
    (hmanager : pp.offsetManagers topic = some marked) :
    (∀ acks ∈ [[b], [b, a1], [b, a2]],
      ∃ pp1, run pp (acks.map Event.producerSuccess) = .ok pp1 ∧
        pruneInFlightMessageGroupsForTopic pp1 topic = pp1 ∧
        markOffsetsForTopic pp1 topic = .ok pp1) ∧
    (∀ acks ∈ [[b, a1, a2], [b, a2, a1]],
      ∃ pp1 pp2, run pp (acks.map Event.producerSuccess) = .ok pp1 ∧
        markOffsetsForTopic pp1 topic = .ok pp2 ∧
        pp2.offsetManagers topic = some (marked ++ [B.incomingMessage.offset + 1]) ∧
        pp2.inFlightMessageGroups topic = []) := by
  subst hAt
  have hpos : 0 < B.incomingMessage.offset := lt_of_le_of_lt hnonneg hlt
  have hsentinel : B.incomingMessage.offset ≠ -1 := by
    intro h
    rw [h] at hpos
    exact absurd hpos (by decide)
  have hval : int64 (B.incomingMessage.offset + 1) = B.incomingMessage.offset + 1 :=
    int64_succ B.incomingMessage.offset (le_trans (by decide) (le_of_lt hpos)) hbelow
  have sb : processProducerMessageSuccess pp b =
      .ok (withQueue pp A.incomingMessage.topic
        [A, { B with inFlightMessages := some [{ msg := b, ack := true }] }]) := by
    rw [← hBt]
    apply success_eq pp b B.incomingMessage _ hb
    rw [hBt, hq]
    simp [groupLoop, ackLoop, hAB, hB]
  have sa1 : ∀ (p : partitionProcessor) (Y : inFlightMessageGroup) (f1 f2 : Bool),
      p.inFlightMessageGroups A.incomingMessage.topic =
        [{ A with inFlightMessages := some [{ msg := a1, ack := f1 }, { msg := a2, ack := f2 }] }, Y] →
      processProducerMessageSuccess p a1 =
        .ok (withQueue p A.incomingMessage.topic
          [{ A with inFlightMessages := some [{ msg := a1, ack := true }, { msg := a2, ack := f2 }] },
            Y]) := by
    intro p Y f1 f2 hp
    apply success_eq p a1 A.incomingMessage _ ha1
    rw [hp]
    simp [groupLoop, ackLoop]
  have sa2 : ∀ (p : partitionProcessor) (Y : inFlightMessageGroup) (f1 f2 : Bool),
      p.inFlightMessageGroups A.incomingMessage.topic =
        [{ A with inFlightMessages := some [{ msg := a1, ack := f1 }, { msg := a2, ack := f2 }] }, Y] →
      processProducerMessageSuccess p a2 =
        .ok (withQueue p A.incomingMessage.topic
          [{ A with inFlightMessages := some [{ msg := a1, ack := f1 }, { msg := a2, ack := true }] },
            Y]) := by
    intro p Y f1 f2 hp
    apply success_eq p a2 A.incomingMessage _ ha2
    rw [hp]
    simp [groupLoop, ackLoop, ha]
  have hAeq : A = { A with
      inFlightMessages := some [{ msg := a1, ack := false }, { msg := a2, ack := false }] } := by
    cases A
    simp_all
  have hq1 : (withQueue pp A.incomingMessage.topic
        [A, { B with inFlightMessages := some [{ msg := b, ack := true }] }]
      ).inFlightMessageGroups A.incomingMessage.topic =
      [{ A with inFlightMessages := some [{ msg := a1, ack := false }, { msg := a2, ack := false }] },
        { B with inFlightMessages := some [{ msg := b, ack := true }] }] := by
    rw [withQueue_queue, ← hAeq]
  have hAun : A.allAcksAreTrue = false := by
    simp [inFlightMessageGroup.allAcksAreTrue, hA, allAcksLoop]
  have run1 : ∀ (p p1 : partitionProcessor) (x : ProducerMessage),
      processProducerMessageSuccess p x = .ok p1 →
      run p ([x].map Event.producerSuccess) = .ok p1 := by
    intro p p1 x h
    simp [run, step, h]
  have run2 : ∀ (p p1 p2 : partitionProcessor) (x y : ProducerMessage),
      processProducerMessageSuccess p x = .ok p1 → processProducerMessageSuccess p1 y = .ok p2 →
      run p ([x, y].map Event.producerSuccess) = .ok p2 := by
    intro p p1 p2 x y h1 h2
    simp [run, step, h1, h2]
  have run3 : ∀ (p p1 p2 p3 : partitionProcessor) (x y z : ProducerMessage),
      processProducerMessageSuccess p x = .ok p1 → processProducerMessageSuccess p1 y = .ok p2 →
      processProducerMessageSuccess p2 z = .ok p3 →
      run p ([x, y, z].map Event.producerSuccess) = .ok p3 := by
    intro p p1 p2 p3 x y z h1 h2 h3
    simp [run, step, h1, h2, h3]
  have s1 := sa1 _ _ _ _ hq1
  have s2 := sa2 _ _ _ _ hq1
  rw [withQueue_withQueue] at s1 s2
  have s12 := sa2 _ _ _ _ (withQueue_queue pp A.incomingMessage.topic
    [{ A with inFlightMessages := some [{ msg := a1, ack := true }, { msg := a2, ack := false }] },
      { B with inFlightMessages := some [{ msg := b, ack := true }] }])
  have s21 := sa1 _ _ _ _ (withQueue_queue pp A.incomingMessage.topic
    [{ A with inFlightMessages := some [{ msg := a1, ack := false }, { msg := a2, ack := true }] },
      { B with inFlightMessages := some [{ msg := b, ack := true }] }])
  rw [withQueue_withQueue] at s12 s21
  constructor
  · intro acks hacks
    simp only [List.mem_cons, List.mem_singleton, List.not_mem_nil, or_false] at hacks
    rcases hacks with rfl | rfl | rfl
    · exact ⟨_, run1 _ _ _ sb,
        prune_eq_self_of_head_unacked _ _ A _ (withQueue_queue _ _ _) hAun,
        mark_eq_self_of_head_unacked _ _ A _ (withQueue_queue _ _ _) hAun⟩
    · exact ⟨_, run2 _ _ _ _ _ sb s1,
        prune_eq_self_of_head_unacked _ _ _ _ (withQueue_queue _ _ _)
          (by simp [inFlightMessageGroup.allAcksAreTrue, allAcksLoop]),
        mark_eq_self_of_head_unacked _ _ _ _ (withQueue_queue _ _ _)
          (by simp [inFlightMessageGroup.allAcksAreTrue, allAcksLoop])⟩
    · exact ⟨_, run2 _ _ _ _ _ sb s2,
        prune_eq_self_of_head_unacked _ _ _ _ (withQueue_queue _ _ _)
          (by simp [inFlightMessageGroup.allAcksAreTrue, allAcksLoop]),
        mark_eq_self_of_head_unacked _ _ _ _ (withQueue_queue _ _ _)
          (by simp [inFlightMessageGroup.allAcksAreTrue, allAcksLoop])⟩
  · have hfinal : ∃ pp2,
        markOffsetsForTopic
          (withQueue pp A.incomingMessage.topic
            [{ A with inFlightMessages := some [{ msg := a1, ack := true }, { msg := a2, ack := true }] },
              { B with inFlightMessages := some [{ msg := b, ack := true }] }])
          A.incomingMessage.topic = .ok pp2 ∧
        pp2.offsetManagers A.incomingMessage.topic =
          some (marked ++ [B.incomingMessage.offset + 1]) ∧
        pp2.inFlightMessageGroups A.incomingMessage.topic = [] := by
      simp only [markOffsetsForTopic, withQueue, Function.update_same, markLoop,
        inFlightMessageGroup.allAcksAreTrue, allAcksLoop, hmanager]
      simp [hsentinel, hval]
    obtain ⟨pp2, hmark, hwritten, hempty⟩ := hfinal
    intro acks hacks
    simp only [List.mem_cons, List.mem_singleton, List.not_mem_nil, or_false] at hacks
    rcases hacks with rfl | rfl
    · exact ⟨_, pp2, run3 _ _ _ _ _ _ _ sb s1 s12, hmark, hwritten, hempty⟩
    · exact ⟨_, pp2, run3 _ _ _ _ _ _ _ sb s2 s21, hmark, hwritten, hempty⟩

/-- Witness of the amended C3: group A at offset 10 with two records, group B at
offset 11 with one. -/
theorem out_of_order_ack_robustness_witness :
    (∀ acks ∈ [[shipmentRecord 4 (ordersIncoming 3 11)],
        [shipmentRecord 4 (ordersIncoming 3 11), shipmentRecord 1 (ordersIncoming 0 10)],
        [shipmentRecord 4 (ordersIncoming 3 11), shipmentRecord 2 (ordersIncoming 0 10)]],
      ∃ pp1,
        run (ordersProcessorWith
            [ordersGroup 0 10 (some [false, false]), ordersGroup 3 11 (some [false])])
          (acks.map Event.producerSuccess) = .ok pp1 ∧
        pruneInFlightMessageGroupsForTopic pp1 "orders" = pp1 ∧
        markOffsetsForTopic pp1 "orders" = .ok pp1) ∧
    (∀ acks ∈ [[shipmentRecord 4 (ordersIncoming 3 11), shipmentRecord 1 (ordersIncoming 0 10),
          shipmentRecord 2 (ordersIncoming 0 10)],
        [shipmentRecord 4 (ordersIncoming 3 11), shipmentRecord 2 (ordersIncoming 0 10),
          shipmentRecord 1 (ordersIncoming 0 10)]],
      ∃ pp1 pp2,
        run (ordersProcessorWith
            [ordersGroup 0 10 (some [false, false]), ordersGroup 3 11 (some [false])])
          (acks.map Event.producerSuccess) = .ok pp1 ∧
        markOffsetsForTopic pp1 "orders" = .ok pp2 ∧
        pp2.offsetManagers "orders" =
          some ([] ++ [(ordersGroup 3 11 (some [false])).incomingMessage.offset + 1]) ∧
        pp2.inFlightMessageGroups "orders" = []) :=
  out_of_order_ack_robustness
    (ordersProcessorWith [ordersGroup 0 10 (some [false, false]), ordersGroup 3 11 (some [false])])
    "orders" (ordersGroup 0 10 (some [false, false])) (ordersGroup 3 11 (some [false]))
    (shipmentRecord 1 (ordersIncoming 0 10)) (shipmentRecord 2 (ordersIncoming 0 10))
    (shipmentRecord 4 (ordersIncoming 3 11)) false []
    rfl rfl rfl rfl rfl (by decide) (by decide) rfl rfl rfl (by decide) (by decide) (by decide) rfl



/-! ## Never committing past unacknowledged output (C1) -/

theorem consumedMessages_append (l1 l2 : List Event) :
    consumedMessages (l1 ++ l2) = consumedMessages l1 ++ consumedMessages l2 := by
  simp [consumedMessages, List.filterMap_append]

theorem acknowledgedIn_mono (evs evs1 : List Event) (pm : ProducerMessage)
    (hsub : ∀ e ∈ evs, e ∈ evs1) (h : acknowledgedIn evs pm) : acknowledgedIn evs1 pm := by
  obtain ⟨c, hc, heq⟩ := h
  exact ⟨c, hsub _ hc, heq⟩

theorem LoopInvariant.mono {evs evs1 : List Event} {pp : partitionProcessor}
    (h : LoopInvariant evs pp) (hsub : ∀ e ∈ evs, e ∈ evs1)
    (hcons : ∀ cm ∈ consumedMessages evs, cm ∈ consumedMessages evs1) :
    LoopInvariant evs1 pp where
  sorted := h.sorted
  queued := by
    intro t g hg
    obtain ⟨ht, cm, hcm, h1, h2⟩ := h.queued t g hg
    exact ⟨ht, cm, hcons cm hcm, h1, h2⟩
  sent := by
    intro pm hpm im him
    obtain ⟨⟨cm, hcm, h1, h2⟩, hack⟩ := h.sent pm hpm im him
    refine ⟨⟨cm, hcons cm hcm, h1, h2⟩, ?_⟩
    rcases hack with hack | hq
    · exact Or.inl (acknowledgedIn_mono evs evs1 pm hsub hack)
    · exact Or.inr hq
  written := by
    intro t marked hm v hv
    obtain ⟨cm, hcm, h1, h2, h3⟩ := h.written t marked hm v hv
    exact ⟨cm, hcons cm hcm, h1, h2, fun pm hpm im him ht hle =>
      acknowledgedIn_mono evs evs1 pm hsub (h3 pm hpm im him ht hle)⟩

theorem unacked_of_message (g : inFlightMessageGroup) (m : inFlightMessage)
    (hm : m ∈ g.messages) (hack : m.ack = false) : g.allAcksAreTrue = false := by
  cases h : g.allAcksAreTrue with
  | false => rfl
  | true =>
    have := (allAcksAreTrue_iff g).mp h m hm
    rw [hack] at this
    exact absurd this (by decide)

/-- The invariant survives the removal of a head segment of fully acknowledged groups. -/
theorem LoopInvariant.remove_acked {evs : List Event} {pp : partitionProcessor}
    (h : LoopInvariant evs pp) (topic : Topic) (removed kept : List inFlightMessageGroup)
    (hsplit : pp.inFlightMessageGroups topic = removed ++ kept)
    (hacked : ∀ g ∈ removed, g.allAcksAreTrue = true) :
    LoopInvariant evs (withQueue pp topic kept) where
  sorted := by
    intro t
    by_cases ht : t = topic
    · subst ht
      rw [withQueue_queue]
      have := h.sorted t
      rw [hsplit] at this
      exact (List.pairwise_append.mp this).2.1
    · simp only [withQueue, Function.update_noteq ht]
      exact h.sorted t
  queued := by
    intro t g hg
    by_cases ht : t = topic
    · subst ht
      rw [withQueue_queue] at hg
      exact h.queued t g (by rw [hsplit]; exact List.mem_append_right _ hg)
    · simp only [withQueue, Function.update_noteq ht] at hg
      exact h.queued t g hg
  sent := by
    intro pm hpm im him
    obtain ⟨hc, hack⟩ := h.sent pm hpm im him
    refine ⟨hc, ?_⟩
    rcases hack with hack | ⟨g, hg, hoff, m, hm, haddr, hun⟩
    · exact Or.inl hack
    · refine Or.inr ⟨g, ?_, hoff, m, hm, haddr, hun⟩
      by_cases ht : im.topic = topic
      · subst ht
        rw [withQueue_queue]
        rw [hsplit] at hg
        rcases List.mem_append.mp hg with hr | hk
        · have h1 := hacked g hr
          rw [unacked_of_message g m hm hun] at h1
          exact absurd h1 (by decide)
        · exact hk
      · simp only [withQueue, Function.update_noteq ht]
        exact hg
  written := h.written


theorem LoopInvariant.pruneForTopic {evs : List Event} {pp : partitionProcessor}
    (h : LoopInvariant evs pp) (topic : Topic) :
    LoopInvariant evs (pruneInFlightMessageGroupsForTopic pp topic) := by
  obtain ⟨removed, hsplit, hacked⟩ := pruneLoop_split (pp.inFlightMessageGroups topic)
  exact h.remove_acked topic removed _ hsplit hacked

theorem LoopInvariant.foldl_prune {evs : List Event} (topics : List Topic)
    {pp : partitionProcessor} (h : LoopInvariant evs pp) :
    LoopInvariant evs (topics.foldl pruneInFlightMessageGroupsForTopic pp) := by
  induction topics generalizing pp with
  | nil => exact h
  | cons t rest ih => exact ih (h.pruneForTopic t)

theorem LoopInvariant.prune {evs : List Event} {pp : partitionProcessor}
    (h : LoopInvariant evs pp) : LoopInvariant evs (pruneInFlightMessageGroups pp) :=
  h.foldl_prune pp.inputTopics

/-- What the commit walk removes is a head segment of fully acknowledged groups, and
the offset it ends with is the starting one or that of a removed group. -/
theorem markLoop_split (offset : Offset) (q : List inFlightMessageGroup) :
    ∃ removed, q = removed ++ (markLoop offset q).2 ∧
      (∀ g ∈ removed, g.allAcksAreTrue = true) ∧
      ((markLoop offset q).1 = offset ∨
        ∃ g ∈ removed, (markLoop offset q).1 = g.incomingMessage.offset) := by
  induction q generalizing offset with
  | nil => exact ⟨[], rfl, by simp, Or.inl rfl⟩
  | cons g rest ih =>
    cases hg : g.allAcksAreTrue with
    | false => exact ⟨[], by simp [markLoop, hg], by simp, Or.inl (by simp [markLoop, hg])⟩
    | true =>
      obtain ⟨removed, hsplit, hacked, hoff⟩ := ih g.incomingMessage.offset
      have hstep : markLoop offset (g :: rest) = markLoop g.incomingMessage.offset rest := by
        simp [markLoop, hg]
      rw [hstep]
      refine ⟨g :: removed, by simpa using hsplit, ?_, Or.inr ?_⟩
      · intro x hx
        rcases List.mem_cons.mp hx with rfl | hx
        · exact hg
        · exact hacked x hx
      · rcases hoff with hoff | ⟨x, hx, hoff⟩
        · exact ⟨g, by simp, hoff⟩
        · exact ⟨x, List.mem_cons_of_mem _ hx, hoff⟩

/-- The invariant survives the commit of the offset of a removed group. -/
theorem LoopInvariant.commit {evs : List Event} {pp : partitionProcessor}
    (h : LoopInvariant evs pp) (topic : Topic) (removed kept : List inFlightMessageGroup)
    (g : inFlightMessageGroup) (marked : List Int)
    (hsplit : pp.inFlightMessageGroups topic = removed ++ kept)
    (hacked : ∀ x ∈ removed, x.allAcksAreTrue = true) (hg : g ∈ removed)
    (hmarked : pp.offsetManagers topic = some marked) :
    LoopInvariant evs
      { pp with
        inFlightMessageGroups := Function.update pp.inFlightMessageGroups topic kept
        offsetManagers :=
          Function.update pp.offsetManagers topic
            (some (marked ++ [int64 (g.incomingMessage.offset + 1)])) } := by
  have hrem := h.remove_acked topic removed kept hsplit hacked
  refine ⟨hrem.sorted, hrem.queued, hrem.sent, ?_⟩
  intro t marked1 hm v hv
  by_cases ht : t = topic
  · subst ht
    simp only [Function.update_same, Option.some.injEq] at hm
    subst hm
    rcases List.mem_append.mp hv with hold | hnew
    · exact h.written t marked hmarked v hold
    · rw [List.mem_singleton] at hnew
      have hgq : g ∈ pp.inFlightMessageGroups t := by
        rw [hsplit]; exact List.mem_append_left _ hg
      obtain ⟨_, cm, hcm, hct, hco⟩ := h.queued t g hgq
      refine ⟨cm, hcm, hct, by rw [hnew, hco], ?_⟩
      intro pm hpm im him himt hle
      rcases (h.sent pm hpm im him).2 with hack | ⟨g2, hg2, hoff2, m, hm, _, hun⟩
      · exact hack
      · exfalso
        rw [himt, hsplit] at hg2
        have hsorted := h.sorted t
        rw [hsplit] at hsorted
        rcases List.mem_append.mp hg2 with hr | hk
        · have h1 := hacked g2 hr
          rw [unacked_of_message g2 m hm hun] at h1
          exact absurd h1 (by decide)
        · have hlt : g.incomingMessage.offset < g2.incomingMessage.offset :=
            (List.pairwise_append.mp hsorted).2.2 g hg g2 hk
          rw [hoff2, ← hco] at hlt
          exact absurd (lt_of_lt_of_le hlt hle) (lt_irrefl _)
  · simp only [Function.update_noteq ht] at hm
    exact h.written t marked1 hm v hv

theorem LoopInvariant.markForTopic {evs : List Event} {pp pp1 : partitionProcessor}
    (h : LoopInvariant evs pp) (topic : Topic)
    (hmark : markOffsetsForTopic pp topic = .ok pp1) : LoopInvariant evs pp1 := by
  obtain ⟨removed, hsplit, hacked, hoff⟩ := markLoop_split (-1) (pp.inFlightMessageGroups topic)
  unfold markOffsetsForTopic at hmark
  by_cases hw : (markLoop (-1) (pp.inFlightMessageGroups topic)).1 = -1
  · simp only [hw, bne_self_eq_false, Bool.false_eq_true, ↓reduceIte, Except.ok.injEq] at hmark
    subst hmark
    exact h.remove_acked topic removed _ hsplit hacked
  · rcases hoff with hoff | ⟨g, hg, hoff⟩
    · exact absurd hoff hw
    · cases hm : pp.offsetManagers topic with
      | none => simp [hw, hm] at hmark
      | some marked =>
        simp only [hm, bne_iff_ne, ne_eq, hw, not_false_eq_true, ↓reduceIte,
          Except.ok.injEq] at hmark
        subst hmark
        rw [hoff]
        exact h.commit topic removed _ g marked hsplit hacked hg hm

theorem LoopInvariant.markLoop {evs : List Event} (topics : List Topic)
    {pp pp1 : partitionProcessor} (h : LoopInvariant evs pp)
    (hmark : markOffsetsLoop pp topics = .ok pp1) : LoopInvariant evs pp1 := by
  induction topics generalizing pp with
  | nil =>
    simp only [markOffsetsLoop, Except.ok.injEq] at hmark
    subst hmark
    exact h
  | cons t rest ih =>
    simp only [markOffsetsLoop] at hmark
    cases hstep : markOffsetsForTopic pp t with
    | error e => simp [hstep] at hmark
    | ok pp2 =>
      simp only [hstep] at hmark
      exact ih (h.markForTopic t hstep) hmark


theorem ackLoop_keeps (producerMessage : ProducerMessage) (msgs msgs1 : List inFlightMessage)
    (h : ackLoop producerMessage msgs = some msgs1) :
    ∀ m ∈ msgs, m.msg.addr ≠ producerMessage.addr → m ∈ msgs1 := by
  induction msgs generalizing msgs1 with
  | nil => simp [ackLoop] at h
  | cons x rest ih =>
    intro m hm hne
    by_cases hx : x.msg.addr = producerMessage.addr
    · simp only [ackLoop, hx, beq_self_eq_true, ↓reduceIte, Option.some.injEq] at h
      subst h
      rcases List.mem_cons.mp hm with rfl | hr
      · exact absurd hx hne
      · exact List.mem_cons_of_mem _ hr
    · cases hrest : ackLoop producerMessage rest with
      | none => simp [ackLoop, hx, hrest] at h
      | some r =>
        simp only [ackLoop, beq_iff_eq, hx, ↓reduceIte, hrest, Option.map_some',
          Option.some.injEq] at h
        subst h
        rcases List.mem_cons.mp hm with rfl | hr
        · exact List.mem_cons_self _ _
        · exact List.mem_cons_of_mem _ (ih r hrest m hr hne)

theorem groupLoop_keeps (incomingMessage : IncomingMessage) (producerMessage : ProducerMessage)
    (q q1 : List inFlightMessageGroup)
    (h : groupLoop incomingMessage producerMessage q = .ok q1) :
    q1.map (fun g => g.incomingMessage) = q.map (fun g => g.incomingMessage) ∧
    ∀ g ∈ q, ∃ g1 ∈ q1, g1.incomingMessage = g.incomingMessage ∧
      ∀ m ∈ g.messages, m.msg.addr ≠ producerMessage.addr → m ∈ g1.messages := by
  induction q generalizing q1 with
  | nil => simp [groupLoop] at h
  | cons x rest ih =>
    by_cases hx : x.incomingMessage.addr = incomingMessage.addr
    · cases hack : ackLoop producerMessage (x.inFlightMessages.getD []) with
      | none => simp [groupLoop, hx, hack] at h
      | some msgs =>
        simp only [groupLoop, hx, beq_self_eq_true, ↓reduceIte, hack, Except.ok.injEq] at h
        subst h
        refine ⟨by simp, ?_⟩
        intro g hg
        rcases List.mem_cons.mp hg with rfl | hr
        · refine ⟨_, List.mem_cons_self _ _, rfl, ?_⟩
          intro m hm hne
          exact ackLoop_keeps producerMessage _ msgs hack m hm hne
        · exact ⟨g, List.mem_cons_of_mem _ hr, rfl, fun m hm _ => hm⟩
    · cases hrest : groupLoop incomingMessage producerMessage rest with
      | error e => simp [groupLoop, hx, hrest] at h
      | ok r =>
        simp only [groupLoop, beq_iff_eq, hx, ↓reduceIte, hrest, Except.ok.injEq] at h
        subst h
        obtain ⟨hmap, hkeep⟩ := ih r hrest
        refine ⟨by simp [hmap], ?_⟩
        intro g hg
        rcases List.mem_cons.mp hg with rfl | hr
        · exact ⟨g, List.mem_cons_self _ _, rfl, fun m hm _ => hm⟩
        · obtain ⟨g1, hg1, h1, h2⟩ := hkeep g hr
          exact ⟨g1, List.mem_cons_of_mem _ hg1, h1, h2⟩

theorem LoopInvariant.success {evs : List Event} {pp pp1 : partitionProcessor}
    (h : LoopInvariant evs pp) (producerMessage : ProducerMessage)
    (hstep : processProducerMessageSuccess pp producerMessage = .ok pp1) :
    LoopInvariant (evs ++ [Event.producerSuccess producerMessage]) pp1 := by
  have hmono : LoopInvariant (evs ++ [Event.producerSuccess producerMessage]) pp :=
    h.mono (fun e he => List.mem_append_left _ he)
      (fun cm hcm => by rw [consumedMessages_append]; exact List.mem_append_left _ hcm)
  unfold processProducerMessageSuccess at hstep
  cases hmeta : producerMessage.metadata with
  | none => simp [hmeta] at hstep
  | some im0 =>
    simp only [hmeta] at hstep
    cases hloop : groupLoop im0 producerMessage (pp.inFlightMessageGroups im0.topic) with
    | error e => simp [hloop] at hstep
    | ok q1 =>
      simp only [hloop, Except.ok.injEq] at hstep
      subst hstep
      obtain ⟨hmap, hkeep⟩ := groupLoop_keeps im0 producerMessage _ q1 hloop
      have hback : ∀ g1 ∈ q1, ∃ g ∈ pp.inFlightMessageGroups im0.topic,
          g1.incomingMessage = g.incomingMessage := by
        intro g1 hg1
        have : g1.incomingMessage ∈ q1.map (fun g => g.incomingMessage) :=
          List.mem_map_of_mem (fun g => g.incomingMessage) hg1
        rw [hmap] at this
        obtain ⟨g, hg, heq⟩ := List.mem_map.mp this
        exact ⟨g, hg, heq.symm⟩
      refine ⟨?_, ?_, ?_, hmono.written⟩
      · intro t
        by_cases ht : t = im0.topic
        · subst ht
          simp only [Function.update_same]
          have hs := h.sorted im0.topic
          have e1 : ∀ l : List inFlightMessageGroup,
              l.Pairwise (fun x y => x.incomingMessage.offset < y.incomingMessage.offset) ↔
              (l.map (fun g => g.incomingMessage)).Pairwise
                (fun a b => a.offset < b.offset) := by
            intro l
            rw [List.pairwise_map]
          rw [e1, hmap, ← e1]
          exact hs
        · simp only [Function.update_noteq ht]
          exact h.sorted t
      · intro t g1 hg1
        by_cases ht : t = im0.topic
        · subst ht
          simp only [Function.update_same] at hg1
          obtain ⟨g, hg, heq⟩ := hback g1 hg1
          rw [heq]
          exact hmono.queued im0.topic g hg
        · simp only [Function.update_noteq ht] at hg1
          exact hmono.queued t g1 hg1
      · intro pm hpm im him
        obtain ⟨hc, hack⟩ := hmono.sent pm hpm im him
        refine ⟨hc, ?_⟩
        rcases hack with hack | ⟨g, hg, hoff, m, hm, haddr, hun⟩
        · exact Or.inl hack
        · by_cases hsame : pm.addr = producerMessage.addr
          · exact Or.inl ⟨producerMessage, by simp, hsame.symm⟩
          · right
            by_cases ht : im.topic = im0.topic
            · rw [ht] at hg
              obtain ⟨g1, hg1, heq, hmem⟩ := hkeep g hg
              refine ⟨g1, ?_, by rw [heq]; exact hoff, m,
                hmem m hm (by rw [haddr]; exact hsame), haddr, hun⟩
              rw [ht]
              simp only [Function.update_same]
              exact hg1
            · refine ⟨g, ?_, hoff, m, hm, haddr, hun⟩
              simp only [Function.update_noteq ht]
              exact hg


theorem foldl_appendSlice (l : List ProducerMessage) (init : Option (List inFlightMessage)) :
    (l.foldl (fun res msg => appendSlice res { msg := msg, ack := false }) init).getD [] =
      init.getD [] ++ l.map (fun msg => { msg := msg, ack := false }) := by
  induction l generalizing init with
  | nil => simp
  | cons x rest ih =>
    simp only [List.foldl_cons, List.map_cons]
    rw [ih]
    cases init <;> simp [appendSlice]

theorem createInFlightMessageGroup_messages (sender : outgoingMessageSender) :
    sender.createInFlightMessageGroup.messages =
      sender.producerMessages.map (fun msg => { msg := msg, ack := false }) := by
  simp [outgoingMessageSender.createInFlightMessageGroup, inFlightMessageGroup.messages,
    foldl_appendSlice]

/-- What the `Send` calls of one `Process` call do: they append the new records, all
referring back to the incoming message of the sender, to the records sent and to the
sender, and touch nothing else but the allocator. -/
theorem Process_spec (sends : List OutgoingMessage) (pp : partitionProcessor)
    (sender : outgoingMessageSender) (r : partitionProcessor × outgoingMessageSender)
    (h : Process pp sender sends = .ok r) :
    ∃ records : List ProducerMessage,
      records.length = sends.length ∧
      r.1.producerInput = pp.producerInput ++ records ∧
      r.2.producerMessages = sender.producerMessages ++ records ∧
      r.2.incomingMessage = sender.incomingMessage ∧
      (∀ pm ∈ records, pm.metadata = some sender.incomingMessage) ∧
      r.1.inFlightMessageGroups = pp.inFlightMessageGroups ∧
      r.1.offsetManagers = pp.offsetManagers ∧
      r.1.inputTopics = pp.inputTopics ∧
      r.1.TopicSerdes = pp.TopicSerdes := by
  induction sends generalizing pp sender with
  | nil =>
    simp only [Process, Except.ok.injEq] at h
    subst h
    exact ⟨[], by simp⟩
  | cons msg rest ih =>
    simp only [Process] at h
    cases hsend : sender.Send pp msg with
    | error e => simp [hsend] at h
    | ok r1 =>
      simp only [hsend] at h
      obtain ⟨records, hlen, h1, h2, h3, h4, h5, h6, h7, h8⟩ := ih r1.1 r1.2 h
      unfold outgoingMessageSender.Send at hsend
      cases hserde : pp.TopicSerdes msg.topic with
      | none => simp [hserde] at hsend
      | some topicSerde =>
        simp only [hserde, Except.ok.injEq] at hsend
        subst hsend
        refine ⟨{ addr := pp.nextAddr
                  topic := msg.topic
                  key := topicSerde.KeySerde.Serialize msg.key
                  value := topicSerde.ValueSerde.Serialize msg.value
                  partition := int32 msg.partition
                  metadata := some sender.incomingMessage } :: records,
          by simp [hlen], ?_, ?_, h3, ?_, h5, h6, h7, h8⟩
        · simpa using h1
        · simpa using h2
        · intro pm hpm
          rcases List.mem_cons.mp hpm with rfl | hr
          · rfl
          · exact h4 pm hr

theorem LoopInvariant.consume {evs : List Event} {pp pp1 : partitionProcessor}
    (h : LoopInvariant evs pp) (consumerMessage : ConsumerMessage)
    (sends : List OutgoingMessage)
    (hoffsets : offsetsAscend (evs ++ [Event.consumerMessage consumerMessage sends]))
    (hstep : processConsumerMessage pp consumerMessage sends = .ok pp1) :
    LoopInvariant (evs ++ [Event.consumerMessage consumerMessage sends]) pp1 := by
  have hcons : consumedMessages (evs ++ [Event.consumerMessage consumerMessage sends]) =
      consumedMessages evs ++ [consumerMessage] := by
    rw [consumedMessages_append]
    rfl
  have hmono : LoopInvariant (evs ++ [Event.consumerMessage consumerMessage sends]) pp :=
    h.mono (fun e he => List.mem_append_left _ he)
      (fun cm hcm => by rw [hcons]; exact List.mem_append_left _ hcm)
  have hnew : consumerMessage ∈
      consumedMessages (evs ++ [Event.consumerMessage consumerMessage sends]) := by
    rw [hcons]; simp
  -- earlier records of the topic have smaller offsets
  have hbefore : ∀ cm ∈ consumedMessages evs, cm.topic = consumerMessage.topic →
      cm.offset < consumerMessage.offset := by
    intro cm hcm ht
    have hp := hoffsets.2
    rw [hcons] at hp
    exact (List.pairwise_append.mp hp).2.2 cm hcm consumerMessage (by simp) ht
  unfold processConsumerMessage at hstep
  cases hserde : pp.TopicSerdes consumerMessage.topic with
  | none => simp [hserde] at hstep
  | some topicSerde =>
    simp only [hserde] at hstep
    generalize hproc : Process { pp with nextAddr := pp.nextAddr + 1 }
      (newOutgoingMessageSender
        { addr := pp.nextAddr
          topic := consumerMessage.topic
          partition := consumerMessage.partition
          offset := consumerMessage.offset
          key := topicSerde.KeySerde.Deserialize consumerMessage.key
          value := topicSerde.ValueSerde.Deserialize consumerMessage.value
          timestamp := consumerMessage.timestamp }) sends = res at hstep
    cases res with
    | error e => simp at hstep
    | ok r =>
      simp only [Except.ok.injEq] at hstep
      subst hstep
      obtain ⟨records, _, hinput, hmsgs, hinc, hmeta, hqueues, hmanagers, _, _⟩ :=
        Process_spec sends _ _ r hproc
      apply LoopInvariant.prune
      have hgroup : r.2.createInFlightMessageGroup.incomingMessage.topic =
            consumerMessage.topic ∧
          r.2.createInFlightMessageGroup.incomingMessage.offset = consumerMessage.offset := by
        simp [outgoingMessageSender.createInFlightMessageGroup, hinc, newOutgoingMessageSender]
      have hgm : r.2.createInFlightMessageGroup.messages =
          records.map (fun msg => { msg := msg, ack := false }) := by
        rw [createInFlightMessageGroup_messages, hmsgs]
        simp [newOutgoingMessageSender]
      refine ⟨?_, ?_, ?_, ?_⟩
      · intro t
        by_cases ht : t = consumerMessage.topic
        · subst ht
          simp only [Function.update_same, hqueues]
          rw [List.pairwise_append]
          refine ⟨h.sorted _, List.pairwise_singleton _ _, ?_⟩
          intro a ha b hb
          rw [List.mem_singleton] at hb
          subst hb
          obtain ⟨_, cm, hcm, hct, hco⟩ := h.queued _ a ha
          rw [hgroup.2, ← hco]
          exact hbefore cm hcm hct
        · simp only [Function.update_noteq ht, hqueues]
          exact h.sorted t
      · intro t g hg
        by_cases ht : t = consumerMessage.topic
        · subst ht
          simp only [Function.update_same, hqueues] at hg
          rcases List.mem_append.mp hg with hold | hn
          · exact hmono.queued _ g hold
          · rw [List.mem_singleton] at hn
            subst hn
            exact ⟨hgroup.1, consumerMessage, hnew, rfl, hgroup.2.symm⟩
        · simp only [Function.update_noteq ht, hqueues] at hg
          exact hmono.queued t g hg
      · intro pm hpm im him
        simp only [hinput] at hpm
        rcases List.mem_append.mp hpm with hold | hrec
        · obtain ⟨hc, hack⟩ := hmono.sent pm hold im him
          refine ⟨hc, ?_⟩
          rcases hack with hack | ⟨g, hg, hoff, m, hm, haddr, hun⟩
          · exact Or.inl hack
          · refine Or.inr ⟨g, ?_, hoff, m, hm, haddr, hun⟩
            by_cases ht : im.topic = consumerMessage.topic
            · rw [ht]
              simp only [Function.update_same, hqueues]
              rw [ht] at hg
              exact List.mem_append_left _ hg
            · simp only [Function.update_noteq ht, hqueues]
              exact hg
        · have hm0 := hmeta pm hrec
          rw [him] at hm0
          simp only [Option.some.injEq, newOutgoingMessageSender] at hm0
          subst hm0
          refine ⟨⟨consumerMessage, hnew, rfl, rfl⟩, Or.inr ⟨r.2.createInFlightMessageGroup, ?_,
            hgroup.2, { msg := pm, ack := false }, ?_, rfl, rfl⟩⟩
          · simp only [Function.update_same]
            exact List.mem_append_right _ (List.mem_singleton.mpr rfl)
          · rw [hgm]
            exact List.mem_map_of_mem _ hrec
      · intro t marked hm v hv
        simp only [hmanagers] at hm
        obtain ⟨cm, hcm, hct, hv1, hacked⟩ := h.written t marked hm v hv
        refine ⟨cm, by rw [hcons]; exact List.mem_append_left _ hcm, hct, hv1, ?_⟩
        intro pm hpm im him himt hle
        simp only [hinput] at hpm
        rcases List.mem_append.mp hpm with hold | hrec
        · exact acknowledgedIn_mono evs _ pm (fun e he => List.mem_append_left _ he)
            (hacked pm hold im him himt hle)
        · exfalso
          have hm0 := hmeta pm hrec
          rw [him] at hm0
          simp only [Option.some.injEq, newOutgoingMessageSender] at hm0
          subst hm0
          have hlt := hbefore cm hcm (by rw [hct]; exact himt.symm)
          exact absurd (lt_of_lt_of_le hlt hle) (lt_irrefl _)


theorem run_append (l1 l2 : List Event) (pp : partitionProcessor) :
    run pp (l1 ++ l2) =
      match run pp l1 with
      | .error f => .error f
      | .ok pp1 => run pp1 l2 := by
  induction l1 generalizing pp with
  | nil => rfl
  | cons e rest ih =>
    simp only [List.cons_append, run]
    cases step pp e with
    | error f => rfl
    | ok pp1 => exact ih pp1

theorem offsetsAscend_of_append (l1 l2 : List Event) (h : offsetsAscend (l1 ++ l2)) :
    offsetsAscend l1 := by
  unfold offsetsAscend at *
  rw [consumedMessages_append] at h
  exact ⟨fun cm hcm => h.1 cm (List.mem_append_left _ hcm), (List.pairwise_append.mp h.2).1⟩

/-- The invariant holds after every sequence of events that a fresh processor
handles without fault, when the consumed offsets ascend. -/
theorem loop_invariant (evs : List Event) (pp0 pp : partitionProcessor)
    (hfresh : pp0.isFresh) (hoffsets : offsetsAscend evs) (hrun : run pp0 evs = .ok pp) :
    LoopInvariant evs pp := by
  induction evs using List.reverseRecOn generalizing pp with
  | nil =>
    simp only [run, Except.ok.injEq] at hrun
    subst hrun
    obtain ⟨hq, hin, hm⟩ := hfresh
    refine ⟨?_, ?_, ?_, ?_⟩
    · intro t; rw [hq t]; exact List.Pairwise.nil
    · intro t g hg; rw [hq t] at hg; simp at hg
    · intro pm hpm; rw [hin] at hpm; simp at hpm
    · intro t marked hmarked v hv
      rw [hm t marked hmarked] at hv
      simp at hv
  | append_singleton l e ih =>
    rw [run_append] at hrun
    cases hl : run pp0 l with
    | error f => simp [hl] at hrun
    | ok pp1 =>
      simp only [hl, run] at hrun
      have hinv := ih pp1 (offsetsAscend_of_append l [e] hoffsets) hl
      cases hs : step pp1 e with
      | error f => simp [hs] at hrun
      | ok pp2 =>
        simp only [hs, Except.ok.injEq] at hrun
        subst hrun
        cases e with
        | consumerMessage cm sends => exact hinv.consume cm sends hoffsets hs
        | producerSuccess pm => exact hinv.success pm hs
        | markOffsetsTick =>
          have hmono : LoopInvariant (l ++ [Event.markOffsetsTick]) pp1 :=
            hinv.mono (fun e he => List.mem_append_left _ he)
              (fun cm hcm => by
                rw [consumedMessages_append]; exact List.mem_append_left _ hcm)
          exact hmono.markLoop pp1.inputTopics hs

theorem int64_succ_max : int64 (9223372036854775807 + 1) = -9223372036854775808 := by
  decide

/-- C1: a fresh processor (empty queues, nothing sent, nothing marked) handles a
finite sequence of events without fault; the consumed records have non-negative
64-bit offsets, strictly increasing within each topic.  Then for every value `v`
that has been passed to `MarkOffset` for a topic: every record sent for a message
of that topic with offset `< v` has been acknowledged by a completion among the
events; and `v` is `int64(o + 1)` for the offset `o` of a consumed message of the
topic such that `v - 1 ≤ o` and every record sent for a message of the topic with
offset `≤ o` has been acknowledged. -/
theorem never_commits_past_unacknowledged (pp0 pp : partitionProcessor) (evs : List Event)
    (topic : Topic) (marked : List Int) (v : Int)
    (hfresh : pp0.isFresh) (hoffsets : offsetsAscend evs) (hrun : run pp0 evs = .ok pp)
    (hmarked : pp.offsetManagers topic = some marked) (hv : v ∈ marked) :
    (∀ pm ∈ pp.producerInput, ∀ im, pm.metadata = some im → im.topic = topic →
      im.offset < v → acknowledgedIn evs pm) ∧
    ∃ cm ∈ consumedMessages evs, cm.topic = topic ∧ v = int64 (cm.offset + 1) ∧
      v - 1 ≤ cm.offset ∧
      ∀ pm ∈ pp.producerInput, ∀ im, pm.metadata = some im → im.topic = topic →
        im.offset ≤ cm.offset → acknowledgedIn evs pm := by
  have hinv := loop_invariant evs pp0 pp hfresh hoffsets hrun
  obtain ⟨cm, hcm, hct, hv1, hacked⟩ := hinv.written topic marked hmarked v hv
  obtain ⟨h0, hmax⟩ := hoffsets.1 cm hcm
  have hcases : v = cm.offset + 1 ∨ (cm.offset = 9223372036854775807 ∧
      v = -9223372036854775808) := by
    by_cases hlt : cm.offset < 9223372036854775807
    · left
      rw [hv1]
      exact int64_succ cm.offset (by omega) hlt
    · right
      have : cm.offset = 9223372036854775807 := by omega
      exact ⟨this, by rw [hv1, this]; exact int64_succ_max⟩
  refine ⟨?_, cm, hcm, hct, hv1, ?_, hacked⟩
  · intro pm hpm im him himt hlt
    have hlt1 : @LT.lt Int _ im.offset v := hlt
    rcases hcases with hc | ⟨_, hc⟩
    · have hle : @LE.le Int _ im.offset cm.offset := by omega
      exact hacked pm hpm im him himt hle
    · exfalso
      obtain ⟨cm1, hcm1, _, ho1⟩ := (hinv.sent pm hpm im him).1
      have h1 := (hoffsets.1 cm1 hcm1).1
      have ho2 : @Eq Int cm1.offset im.offset := ho1
      omega
  · rcases hcases with hc | ⟨hc1, hc2⟩ <;> omega


/-- Witness of C1 on the stop case of the end-to-end scenario: 12 is marked, and the
two records sent for offset 10, the only ones below 12, have been acknowledged. -/
theorem never_commits_past_unacknowledged_witness :
    ordersProcessor.isFresh ∧
    offsetsAscend [consume10, consume11, consume12, ack10a, ack10b, Event.markOffsetsTick] ∧
    ∃ pp,
      run ordersProcessor
        [consume10, consume11, consume12, ack10a, ack10b, Event.markOffsetsTick] = .ok pp ∧
      pp.offsetManagers "orders" = some [12] ∧
      (∀ pm ∈ pp.producerInput, ∀ im, pm.metadata = some im → im.topic = "orders" →
        im.offset < 12 →
        acknowledgedIn [consume10, consume11, consume12, ack10a, ack10b, Event.markOffsetsTick]
          pm) ∧
      ∃ cm ∈ consumedMessages
          [consume10, consume11, consume12, ack10a, ack10b, Event.markOffsetsTick],
        cm.topic = "orders" ∧ 12 = int64 (cm.offset + 1) ∧ 12 - 1 ≤ cm.offset ∧
        ∀ pm ∈ pp.producerInput, ∀ im, pm.metadata = some im → im.topic = "orders" →
          im.offset ≤ cm.offset →
          acknowledgedIn [consume10, consume11, consume12, ack10a, ack10b, Event.markOffsetsTick]
            pm := by
  have hfresh : ordersProcessor.isFresh := by
    refine ⟨fun _ => rfl, rfl, ?_⟩
    intro t marked h
    simp only [ordersProcessor] at h
    split at h
    · exact (Option.some.inj h).symm
    · exact absurd h (by simp)
  have hoffsets :
      offsetsAscend [consume10, consume11, consume12, ack10a, ack10b, Event.markOffsetsTick] := by
    unfold offsetsAscend
    decide
  have hc : committed "orders"
      (run ordersProcessor
        [consume10, consume11, consume12, ack10a, ack10b, Event.markOffsetsTick]) = some [12] := by
    decide
  cases hrun : run ordersProcessor
      [consume10, consume11, consume12, ack10a, ack10b, Event.markOffsetsTick] with
  | error f =>
    rw [hrun] at hc
    simp [committed] at hc
  | ok pp =>
    rw [hrun] at hc
    simp only [committed] at hc
    exact ⟨hfresh, hoffsets, pp, rfl, hc,
      never_commits_past_unacknowledged ordersProcessor pp _ "orders" [12] 12 hfresh hoffsets
        hrun hc (by simp)⟩

/-! ## Failure of a send completion (C11) -/

theorem ackLoop_eq_none_iff (producerMessage : ProducerMessage) (msgs : List inFlightMessage) :
    ackLoop producerMessage msgs = none ↔ ∀ m ∈ msgs, m.msg.addr ≠ producerMessage.addr := by
  induction msgs with
  | nil => simp [ackLoop]
  | cons x rest ih =>
    by_cases hx : x.msg.addr = producerMessage.addr
    · simp [ackLoop, hx]
    · simp [ackLoop, hx, ih]

theorem groupLoop_no_group (incomingMessage : IncomingMessage)
    (producerMessage : ProducerMessage) (q : List inFlightMessageGroup)
    (h : ∀ g ∈ q, g.incomingMessage.addr ≠ incomingMessage.addr) :
    groupLoop incomingMessage producerMessage q =
      .error (.fatal "Could not find group in inFlightMessageGroups") := by
  induction q with
  | nil => rfl
  | cons x rest ih =>
    have hx := h x (List.mem_cons_self _ _)
    simp [groupLoop, hx, ih (fun g hg => h g (List.mem_cons_of_mem _ hg))]

/-- The outcome of the outer loop when the queue holds a group with the identity
looked for, identities being distinct within the queue. -/
theorem groupLoop_found (incomingMessage : IncomingMessage) (producerMessage : ProducerMessage)
    (q : List inFlightMessageGroup) (g : inFlightMessageGroup) (hg : g ∈ q)
    (hgid : g.incomingMessage.addr = incomingMessage.addr)
    (hgroups : (q.map (fun x => x.incomingMessage.addr)).Nodup) :
    (ackLoop producerMessage g.messages = none →
      groupLoop incomingMessage producerMessage q =
        .error (.fatal "Could not find producer message in inFlightMessageGroups")) ∧
    (∀ msgs, ackLoop producerMessage g.messages = some msgs →
      ∃ q1, groupLoop incomingMessage producerMessage q = .ok q1) := by
  induction q with
  | nil => simp at hg
  | cons x rest ih =>
    rw [List.map_cons, List.nodup_cons] at hgroups
    rcases List.mem_cons.mp hg with rfl | hrest
    · constructor
      · intro hnone
        simp only [inFlightMessageGroup.messages] at hnone
        simp [groupLoop, hgid, hnone]
      · intro msgs hsome
        simp only [inFlightMessageGroup.messages] at hsome
        exact ⟨{ g with inFlightMessages := some msgs } :: rest,
          by simp [groupLoop, hgid, hsome]⟩
    · have hx : x.incomingMessage.addr ≠ incomingMessage.addr := by
        intro h
        apply hgroups.1
        rw [h, ← hgid]
        exact List.mem_map_of_mem (fun x => x.incomingMessage.addr) hrest
      obtain ⟨h1, h2⟩ := ih hrest hgroups.2
      constructor
      · intro hnone
        simp [groupLoop, hx, h1 hnone]
      · intro msgs hsome
        obtain ⟨q1, hq1⟩ := h2 msgs hsome
        exact ⟨x :: q1, by simp [groupLoop, hx, hq1]⟩

/-- C11: the completed record refers back to an originating message, and identities
(addresses) are distinct within the queue of that message's topic.  Then
`processProducerMessageSuccess` ends in `log.Fatal` if and only if no group of that
queue has the identity of the originating message, or the group that has it holds no
in-flight message for the completed record; in every other case it returns a state. -/
theorem processProducerMessageSuccess_fatal_iff (pp : partitionProcessor)
    (producerMessage : ProducerMessage) (incomingMessage : IncomingMessage)
    (hmeta : producerMessage.metadata = some incomingMessage)
    (hgroups :
      ((pp.inFlightMessageGroups incomingMessage.topic).map
        (fun x => x.incomingMessage.addr)).Nodup) :
    ((∃ msg, processProducerMessageSuccess pp producerMessage = .error (.fatal msg)) ↔
      ((∀ g ∈ pp.inFlightMessageGroups incomingMessage.topic,
          g.incomingMessage.addr ≠ incomingMessage.addr) ∨
        ∃ g ∈ pp.inFlightMessageGroups incomingMessage.topic,
          g.incomingMessage.addr = incomingMessage.addr ∧
          ∀ m ∈ g.messages, m.msg.addr ≠ producerMessage.addr)) ∧
    (¬((∀ g ∈ pp.inFlightMessageGroups incomingMessage.topic,
          g.incomingMessage.addr ≠ incomingMessage.addr) ∨
        ∃ g ∈ pp.inFlightMessageGroups incomingMessage.topic,
          g.incomingMessage.addr = incomingMessage.addr ∧
          ∀ m ∈ g.messages, m.msg.addr ≠ producerMessage.addr) →
      ∃ pp1, processProducerMessageSuccess pp producerMessage = .ok pp1) := by
  have hcases : (∀ g ∈ pp.inFlightMessageGroups incomingMessage.topic,
        g.incomingMessage.addr ≠ incomingMessage.addr) ∨
      ∃ g ∈ pp.inFlightMessageGroups incomingMessage.topic,
        g.incomingMessage.addr = incomingMessage.addr := by
    by_cases h : ∃ g ∈ pp.inFlightMessageGroups incomingMessage.topic,
        g.incomingMessage.addr = incomingMessage.addr
    · exact Or.inr h
    · left
      intro g hg hid
      exact h ⟨g, hg, hid⟩
  rcases hcases with hno | ⟨g, hg, hgid⟩
  · have hres : processProducerMessageSuccess pp producerMessage =
        .error (.fatal "Could not find group in inFlightMessageGroups") := by
      simp only [processProducerMessageSuccess, hmeta, groupLoop_no_group _ _ _ hno]
    exact ⟨⟨fun _ => Or.inl hno, fun _ => ⟨_, hres⟩⟩, fun h => absurd (Or.inl hno) h⟩
  · obtain ⟨hnone, hsome⟩ := groupLoop_found incomingMessage producerMessage _ g hg hgid hgroups
    have hunique : ∀ g1 ∈ pp.inFlightMessageGroups incomingMessage.topic,
        g1.incomingMessage.addr = incomingMessage.addr → g1 = g := by
      intro g1 hg1 hid1
      exact List.inj_on_of_nodup_map hgroups hg1 hg (by rw [hid1, hgid])
    cases hack : ackLoop producerMessage g.messages with
    | none =>
      have hall := (ackLoop_eq_none_iff producerMessage g.messages).mp hack
      have hres : processProducerMessageSuccess pp producerMessage =
          .error (.fatal "Could not find producer message in inFlightMessageGroups") := by
        simp only [processProducerMessageSuccess, hmeta, hnone hack]
      exact ⟨⟨fun _ => Or.inr ⟨g, hg, hgid, hall⟩, fun _ => ⟨_, hres⟩⟩,
        fun h => absurd (Or.inr ⟨g, hg, hgid, hall⟩) h⟩
    | some msgs =>
      obtain ⟨q1, hq1⟩ := hsome msgs hack
      have hres : ∃ pp1, processProducerMessageSuccess pp producerMessage = .ok pp1 := by
        simp only [processProducerMessageSuccess, hmeta, hq1]
        exact ⟨_, rfl⟩
      have hnot : ¬((∀ g ∈ pp.inFlightMessageGroups incomingMessage.topic,
            g.incomingMessage.addr ≠ incomingMessage.addr) ∨
          ∃ g ∈ pp.inFlightMessageGroups incomingMessage.topic,
            g.incomingMessage.addr = incomingMessage.addr ∧
            ∀ m ∈ g.messages, m.msg.addr ≠ producerMessage.addr) := by
        rintro (h | ⟨g1, hg1, hid1, hall1⟩)
        · exact h g hg hgid
        · rw [hunique g1 hg1 hid1] at hall1
          rw [(ackLoop_eq_none_iff producerMessage g.messages).mpr hall1] at hack
          exact absurd hack (by simp)
      refine ⟨⟨?_, fun h => absurd h hnot⟩, fun _ => hres⟩
      rintro ⟨msg, hmsg⟩
      obtain ⟨pp1, hpp1⟩ := hres
      rw [hpp1] at hmsg
      exact absurd hmsg (by simp)

/-- Witness of C11: a completion for a record that the group of offset 10 does not
hold ends in `log.Fatal`; one for the record it holds returns. -/
theorem processProducerMessageSuccess_fatal_iff_witness :
    (∃ msg,
      processProducerMessageSuccess
        (ordersProcessorWith [ordersGroup 0 10 (some [false]), ordersGroup 2 11 none])
        (shipmentRecord 7 (ordersIncoming 0 10)) = .error (.fatal msg)) ∧
    ∃ pp1,
      processProducerMessageSuccess
        (ordersProcessorWith [ordersGroup 0 10 (some [false]), ordersGroup 2 11 none])
        (shipmentRecord 1 (ordersIncoming 0 10)) = .ok pp1 :=
  ⟨(processProducerMessageSuccess_fatal_iff
      (ordersProcessorWith [ordersGroup 0 10 (some [false]), ordersGroup 2 11 none])
      (shipmentRecord 7 (ordersIncoming 0 10)) (ordersIncoming 0 10) rfl (by decide)).1.mpr
      (Or.inr ⟨ordersGroup 0 10 (some [false]), by decide, rfl, by decide⟩),
   (processProducerMessageSuccess_fatal_iff
      (ordersProcessorWith [ordersGroup 0 10 (some [false]), ordersGroup 2 11 none])
      (shipmentRecord 1 (ordersIncoming 0 10)) (ordersIncoming 0 10) rfl (by decide)).2
      (by decide)⟩

/-! ## Sender and group (C12) -/

/-- With a serde registered for the topic of every message, the `Send` calls all
return; the records they submit are, in the order of the calls, the encodings of
the messages, allocated at consecutive addresses and referring back to the incoming
message of the sender. -/
theorem Process_total (sends : List OutgoingMessage) (pp : partitionProcessor)
    (sender : outgoingMessageSender)
    (hserdes : ∀ msg ∈ sends, ∃ serde, pp.TopicSerdes msg.topic = some serde) :
    ∃ r records, Process pp sender sends = .ok r ∧
      r.1.producerInput = pp.producerInput ++ records ∧
      r.2.producerMessages = sender.producerMessages ++ records ∧
      r.2.incomingMessage = sender.incomingMessage ∧
      List.Forall₂
        (fun msg pm => ∃ serde, pp.TopicSerdes msg.topic = some serde ∧
          pm.topic = msg.topic ∧ pm.key = serde.KeySerde.Serialize msg.key ∧
          pm.value = serde.ValueSerde.Serialize msg.value ∧
          pm.partition = int32 msg.partition ∧
          pm.metadata = some sender.incomingMessage) sends records ∧
      records.map (fun pm => pm.addr) = List.range' pp.nextAddr sends.length := by
  induction sends generalizing pp sender with
  | nil => exact ⟨(pp, sender), [], rfl, by simp, by simp, rfl, List.Forall₂.nil, rfl⟩
  | cons msg rest ih =>
    obtain ⟨serde, hserde⟩ := hserdes msg (List.mem_cons_self _ _)
    obtain ⟨r, records, hrun, hin, hmsgs, hinc, hall, haddr⟩ :=
      ih { pp with
            nextAddr := pp.nextAddr + 1
            producerInput := pp.producerInput ++
              [{ addr := pp.nextAddr
                 topic := msg.topic
                 key := serde.KeySerde.Serialize msg.key
                 value := serde.ValueSerde.Serialize msg.value
                 partition := int32 msg.partition
                 metadata := some sender.incomingMessage }] }
         { sender with
            producerMessages := sender.producerMessages ++
              [{ addr := pp.nextAddr
                 topic := msg.topic
                 key := serde.KeySerde.Serialize msg.key
                 value := serde.ValueSerde.Serialize msg.value
                 partition := int32 msg.partition
                 metadata := some sender.incomingMessage }] }
         (fun m hm => hserdes m (List.mem_cons_of_mem _ hm))
    refine ⟨r, { addr := pp.nextAddr
                 topic := msg.topic
                 key := serde.KeySerde.Serialize msg.key
                 value := serde.ValueSerde.Serialize msg.value
                 partition := int32 msg.partition
                 metadata := some sender.incomingMessage } :: records, ?_, ?_, ?_, hinc, ?_, ?_⟩
    · simp only [Process, outgoingMessageSender.Send, hserde]
      exact hrun
    · simpa using hin
    · simpa using hmsgs
    · exact List.Forall₂.cons ⟨serde, hserde, rfl, rfl, rfl, rfl, rfl⟩ hall
    · simp only [List.map_cons, List.length_cons, List.range'_succ, haddr]

/-- C12: the user logic makes `n ≥ 0` `Send` calls on the sender created for an
incoming message, each for a topic with a registered serde.  The calls return, and
`createInFlightMessageGroup` gives a group whose originating message is that
incoming message and whose in-flight sequence has exactly `n` entries, the i-th
holding the record that the i-th call sent on the producer input (the encoding of
the i-th message, referring back to the incoming message), each with `ack = false`. -/
theorem createInFlightMessageGroup_follows_sends (pp : partitionProcessor)
    (incomingMessage : IncomingMessage) (sends : List OutgoingMessage)
    (hserdes : ∀ msg ∈ sends, ∃ serde, pp.TopicSerdes msg.topic = some serde) :
    ∃ r records,
      Process pp (newOutgoingMessageSender incomingMessage) sends = .ok r ∧
      r.1.producerInput = pp.producerInput ++ records ∧
      List.Forall₂
        (fun msg pm => ∃ serde, pp.TopicSerdes msg.topic = some serde ∧
          pm.topic = msg.topic ∧ pm.key = serde.KeySerde.Serialize msg.key ∧
          pm.value = serde.ValueSerde.Serialize msg.value ∧
          pm.partition = int32 msg.partition ∧
          pm.metadata = some incomingMessage) sends records ∧
      records.map (fun pm => pm.addr) = List.range' pp.nextAddr sends.length ∧
      r.2.createInFlightMessageGroup.incomingMessage = incomingMessage ∧
      r.2.createInFlightMessageGroup.messages =
        records.map (fun pm => { msg := pm, ack := false }) ∧
      r.2.createInFlightMessageGroup.messages.length = sends.length := by
  obtain ⟨r, records, hrun, hin, hmsgs, hinc, hall, haddr⟩ :=
    Process_total sends pp (newOutgoingMessageSender incomingMessage) hserdes
  have hm : r.2.createInFlightMessageGroup.messages =
      records.map (fun pm => { msg := pm, ack := false }) := by
    rw [createInFlightMessageGroup_messages, hmsgs]
    simp [newOutgoingMessageSender]
  refine ⟨r, records, hrun, hin, hall, haddr, ?_, hm, ?_⟩
  · simp [outgoingMessageSender.createInFlightMessageGroup, hinc, newOutgoingMessageSender]
  · rw [hm, List.length_map, ← hall.length_eq]

/-- Witness of C12: two `Send` calls for the message of offset 10. -/
theorem createInFlightMessageGroup_follows_sends_witness :
    ∃ r records,
      Process { ordersProcessor with nextAddr := 1 } (newOutgoingMessageSender (ordersIncoming 0 10))
        [shipment, shipment] = .ok r ∧
      r.1.producerInput = [] ++ records ∧
      List.Forall₂
        (fun msg pm => ∃ serde, ordersProcessor.TopicSerdes msg.topic = some serde ∧
          pm.topic = msg.topic ∧ pm.key = serde.KeySerde.Serialize msg.key ∧
          pm.value = serde.ValueSerde.Serialize msg.value ∧
          pm.partition = int32 msg.partition ∧
          pm.metadata = some (ordersIncoming 0 10)) [shipment, shipment] records ∧
      records.map (fun pm => pm.addr) =
        List.range' 1 [shipment, shipment].length ∧
      r.2.createInFlightMessageGroup.incomingMessage = ordersIncoming 0 10 ∧
      r.2.createInFlightMessageGroup.messages =
        records.map (fun pm => { msg := pm, ack := false }) ∧
      r.2.createInFlightMessageGroup.messages.length = [shipment, shipment].length :=
  createInFlightMessageGroup_follows_sends { ordersProcessor with nextAddr := 1 }
    (ordersIncoming 0 10)
    [shipment, shipment]
    (by
      intro msg hmsg
      simp only [List.mem_cons, List.mem_singleton, List.not_mem_nil, or_false, or_self] at hmsg
      subst hmsg
      exact ⟨⟨textSerde, textSerde⟩, rfl⟩)

/-! ## The queue ordering invariant (C13) -/

/-- The queues after `processConsumerMessage`: the group of the consumed record,
allocated at the next address, is put at the tail of the queue of its topic, and the
queues of the input topics are compacted; the offset managers and the input topics
stay as they are, and the records sent are extended. -/
theorem processConsumerMessage_spec (pp pp1 : partitionProcessor)
    (consumerMessage : ConsumerMessage) (sends : List OutgoingMessage)
    (h : processConsumerMessage pp consumerMessage sends = .ok pp1) :
    ∃ group : inFlightMessageGroup, ∃ records : List ProducerMessage,
      group.incomingMessage.topic = consumerMessage.topic ∧
      group.incomingMessage.offset = consumerMessage.offset ∧
      group.incomingMessage.addr = pp.nextAddr ∧
      group.messages = records.map (fun pm => { msg := pm, ack := false }) ∧
      (∀ pm ∈ records, pm.metadata = some group.incomingMessage) ∧
      pp1.producerInput = pp.producerInput ++ records ∧
      pp1.offsetManagers = pp.offsetManagers ∧
      pp1.inputTopics = pp.inputTopics ∧
      pp.nextAddr < pp1.nextAddr ∧
      ∀ t, pp1.inFlightMessageGroups t =
        if t ∈ pp.inputTopics then
          pruneLoop (if t = consumerMessage.topic then pp.inFlightMessageGroups t ++ [group]
            else pp.inFlightMessageGroups t)
        else
          (if t = consumerMessage.topic then pp.inFlightMessageGroups t ++ [group]
            else pp.inFlightMessageGroups t) := by
  unfold processConsumerMessage at h
  cases hserde : pp.TopicSerdes consumerMessage.topic with
  | none => simp [hserde] at h
  | some topicSerde =>
    simp only [hserde] at h
    generalize hproc : Process { pp with nextAddr := pp.nextAddr + 1 }
      (newOutgoingMessageSender
        { addr := pp.nextAddr
          topic := consumerMessage.topic
          partition := consumerMessage.partition
          offset := consumerMessage.offset
          key := topicSerde.KeySerde.Deserialize consumerMessage.key
          value := topicSerde.ValueSerde.Deserialize consumerMessage.value
          timestamp := consumerMessage.timestamp }) sends = res at h
    cases res with
    | error e => simp at h
    | ok r =>
      simp only [Except.ok.injEq] at h
      subst h
      obtain ⟨records, _, hinput, hmsgs, hinc, hmeta, hqueues, hmanagers, htopics, _⟩ :=
        Process_spec sends _ _ r hproc
      have hnext : pp.nextAddr < r.1.nextAddr := by
        have hmono : ∀ (sends : List OutgoingMessage) (p : partitionProcessor)
            (s : outgoingMessageSender) (r : partitionProcessor × outgoingMessageSender),
            Process p s sends = .ok r → p.nextAddr ≤ r.1.nextAddr := by
          intro sends
          induction sends with
          | nil =>
            intro p s r hr
            simp only [Process, Except.ok.injEq] at hr
            subst hr
            exact Nat.le_refl _
          | cons msg rest ih =>
            intro p s r hr
            simp only [Process, outgoingMessageSender.Send] at hr
            cases hs : p.TopicSerdes msg.topic with
            | none => simp [hs] at hr
            | some sd =>
              simp only [hs] at hr
              exact Nat.le_trans (Nat.le_succ _) (ih _ _ r hr)
        exact Nat.lt_of_lt_of_le (Nat.lt_succ_self _) (hmono sends _ _ r hproc)
      have hgi : r.2.createInFlightMessageGroup.incomingMessage =
          { addr := pp.nextAddr
            topic := consumerMessage.topic
            partition := consumerMessage.partition
            offset := consumerMessage.offset
            key := topicSerde.KeySerde.Deserialize consumerMessage.key
            value := topicSerde.ValueSerde.Deserialize consumerMessage.value
            timestamp := consumerMessage.timestamp } := by
        simp [outgoingMessageSender.createInFlightMessageGroup, hinc, newOutgoingMessageSender]
      refine ⟨r.2.createInFlightMessageGroup, records, by rw [hgi], by rw [hgi], by rw [hgi],
        ?_, ?_, ?_, ?_, ?_, ?_, ?_⟩
      · rw [createInFlightMessageGroup_messages, hmsgs]
        simp [newOutgoingMessageSender]
      · intro pm hpm
        rw [hgi]
        exact hmeta pm hpm
      · rw [show (pruneInFlightMessageGroups _).producerInput = _ from
          (foldl_prune_fields _ _).2.2.2.1]
        exact hinput
      · rw [show (pruneInFlightMessageGroups _).offsetManagers = _ from
          (foldl_prune_fields _ _).2.2.1]
        exact hmanagers
      · rw [show (pruneInFlightMessageGroups _).inputTopics = _ from
          (foldl_prune_fields _ _).2.1]
        exact htopics
      · rw [show (pruneInFlightMessageGroups _).nextAddr = _ from
          (foldl_prune_fields _ _).2.2.2.2]
        exact hnext
      · intro t
        rw [pruneInFlightMessageGroups_queue]
        simp only [htopics, hqueues]
        by_cases ht : t = consumerMessage.topic
        · subst ht
          simp only [Function.update_same, if_true]
        · simp only [Function.update_noteq ht, ht, if_false]

theorem markOffsetsForTopic_queue (pp pp1 : partitionProcessor) (topic : Topic)
    (h : markOffsetsForTopic pp topic = .ok pp1) :
    pp1.inFlightMessageGroups =
        Function.update pp.inFlightMessageGroups topic
          (markLoop (-1) (pp.inFlightMessageGroups topic)).2 ∧
      pp1.producerInput = pp.producerInput ∧ pp1.inputTopics = pp.inputTopics ∧
      pp1.nextAddr = pp.nextAddr := by
  unfold markOffsetsForTopic at h
  by_cases hw : (markLoop (-1) (pp.inFlightMessageGroups topic)).1 = -1
  · simp only [hw, bne_self_eq_false, Bool.false_eq_true, ↓reduceIte, Except.ok.injEq] at h
    subst h
    exact ⟨rfl, rfl, rfl, rfl⟩
  · cases hm : pp.offsetManagers topic with
    | none => simp [hw, hm] at h
    | some marked =>
      simp only [hm, bne_iff_ne, ne_eq, hw, not_false_eq_true, ↓reduceIte,
        Except.ok.injEq] at h
      subst h
      exact ⟨rfl, rfl, rfl, rfl⟩

theorem processProducerMessageSuccess_queue (pp pp1 : partitionProcessor)
    (producerMessage : ProducerMessage)
    (h : processProducerMessageSuccess pp producerMessage = .ok pp1) :
    (∀ t, (pp1.inFlightMessageGroups t).map (fun g => g.incomingMessage) =
      (pp.inFlightMessageGroups t).map (fun g => g.incomingMessage)) ∧
    pp1.producerInput = pp.producerInput ∧ pp1.offsetManagers = pp.offsetManagers ∧
    pp1.inputTopics = pp.inputTopics ∧ pp1.nextAddr = pp.nextAddr := by
  unfold processProducerMessageSuccess at h
  cases hmeta : producerMessage.metadata with
  | none => simp [hmeta] at h
  | some im =>
    simp only [hmeta] at h
    cases hloop : groupLoop im producerMessage (pp.inFlightMessageGroups im.topic) with
    | error e => simp [hloop] at h
    | ok q1 =>
      simp only [hloop, Except.ok.injEq] at h
      subst h
      refine ⟨?_, rfl, rfl, rfl, rfl⟩
      intro t
      by_cases ht : t = im.topic
      · subst ht
        simp only [Function.update_same]
        exact (groupLoop_keeps im producerMessage _ q1 hloop).1
      · simp only [Function.update_noteq ht]

theorem pairwise_offsets_of_map (q q1 : List inFlightMessageGroup)
    (hmap : q1.map (fun g => g.incomingMessage) = q.map (fun g => g.incomingMessage))
    (h : q.Pairwise (fun x y => x.incomingMessage.offset < y.incomingMessage.offset)) :
    q1.Pairwise (fun x y => x.incomingMessage.offset < y.incomingMessage.offset) := by
  have e1 : ∀ l : List inFlightMessageGroup,
      l.Pairwise (fun x y => x.incomingMessage.offset < y.incomingMessage.offset) ↔
      (l.map (fun g => g.incomingMessage)).Pairwise (fun a b => a.offset < b.offset) := by
    intro l
    rw [List.pairwise_map]
  rw [e1, hmap, ← e1]
  exact h

theorem pairwise_pruneLoop (q : List inFlightMessageGroup)
    (h : q.Pairwise (fun x y => x.incomingMessage.offset < y.incomingMessage.offset)) :
    (pruneLoop q).Pairwise (fun x y => x.incomingMessage.offset < y.incomingMessage.offset) := by
  obtain ⟨removed, hsplit, _⟩ := pruneLoop_split q
  rw [hsplit] at h
  exact (List.pairwise_append.mp h).2.1

theorem pairwise_markLoop (offset : Offset) (q : List inFlightMessageGroup)
    (h : q.Pairwise (fun x y => x.incomingMessage.offset < y.incomingMessage.offset)) :
    (markLoop offset q).2.Pairwise
      (fun x y => x.incomingMessage.offset < y.incomingMessage.offset) := by
  obtain ⟨removed, hsplit, _⟩ := markLoop_split offset q
  rw [hsplit] at h
  exact (List.pairwise_append.mp h).2.1

/-- C13: the queue of `topic` is strictly ascending in the offsets of the originating
messages of its groups.  Then it is strictly ascending after
`pruneInFlightMessageGroupsForTopic` and after `markOffsetsForTopic` (for any
topic), after `processProducerMessageSuccess`, and after `processConsumerMessage`
for a record that, if it is of this topic, has an offset greater than every offset
in the queue; in that case the group of the record is at the tail of the queue. -/
theorem queue_stays_ascending (pp : partitionProcessor) (topic : Topic)
    (hsorted : (pp.inFlightMessageGroups topic).Pairwise
      (fun x y => x.incomingMessage.offset < y.incomingMessage.offset)) :
    (∀ t, ((pruneInFlightMessageGroupsForTopic pp t).inFlightMessageGroups topic).Pairwise
      (fun x y => x.incomingMessage.offset < y.incomingMessage.offset)) ∧
    (∀ t pp1, markOffsetsForTopic pp t = .ok pp1 →
      (pp1.inFlightMessageGroups topic).Pairwise
        (fun x y => x.incomingMessage.offset < y.incomingMessage.offset)) ∧
    (∀ producerMessage pp1, processProducerMessageSuccess pp producerMessage = .ok pp1 →
      (pp1.inFlightMessageGroups topic).Pairwise
        (fun x y => x.incomingMessage.offset < y.incomingMessage.offset)) ∧
    (∀ consumerMessage sends pp1,
      (consumerMessage.topic = topic →
        ∀ g ∈ pp.inFlightMessageGroups topic,
          g.incomingMessage.offset < consumerMessage.offset) →
      processConsumerMessage pp consumerMessage sends = .ok pp1 →
      (pp1.inFlightMessageGroups topic).Pairwise
        (fun x y => x.incomingMessage.offset < y.incomingMessage.offset) ∧
      (consumerMessage.topic = topic →
        ∃ g, (pp1.inFlightMessageGroups topic).getLast? = some g ∧
          g.incomingMessage.offset = consumerMessage.offset)) := by
  refine ⟨?_, ?_, ?_, ?_⟩
  · intro t
    by_cases ht : topic = t
    · subst ht
      simp only [pruneInFlightMessageGroupsForTopic, Function.update_same]
      exact pairwise_pruneLoop _ hsorted
    · simp only [pruneInFlightMessageGroupsForTopic, Function.update_noteq ht]
      exact hsorted
  · intro t pp1 h
    rw [(markOffsetsForTopic_queue pp pp1 t h).1]
    by_cases ht : topic = t
    · subst ht
      simp only [Function.update_same]
      exact pairwise_markLoop _ _ hsorted
    · simp only [Function.update_noteq ht]
      exact hsorted
  · intro pm pp1 h
    exact pairwise_offsets_of_map _ _ ((processProducerMessageSuccess_queue pp pp1 pm h).1 topic)
      hsorted
  · intro cm sends pp1 hgreater h
    obtain ⟨group, records, hgt, hgo, _, _, _, _, _, _, _, hq⟩ :=
      processConsumerMessage_spec pp pp1 cm sends h
    have happ : (if topic = cm.topic then pp.inFlightMessageGroups topic ++ [group]
          else pp.inFlightMessageGroups topic).Pairwise
        (fun x y => x.incomingMessage.offset < y.incomingMessage.offset) := by
      split
      · rename_i ht
        rw [List.pairwise_append]
        refine ⟨hsorted, List.pairwise_singleton _ _, ?_⟩
        intro a ha b hb
        rw [List.mem_singleton] at hb
        subst hb
        rw [hgo]
        exact hgreater ht.symm a ha
      · exact hsorted
    constructor
    · rw [hq topic]
      split
      · exact pairwise_pruneLoop _ happ
      · exact happ
    · intro ht
      refine ⟨group, ?_, hgo⟩
      rw [hq topic]
      simp only [ht, if_true]
      have hlast : ∀ l : List inFlightMessageGroup,
          (pruneLoop (l ++ [group])).getLast? = some group := by
        intro l
        obtain ⟨removed, hsplit, _⟩ := pruneLoop_split (l ++ [group])
        have hne := pruneLoop_ne_nil (l ++ [group]) (by simp)
        have h1 : (l ++ [group]).getLast? = some group := by simp
        rw [hsplit, List.getLast?_append_of_ne_nil _ hne] at h1
        exact h1
      split
      · exact hlast _
      · simp

/-- Witness of C13: the queue of offsets 10 and 11, compacted, and extended by the
record of offset 12. -/
theorem queue_stays_ascending_witness :
    ((ordersProcessorWith
        [ordersGroup 0 10 (some [true]), ordersGroup 2 11 (some [false])]
      ).inFlightMessageGroups "orders").Pairwise
      (fun x y => x.incomingMessage.offset < y.incomingMessage.offset) ∧
    ((pruneInFlightMessageGroupsForTopic
        (ordersProcessorWith [ordersGroup 0 10 (some [true]), ordersGroup 2 11 (some [false])])
        "orders").inFlightMessageGroups "orders").Pairwise
      (fun x y => x.incomingMessage.offset < y.incomingMessage.offset) ∧
    ∃ pp1,
      processConsumerMessage
        (ordersProcessorWith [ordersGroup 0 10 (some [true]), ordersGroup 2 11 (some [false])])
        (ordersMessage 12) [] = .ok pp1 ∧
      (pp1.inFlightMessageGroups "orders").Pairwise
        (fun x y => x.incomingMessage.offset < y.incomingMessage.offset) := by
  have hs : ((ordersProcessorWith
        [ordersGroup 0 10 (some [true]), ordersGroup 2 11 (some [false])]
      ).inFlightMessageGroups "orders").Pairwise
      (fun x y => x.incomingMessage.offset < y.incomingMessage.offset) := by
    decide
  have hok : (processConsumerMessage
      (ordersProcessorWith [ordersGroup 0 10 (some [true]), ordersGroup 2 11 (some [false])])
      (ordersMessage 12) []).toOption.isSome = true := by
    decide
  refine ⟨hs, (queue_stays_ascending _ "orders" hs).1 "orders", ?_⟩
  cases h : processConsumerMessage
      (ordersProcessorWith [ordersGroup 0 10 (some [true]), ordersGroup 2 11 (some [false])])
      (ordersMessage 12) [] with
  | error e =>
    rw [h] at hok
    exact absurd hok (by simp [Except.toOption])
  | ok pp1 =>
    exact ⟨pp1, rfl,
      ((queue_stays_ascending _ "orders" hs).2.2.2 (ordersMessage 12) [] pp1 (by decide) h).1⟩

/-! ## The exact result of compaction (C16, C17) -/

theorem ackedPrefixLength_cons_acked (g : inFlightMessageGroup)
    (rest : List inFlightMessageGroup) (hg : g.allAcksAreTrue = true) :
    ackedPrefixLength (g :: rest) = ackedPrefixLength rest + 1 := by
  simp [ackedPrefixLength, List.takeWhile, hg]

theorem ackedPrefixLength_cons_unacked (g : inFlightMessageGroup)
    (rest : List inFlightMessageGroup) (hg : g.allAcksAreTrue = false) :
    ackedPrefixLength (g :: rest) = 0 := by
  simp [ackedPrefixLength, List.takeWhile, hg]

theorem pruneLoop_eq_drop (q : List inFlightMessageGroup) :
    pruneLoop q = q.drop (ackedPrefixLength q - 1) := by
  induction q with
  | nil => rfl
  | cons g rest ih =>
    cases rest with
    | nil =>
      cases hg : g.allAcksAreTrue
      · simp [pruneLoop, ackedPrefixLength_cons_unacked g [] hg]
      · rw [ackedPrefixLength_cons_acked g [] hg]
        simp [pruneLoop, ackedPrefixLength]
    | cons n t =>
      cases hg : g.allAcksAreTrue with
      | false => simp [pruneLoop, hg, ackedPrefixLength_cons_unacked g _ hg]
      | true =>
        cases hn : n.allAcksAreTrue with
        | false =>
          simp [pruneLoop, hg, hn, ackedPrefixLength_cons_acked g _ hg,
            ackedPrefixLength_cons_unacked n _ hn]
        | true =>
          have hstep : pruneLoop (g :: n :: t) = pruneLoop (n :: t) := by
            simp [pruneLoop, hg, hn]
          rw [hstep, ih, ackedPrefixLength_cons_acked g _ hg,
            ackedPrefixLength_cons_acked n _ hn]
          simp

theorem ackedPrefixLength_pruneLoop_le (q : List inFlightMessageGroup) :
    ackedPrefixLength (pruneLoop q) ≤ 1 := by
  induction q with
  | nil => simp [pruneLoop, ackedPrefixLength]
  | cons g rest ih =>
    cases rest with
    | nil =>
      cases hg : g.allAcksAreTrue <;>
        simp [pruneLoop, ackedPrefixLength, List.takeWhile, hg]
    | cons n t =>
      cases hg : g.allAcksAreTrue with
      | false => simp [pruneLoop, hg, ackedPrefixLength_cons_unacked g _ hg]
      | true =>
        cases hn : n.allAcksAreTrue with
        | false =>
          simp [pruneLoop, hg, hn, ackedPrefixLength_cons_acked g _ hg,
            ackedPrefixLength_cons_unacked n _ hn]
        | true =>
          have hstep : pruneLoop (g :: n :: t) = pruneLoop (n :: t) := by
            simp [pruneLoop, hg, hn]
          rw [hstep]
          exact ih

/-- C16: with `k` the length of the longest head segment of the queue whose groups
are all fully acknowledged, `pruneInFlightMessageGroupsForTopic` leaves the queue
without its first `k - 1` groups when `k ≥ 1` and leaves the state as it is when
`k = 0`; in the queue it leaves, at most one fully acknowledged group precedes the
first group that is not fully acknowledged. -/
theorem prune_exact_result (pp : partitionProcessor) (topic : Topic) :
    (1 ≤ ackedPrefixLength (pp.inFlightMessageGroups topic) →
      (pruneInFlightMessageGroupsForTopic pp topic).inFlightMessageGroups topic =
        (pp.inFlightMessageGroups topic).drop
          (ackedPrefixLength (pp.inFlightMessageGroups topic) - 1)) ∧
    (ackedPrefixLength (pp.inFlightMessageGroups topic) = 0 →
      pruneInFlightMessageGroupsForTopic pp topic = pp) ∧
    ackedPrefixLength
      ((pruneInFlightMessageGroupsForTopic pp topic).inFlightMessageGroups topic) ≤ 1 := by
  have hq : (pruneInFlightMessageGroupsForTopic pp topic).inFlightMessageGroups topic =
      pruneLoop (pp.inFlightMessageGroups topic) := by
    simp [pruneInFlightMessageGroupsForTopic]
  refine ⟨fun _ => ?_, fun hk => ?_, ?_⟩
  · rw [hq, pruneLoop_eq_drop]
  · unfold pruneInFlightMessageGroupsForTopic
    rw [pruneLoop_eq_drop, hk]
    simp
  · rw [hq]
    exact ackedPrefixLength_pruneLoop_le _

/-- Witness of C16: three fully acknowledged groups before an unacknowledged one
(the first two are removed), and a queue with an unacknowledged head. -/
theorem prune_exact_result_witness :
    (pruneInFlightMessageGroupsForTopic
        (ordersProcessorWith
          [ordersGroup 0 10 (some [true]), ordersGroup 2 11 none, ordersGroup 3 12 (some [true]),
            ordersGroup 5 13 (some [false])])
        "orders").inFlightMessageGroups "orders" =
      [ordersGroup 3 12 (some [true]), ordersGroup 5 13 (some [false])] ∧
    pruneInFlightMessageGroupsForTopic
        (ordersProcessorWith [ordersGroup 0 10 (some [false]), ordersGroup 2 11 none])
        "orders" =
      ordersProcessorWith [ordersGroup 0 10 (some [false]), ordersGroup 2 11 none] := by
  constructor
  · rw [(prune_exact_result _ "orders").1 (by decide)]
    decide
  · exact (prune_exact_result _ "orders").2.1 (by decide)

theorem markLoop_pruneLoop (offset : Offset) (q : List inFlightMessageGroup) :
    markLoop offset (pruneLoop q) = markLoop offset q := by
  induction q generalizing offset with
  | nil => rfl
  | cons g rest ih =>
    cases rest with
    | nil => rfl
    | cons n t =>
      cases hg : g.allAcksAreTrue with
      | false => simp [pruneLoop, hg]
      | true =>
        cases hn : n.allAcksAreTrue with
        | false => simp [pruneLoop, hg, hn]
        | true =>
          have hstep : pruneLoop (g :: n :: t) = pruneLoop (n :: t) := by
            simp [pruneLoop, hg, hn]
          rw [hstep, ih]
          simp [markLoop, hg, hn]

/-- C17: `markOffsetsForTopic` run on the state left by
`pruneInFlightMessageGroupsForTopic` gives the same outcome as run on the state
itself: the same value passed to `MarkOffset` (or none, or the same fault) and the
same remaining queue, every other part of the state being the same. -/
theorem mark_after_prune_eq_mark (pp : partitionProcessor) (topic : Topic) :
    markOffsetsForTopic (pruneInFlightMessageGroupsForTopic pp topic) topic =
      markOffsetsForTopic pp topic := by
  simp only [markOffsetsForTopic, pruneInFlightMessageGroupsForTopic, Function.update_same,
    markLoop_pruneLoop, Function.update_idem]

/-! ## Completions always find their group (C18) -/

theorem TrackingInvariant.trackingMono {evs evs1 : List Event} {pp : partitionProcessor}
    (h : TrackingInvariant evs pp) (hsub : ∀ e ∈ evs, e ∈ evs1) :
    TrackingInvariant evs1 pp where
  allocated := h.allocated
  distinct := h.distinct
  tracked := by
    intro pm hpm
    obtain ⟨im, him, hack⟩ := h.tracked pm hpm
    refine ⟨im, him, ?_⟩
    rcases hack with hack | hq
    · exact Or.inl (acknowledgedIn_mono evs evs1 pm hsub hack)
    · exact Or.inr hq

/-- The invariant survives the removal of a head segment of fully acknowledged
groups from one queue. -/
theorem TrackingInvariant.trackingRemoveAcked {evs : List Event} {pp pp1 : partitionProcessor}
    (h : TrackingInvariant evs pp) (topic : Topic) (removed kept : List inFlightMessageGroup)
    (hsplit : pp.inFlightMessageGroups topic = removed ++ kept)
    (hacked : ∀ g ∈ removed, g.allAcksAreTrue = true)
    (hq : pp1.inFlightMessageGroups = Function.update pp.inFlightMessageGroups topic kept)
    (hin : pp1.producerInput = pp.producerInput) (hnext : pp1.nextAddr = pp.nextAddr) :
    TrackingInvariant evs pp1 where
  allocated := by
    intro t g hg
    rw [hnext]
    rw [hq] at hg
    by_cases ht : t = topic
    · subst ht
      simp only [Function.update_same] at hg
      exact h.allocated t g (by rw [hsplit]; exact List.mem_append_right _ hg)
    · simp only [Function.update_noteq ht] at hg
      exact h.allocated t g hg
  distinct := by
    intro t
    rw [hq]
    by_cases ht : t = topic
    · subst ht
      simp only [Function.update_same]
      have := h.distinct t
      rw [hsplit, List.map_append] at this
      exact this.of_append_right
    · simp only [Function.update_noteq ht]
      exact h.distinct t
  tracked := by
    intro pm hpm
    rw [hin] at hpm
    obtain ⟨im, him, hack⟩ := h.tracked pm hpm
    refine ⟨im, him, ?_⟩
    rcases hack with hack | ⟨g, hg, hid, m, hm, haddr, hun⟩
    · exact Or.inl hack
    · refine Or.inr ⟨g, ?_, hid, m, hm, haddr, hun⟩
      rw [hq]
      by_cases ht : im.topic = topic
      · subst ht
        simp only [Function.update_same]
        rw [hsplit] at hg
        rcases List.mem_append.mp hg with hr | hk
        · have h1 := hacked g hr
          rw [unacked_of_message g m hm hun] at h1
          exact absurd h1 (by decide)
        · exact hk
      · simp only [Function.update_noteq ht]
        exact hg

theorem TrackingInvariant.trackingMarkForTopic {evs : List Event} {pp pp1 : partitionProcessor}
    (h : TrackingInvariant evs pp) (topic : Topic)
    (hmark : markOffsetsForTopic pp topic = .ok pp1) : TrackingInvariant evs pp1 := by
  obtain ⟨removed, hsplit, hacked, _⟩ := markLoop_split (-1) (pp.inFlightMessageGroups topic)
  obtain ⟨hq, hin, _, hnext⟩ := markOffsetsForTopic_queue pp pp1 topic hmark
  exact h.trackingRemoveAcked topic removed _ hsplit hacked hq hin hnext

theorem TrackingInvariant.trackingMarkLoop {evs : List Event} (topics : List Topic)
    {pp pp1 : partitionProcessor} (h : TrackingInvariant evs pp)
    (hmark : markOffsetsLoop pp topics = .ok pp1) : TrackingInvariant evs pp1 := by
  induction topics generalizing pp with
  | nil =>
    simp only [markOffsetsLoop, Except.ok.injEq] at hmark
    subst hmark
    exact h
  | cons t rest ih =>
    simp only [markOffsetsLoop] at hmark
    cases hstep : markOffsetsForTopic pp t with
    | error e => simp [hstep] at hmark
    | ok pp2 =>
      simp only [hstep] at hmark
      exact ih (h.trackingMarkForTopic t hstep) hmark

theorem TrackingInvariant.trackingSuccess {evs : List Event} {pp pp1 : partitionProcessor}
    (h : TrackingInvariant evs pp) (producerMessage : ProducerMessage)
    (hstep : processProducerMessageSuccess pp producerMessage = .ok pp1) :
    TrackingInvariant (evs ++ [Event.producerSuccess producerMessage]) pp1 := by
  unfold processProducerMessageSuccess at hstep
  cases hmeta : producerMessage.metadata with
  | none => simp [hmeta] at hstep
  | some im0 =>
    simp only [hmeta] at hstep
    cases hloop : groupLoop im0 producerMessage (pp.inFlightMessageGroups im0.topic) with
    | error e => simp [hloop] at hstep
    | ok q1 =>
      simp only [hloop, Except.ok.injEq] at hstep
      subst hstep
      obtain ⟨hmap, hkeep⟩ := groupLoop_keeps im0 producerMessage _ q1 hloop
      have haddrs : q1.map (fun g => g.incomingMessage.addr) =
          (pp.inFlightMessageGroups im0.topic).map (fun g => g.incomingMessage.addr) := by
        have := congrArg (List.map (fun im : IncomingMessage => im.addr)) hmap
        simpa [List.map_map] using this
      refine ⟨?_, ?_, ?_⟩
      · intro t g1 hg1
        by_cases ht : t = im0.topic
        · subst ht
          simp only [Function.update_same] at hg1
          have : g1.incomingMessage.addr ∈ q1.map (fun g => g.incomingMessage.addr) :=
            List.mem_map_of_mem (fun g => g.incomingMessage.addr) hg1
          rw [haddrs] at this
          obtain ⟨g, hg, heq⟩ := List.mem_map.mp this
          rw [← heq]
          exact h.allocated im0.topic g hg
        · simp only [Function.update_noteq ht] at hg1
          exact h.allocated t g1 hg1
      · intro t
        by_cases ht : t = im0.topic
        · subst ht
          simp only [Function.update_same]
          rw [haddrs]
          exact h.distinct im0.topic
        · simp only [Function.update_noteq ht]
          exact h.distinct t
      · intro pm hpm
        obtain ⟨im, him, hack⟩ := h.tracked pm hpm
        refine ⟨im, him, ?_⟩
        rcases hack with hack | ⟨g, hg, hid, m, hm, haddr, hun⟩
        · exact Or.inl (acknowledgedIn_mono evs _ pm (fun e he => List.mem_append_left _ he) hack)
        · by_cases hsame : pm.addr = producerMessage.addr
          · exact Or.inl ⟨producerMessage, by simp, hsame.symm⟩
          · right
            by_cases ht : im.topic = im0.topic
            · rw [ht] at hg
              obtain ⟨g1, hg1, heq, hmem⟩ := hkeep g hg
              refine ⟨g1, ?_, by rw [heq]; exact hid, m,
                hmem m hm (by rw [haddr]; exact hsame), haddr, hun⟩
              rw [ht]
              simp only [Function.update_same]
              exact hg1
            · refine ⟨g, ?_, hid, m, hm, haddr, hun⟩
              simp only [Function.update_noteq ht]
              exact hg

theorem mem_pruneLoop_of_unacked (q : List inFlightMessageGroup) (g : inFlightMessageGroup)
    (hg : g ∈ q) (hun : g.allAcksAreTrue = false) : g ∈ pruneLoop q := by
  obtain ⟨removed, hsplit, hacked⟩ := pruneLoop_split q
  rw [hsplit] at hg
  rcases List.mem_append.mp hg with hr | hk
  · rw [hacked g hr] at hun
    exact absurd hun (by decide)
  · exact hk

theorem mem_of_mem_pruneLoop (q : List inFlightMessageGroup) (g : inFlightMessageGroup)
    (hg : g ∈ pruneLoop q) : g ∈ q := by
  obtain ⟨removed, hsplit, _⟩ := pruneLoop_split q
  rw [hsplit]
  exact List.mem_append_right _ hg

theorem TrackingInvariant.trackingConsume {evs : List Event} {pp pp1 : partitionProcessor}
    (h : TrackingInvariant evs pp) (consumerMessage : ConsumerMessage)
    (sends : List OutgoingMessage)
    (hstep : processConsumerMessage pp consumerMessage sends = .ok pp1) :
    TrackingInvariant (evs ++ [Event.consumerMessage consumerMessage sends]) pp1 := by
  obtain ⟨group, records, hgt, _, hga, hgm, hmeta, hin, _, _, hnext, hq⟩ :=
    processConsumerMessage_spec pp pp1 consumerMessage sends hstep
  -- the queue of a topic before compaction
  have hmem : ∀ t g, g ∈ pp1.inFlightMessageGroups t →
      g ∈ pp.inFlightMessageGroups t ∨ (t = consumerMessage.topic ∧ g = group) := by
    intro t g hg
    rw [hq t] at hg
    have hg1 : g ∈ (if t = consumerMessage.topic then pp.inFlightMessageGroups t ++ [group]
        else pp.inFlightMessageGroups t) := by
      split at hg
      · exact mem_of_mem_pruneLoop _ g hg
      · exact hg
    split at hg1
    · rename_i ht
      rcases List.mem_append.mp hg1 with ho | hn
      · exact Or.inl ho
      · exact Or.inr ⟨ht, List.mem_singleton.mp hn⟩
    · exact Or.inl hg1
  have hkept : ∀ t g, g.allAcksAreTrue = false →
      g ∈ (if t = consumerMessage.topic then pp.inFlightMessageGroups t ++ [group]
        else pp.inFlightMessageGroups t) → g ∈ pp1.inFlightMessageGroups t := by
    intro t g hun hg
    rw [hq t]
    split
    · exact mem_pruneLoop_of_unacked _ g hg hun
    · exact hg
  refine ⟨?_, ?_, ?_⟩
  · intro t g hg
    rcases hmem t g hg with ho | ⟨_, hn⟩
    · exact Nat.lt_trans (h.allocated t g ho) hnext
    · rw [hn, hga]
      exact hnext
  · intro t
    have hbase : ((if t = consumerMessage.topic then pp.inFlightMessageGroups t ++ [group]
        else pp.inFlightMessageGroups t).map (fun g => g.incomingMessage.addr)).Nodup := by
      split
      · rw [List.map_append, List.nodup_append]
        refine ⟨h.distinct t, by simp, ?_⟩
        intro a ha hb
        simp only [List.map_cons, List.map_nil, List.mem_singleton] at hb
        obtain ⟨g, hg, heq⟩ := List.mem_map.mp ha
        have := h.allocated t g hg
        rw [heq, hb, hga] at this
        exact absurd this (Nat.lt_irrefl _)
      · exact h.distinct t
    rw [hq t]
    split
    · obtain ⟨removed, hsplit, _⟩ := pruneLoop_split
        (if t = consumerMessage.topic then pp.inFlightMessageGroups t ++ [group]
          else pp.inFlightMessageGroups t)
      rw [hsplit, List.map_append] at hbase
      exact hbase.of_append_right
    · exact hbase
  · intro pm hpm
    rw [hin] at hpm
    rcases List.mem_append.mp hpm with hold | hrec
    · obtain ⟨im, him, hack⟩ := h.tracked pm hold
      refine ⟨im, him, ?_⟩
      rcases hack with hack | ⟨g, hg, hid, m, hm, haddr, hun⟩
      · exact Or.inl (acknowledgedIn_mono evs _ pm (fun e he => List.mem_append_left _ he) hack)
      · refine Or.inr ⟨g, hkept im.topic g (unacked_of_message g m hm hun) ?_, hid, m, hm,
          haddr, hun⟩
        split
        · exact List.mem_append_left _ hg
        · exact hg
    · refine ⟨group.incomingMessage, hmeta pm hrec, Or.inr ⟨group, ?_, rfl,
        { msg := pm, ack := false }, ?_, rfl, rfl⟩⟩
      · have hm : ({ msg := pm, ack := false } : inFlightMessage) ∈ group.messages := by
          rw [hgm]
          exact List.mem_map_of_mem _ hrec
        apply hkept group.incomingMessage.topic group (unacked_of_message group _ hm rfl)
        rw [if_pos hgt]
        exact List.mem_append_right _ (List.mem_singleton.mpr rfl)
      · rw [hgm]
        exact List.mem_map_of_mem _ hrec

/-- The tracking invariant holds after every sequence of events that a fresh
processor handles without fault. -/
theorem tracking_invariant (evs : List Event) (pp0 pp : partitionProcessor)
    (hfresh : pp0.isFresh) (hrun : run pp0 evs = .ok pp) : TrackingInvariant evs pp := by
  induction evs using List.reverseRecOn generalizing pp with
  | nil =>
    simp only [run, Except.ok.injEq] at hrun
    subst hrun
    obtain ⟨hq, hin, _⟩ := hfresh
    refine ⟨?_, ?_, ?_⟩
    · intro t g hg; rw [hq t] at hg; simp at hg
    · intro t; rw [hq t]; simp
    · intro pm hpm; rw [hin] at hpm; simp at hpm
  | append_singleton l e ih =>
    rw [run_append] at hrun
    cases hl : run pp0 l with
    | error f => simp [hl] at hrun
    | ok pp1 =>
      simp only [hl, run] at hrun
      have hinv := ih pp1 hl
      cases hs : step pp1 e with
      | error f => simp [hs] at hrun
      | ok pp2 =>
        simp only [hs, Except.ok.injEq] at hrun
        subst hrun
        cases e with
        | consumerMessage cm sends => exact hinv.trackingConsume cm sends hs
        | producerSuccess pm => exact hinv.trackingSuccess pm hs
        | markOffsetsTick =>
          exact (hinv.trackingMono (fun e he => List.mem_append_left _ he)).trackingMarkLoop pp1.inputTopics hs

/-- C18: a fresh processor has handled any sequence of events without fault; a
record that it has sent (the `processConsumerMessage` call that submitted it has
returned) has had no completion yet.  Then the group of the record's originating
message is still in the queue of that message's topic and holds the record, and
`processProducerMessageSuccess` for the record returns: neither `log.Fatal` branch
is taken. -/
theorem completion_finds_group (pp0 pp : partitionProcessor) (evs : List Event)
    (producerMessage : ProducerMessage)
    (hfresh : pp0.isFresh) (hrun : run pp0 evs = .ok pp)
    (hsent : producerMessage ∈ pp.producerInput)
    (hfirst : ¬ acknowledgedIn evs producerMessage) :
    (∃ im g m, producerMessage.metadata = some im ∧
      g ∈ pp.inFlightMessageGroups im.topic ∧ g.incomingMessage.addr = im.addr ∧
      m ∈ g.messages ∧ m.msg.addr = producerMessage.addr ∧ m.ack = false) ∧
    ∃ pp1, processProducerMessageSuccess pp producerMessage = .ok pp1 := by
  have hinv := tracking_invariant evs pp0 pp hfresh hrun
  obtain ⟨im, him, hack⟩ := hinv.tracked producerMessage hsent
  rcases hack with hack | ⟨g, hg, hid, m, hm, haddr, hun⟩
  · exact absurd hack hfirst
  · refine ⟨⟨im, g, m, him, hg, hid, hm, haddr, hun⟩, ?_⟩
    obtain ⟨_, hsome⟩ :=
      groupLoop_found im producerMessage _ g hg hid (hinv.distinct im.topic)
    cases hloop : ackLoop producerMessage g.messages with
    | none =>
      have := (ackLoop_eq_none_iff producerMessage g.messages).mp hloop m hm
      exact absurd haddr this
    | some msgs =>
      obtain ⟨q1, hq1⟩ := hsome msgs hloop
      simp only [processProducerMessageSuccess, him, hq1]
      exact ⟨_, rfl⟩

theorem ordersProcessor_isFresh : ordersProcessor.isFresh := by
  refine ⟨fun _ => rfl, rfl, ?_⟩
  intro t marked h
  simp only [ordersProcessor] at h
  split at h
  · exact (Option.some.inj h).symm
  · exact absurd h (by simp)

/-- Witness of C18: after the messages of offsets 10 and 11 and the completion of the
first record of offset 10, the completion of its second record returns. -/
theorem completion_finds_group_witness :
    ∃ pp,
      run ordersProcessor [consume10, consume11, ack10a] = .ok pp ∧
      shipmentRecord 2 (ordersIncoming 0 10) ∈ pp.producerInput ∧
      ¬ acknowledgedIn [consume10, consume11, ack10a] (shipmentRecord 2 (ordersIncoming 0 10)) ∧
      ∃ pp1, processProducerMessageSuccess pp (shipmentRecord 2 (ordersIncoming 0 10)) =
        .ok pp1 := by
  have hin : (run ordersProcessor [consume10, consume11, ack10a]).toOption.map
      (fun pp => pp.producerInput) =
      some [shipmentRecord 1 (ordersIncoming 0 10), shipmentRecord 2 (ordersIncoming 0 10)] := by
    decide
  have hfirst : ¬ acknowledgedIn [consume10, consume11, ack10a]
      (shipmentRecord 2 (ordersIncoming 0 10)) := by
    rintro ⟨c, hc, heq⟩
    simp only [consume10, consume11, ack10a, List.mem_cons, List.mem_singleton,
      List.not_mem_nil, or_false, Event.producerSuccess.injEq, false_or,
      reduceCtorEq] at hc
    subst hc
    simp [shipmentRecord] at heq
  cases hrun : run ordersProcessor [consume10, consume11, ack10a] with
  | error f =>
    rw [hrun] at hin
    simp [Except.toOption] at hin
  | ok pp =>
    rw [hrun] at hin
    simp only [Except.toOption, Option.map_some', Option.some.injEq] at hin
    have hsent : shipmentRecord 2 (ordersIncoming 0 10) ∈ pp.producerInput := by
      rw [hin]
      simp
    exact ⟨pp, rfl, hsent, hfirst,
      (completion_finds_group ordersProcessor pp _ _ ordersProcessor_isFresh hrun hsent
        hfirst).2⟩

/-! ## Committed offsets move forward (C19) -/

/-- The outcome of `markOffsetsForTopic` when it returns: a head segment of fully
acknowledged groups is removed from the queue of the topic, and either nothing is
marked or `int64(offset + 1)` is, for the offset of a removed group. -/
theorem markOffsetsForTopic_cases (pp pp1 : partitionProcessor) (topic : Topic)
    (h : markOffsetsForTopic pp topic = .ok pp1) :
    ∃ removed,
      pp.inFlightMessageGroups topic = removed ++ pp1.inFlightMessageGroups topic ∧
      (∀ g ∈ removed, g.allAcksAreTrue = true) ∧
      (∀ t, t ≠ topic → pp1.inFlightMessageGroups t = pp.inFlightMessageGroups t) ∧
      (pp1.offsetManagers = pp.offsetManagers ∨
        ∃ g ∈ removed, ∃ marked, pp.offsetManagers topic = some marked ∧
          pp1.offsetManagers =
            Function.update pp.offsetManagers topic
              (some (marked ++ [int64 (g.incomingMessage.offset + 1)]))) := by
  obtain ⟨removed, hsplit, hacked, hoff⟩ := markLoop_split (-1) (pp.inFlightMessageGroups topic)
  have hq := (markOffsetsForTopic_queue pp pp1 topic h).1
  refine ⟨removed, ?_, hacked, ?_, ?_⟩
  · rw [hq]
    simp only [Function.update_same]
    exact hsplit
  · intro t ht
    rw [hq]
    simp only [Function.update_noteq ht]
  · unfold markOffsetsForTopic at h
    by_cases hw : (markLoop (-1) (pp.inFlightMessageGroups topic)).1 = -1
    · simp only [hw, bne_self_eq_false, Bool.false_eq_true, ↓reduceIte, Except.ok.injEq] at h
      subst h
      exact Or.inl rfl
    · rcases hoff with hoff | ⟨g, hg, hoff⟩
      · exact absurd hoff hw
      · cases hm : pp.offsetManagers topic with
        | none => simp [hw, hm] at h
        | some marked =>
          simp only [hm, bne_iff_ne, ne_eq, hw, not_false_eq_true, ↓reduceIte,
            Except.ok.injEq] at h
          subst h
          exact Or.inr ⟨g, hg, marked, rfl, by rw [hoff]⟩

theorem ForwardInvariant.forwardMarkForTopic {evs : List Event} {pp pp1 : partitionProcessor}
    (h : ForwardInvariant pp) (hloop : LoopInvariant evs pp)
    (hbelow : ∀ cm ∈ consumedMessages evs, 0 ≤ cm.offset ∧ cm.offset < 9223372036854775807)
    (topic : Topic) (hmark : markOffsetsForTopic pp topic = .ok pp1) :
    ForwardInvariant pp1 := by
  obtain ⟨removed, hsplit, hacked, hother, hman⟩ := markOffsetsForTopic_cases pp pp1 topic hmark
  have hsub : ∀ t, ∀ g ∈ pp1.inFlightMessageGroups t, g ∈ pp.inFlightMessageGroups t := by
    intro t g hg
    by_cases ht : t = topic
    · subst ht
      rw [hsplit]
      exact List.mem_append_right _ hg
    · rw [hother t ht] at hg
      exact hg
  rcases hman with hman | ⟨g, hg, marked, hmarked, hman⟩
  · refine ⟨?_, ?_⟩
    · intro t m hm
      rw [hman] at hm
      exact h.ordered t m hm
    · intro t m hm v hv x hx
      rw [hman] at hm
      exact h.below t m hm v hv x (hsub t x hx)
  · have hgq : g ∈ pp.inFlightMessageGroups topic := by
      rw [hsplit]; exact List.mem_append_left _ hg
    obtain ⟨_, cm, hcm, _, hco⟩ := hloop.queued topic g hgq
    obtain ⟨h0, hmax⟩ := hbelow cm hcm
    have hval : int64 (g.incomingMessage.offset + 1) = g.incomingMessage.offset + 1 := by
      rw [← hco]
      exact int64_succ cm.offset (by omega) hmax
    rw [hval] at hman
    refine ⟨?_, ?_⟩
    · intro t m hm
      rw [hman] at hm
      by_cases ht : t = topic
      · subst ht
        simp only [Function.update_same, Option.some.injEq] at hm
        subst hm
        rw [List.pairwise_append]
        refine ⟨h.ordered t marked hmarked, List.pairwise_singleton _ _, ?_⟩
        intro v hv w hw
        rw [List.mem_singleton] at hw
        subst hw
        exact Int.lt_add_one_iff.mpr (h.below t marked hmarked v hv g hgq)
      · simp only [Function.update_noteq ht] at hm
        exact h.ordered t m hm
    · intro t m hm v hv x hx
      rw [hman] at hm
      by_cases ht : t = topic
      · subst ht
        simp only [Function.update_same, Option.some.injEq] at hm
        subst hm
        rcases List.mem_append.mp hv with hold | hnew
        · exact h.below t marked hmarked v hold x (hsub t x hx)
        · rw [List.mem_singleton] at hnew
          subst hnew
          have hsorted := hloop.sorted t
          rw [hsplit] at hsorted
          have hlt : g.incomingMessage.offset < x.incomingMessage.offset :=
            (List.pairwise_append.mp hsorted).2.2 g hg x hx
          exact Int.add_one_le_iff.mpr hlt
      · simp only [Function.update_noteq ht] at hm
        exact h.below t m hm v hv x (hsub t x hx)

theorem ForwardInvariant.forwardMarkLoop {evs : List Event} (topics : List Topic)
    {pp pp1 : partitionProcessor} (h : ForwardInvariant pp) (hloop : LoopInvariant evs pp)
    (hbelow : ∀ cm ∈ consumedMessages evs, 0 ≤ cm.offset ∧ cm.offset < 9223372036854775807)
    (hmark : markOffsetsLoop pp topics = .ok pp1) : ForwardInvariant pp1 := by
  induction topics generalizing pp with
  | nil =>
    simp only [markOffsetsLoop, Except.ok.injEq] at hmark
    subst hmark
    exact h
  | cons t rest ih =>
    simp only [markOffsetsLoop] at hmark
    cases hstep : markOffsetsForTopic pp t with
    | error e => simp [hstep] at hmark
    | ok pp2 =>
      simp only [hstep] at hmark
      exact ih (h.forwardMarkForTopic hloop hbelow t hstep) (hloop.markForTopic t hstep) hmark

theorem ForwardInvariant.forwardSuccess {pp pp1 : partitionProcessor} (h : ForwardInvariant pp)
    (producerMessage : ProducerMessage)
    (hstep : processProducerMessageSuccess pp producerMessage = .ok pp1) :
    ForwardInvariant pp1 := by
  obtain ⟨hmap, _, hman, _, _⟩ := processProducerMessageSuccess_queue pp pp1 producerMessage hstep
  refine ⟨?_, ?_⟩
  · intro t m hm
    rw [hman] at hm
    exact h.ordered t m hm
  · intro t m hm v hv x hx
    rw [hman] at hm
    have : x.incomingMessage ∈ (pp1.inFlightMessageGroups t).map (fun g => g.incomingMessage) :=
      List.mem_map_of_mem (fun g => g.incomingMessage) hx
    rw [hmap t] at this
    obtain ⟨g, hg, heq⟩ := List.mem_map.mp this
    rw [← heq]
    exact h.below t m hm v hv g hg

theorem ForwardInvariant.forwardConsume {evs : List Event} {pp pp1 : partitionProcessor}
    (h : ForwardInvariant pp) (hloop : LoopInvariant evs pp)
    (consumerMessage : ConsumerMessage) (sends : List OutgoingMessage)
    (hoffsets : offsetsAscend (evs ++ [Event.consumerMessage consumerMessage sends]))
    (hbelow : ∀ cm ∈ consumedMessages evs, 0 ≤ cm.offset ∧ cm.offset < 9223372036854775807)
    (hstep : processConsumerMessage pp consumerMessage sends = .ok pp1) :
    ForwardInvariant pp1 := by
  obtain ⟨group, records, _, hgo, _, _, _, _, hman, _, _, hq⟩ :=
    processConsumerMessage_spec pp pp1 consumerMessage sends hstep
  have hcons : consumedMessages (evs ++ [Event.consumerMessage consumerMessage sends]) =
      consumedMessages evs ++ [consumerMessage] := by
    rw [consumedMessages_append]
    rfl
  refine ⟨?_, ?_⟩
  · intro t m hm
    rw [hman] at hm
    exact h.ordered t m hm
  · intro t m hm v hv x hx
    rw [hman] at hm
    rw [hq t] at hx
    have hx1 : x ∈ (if t = consumerMessage.topic then pp.inFlightMessageGroups t ++ [group]
        else pp.inFlightMessageGroups t) := by
      split at hx
      · exact mem_of_mem_pruneLoop _ x hx
      · exact hx
    split at hx1
    · rename_i ht
      rcases List.mem_append.mp hx1 with ho | hn
      · exact h.below t m hm v hv x ho
      · rw [List.mem_singleton] at hn
        subst hn
        obtain ⟨cm, hcm, hct, hv1, _⟩ := hloop.written t m hm v hv
        obtain ⟨h0, hmax⟩ := hbelow cm hcm
        have hlt : cm.offset < consumerMessage.offset := by
          have hp := hoffsets.2
          rw [hcons] at hp
          exact (List.pairwise_append.mp hp).2.2 cm hcm consumerMessage (by simp)
            (by rw [hct, ht])
        rw [hv1, int64_succ cm.offset (by omega) hmax, hgo]
        exact Int.add_one_le_iff.mpr hlt
    · exact h.below t m hm v hv x hx1

/-- The forward invariant holds after every sequence of events that a fresh processor
handles without fault, when the consumed offsets ascend and stay below the largest
64-bit offset. -/
theorem forward_invariant (evs : List Event) (pp0 pp : partitionProcessor)
    (hfresh : pp0.isFresh) (hoffsets : offsetsAscend evs)
    (hbelow : ∀ cm ∈ consumedMessages evs, cm.offset < 9223372036854775807)
    (hrun : run pp0 evs = .ok pp) : ForwardInvariant pp := by
  induction evs using List.reverseRecOn generalizing pp with
  | nil =>
    simp only [run, Except.ok.injEq] at hrun
    subst hrun
    obtain ⟨hq, _, hm⟩ := hfresh
    refine ⟨?_, ?_⟩
    · intro t marked hmarked
      rw [hm t marked hmarked]
      exact List.Pairwise.nil
    · intro t marked hmarked v hv
      rw [hm t marked hmarked] at hv
      simp at hv
  | append_singleton l e ih =>
    have hoffsets1 := offsetsAscend_of_append l [e] hoffsets
    have hbelow1 : ∀ cm ∈ consumedMessages l,
        0 ≤ cm.offset ∧ cm.offset < 9223372036854775807 := by
      intro cm hcm
      have hmem : cm ∈ consumedMessages (l ++ [e]) := by
        rw [consumedMessages_append]
        exact List.mem_append_left _ hcm
      exact ⟨(hoffsets.1 cm hmem).1, hbelow cm hmem⟩
    rw [run_append] at hrun
    cases hl : run pp0 l with
    | error f => simp [hl] at hrun
    | ok pp1 =>
      simp only [hl, run] at hrun
      have hinv := ih pp1 hoffsets1 (fun cm hcm => (hbelow1 cm hcm).2) hl
      have hloop := loop_invariant l pp0 pp1 hfresh hoffsets1 hl
      cases hs : step pp1 e with
      | error f => simp [hs] at hrun
      | ok pp2 =>
        simp only [hs, Except.ok.injEq] at hrun
        subst hrun
        cases e with
        | consumerMessage cm sends => exact hinv.forwardConsume hloop cm sends hoffsets hbelow1 hs
        | producerSuccess pm => exact hinv.forwardSuccess pm hs
        | markOffsetsTick => exact hinv.forwardMarkLoop pp1.inputTopics hloop hbelow1 hs

theorem markLoop_of_walked (offset offset1 : Offset) (q : List inFlightMessageGroup) :
    markLoop offset1 (markLoop offset q).2 = (offset1, (markLoop offset q).2) := by
  induction q generalizing offset with
  | nil => rfl
  | cons g rest ih =>
    cases hg : g.allAcksAreTrue with
    | false => simp [markLoop, hg]
    | true =>
      have hstep : markLoop offset (g :: rest) = markLoop g.incomingMessage.offset rest := by
        simp [markLoop, hg]
      rw [hstep]
      exact ih _

theorem mark_twice (pp pp1 : partitionProcessor) (topic : Topic)
    (h : markOffsetsForTopic pp topic = .ok pp1) : markOffsetsForTopic pp1 topic = .ok pp1 := by
  have hq := (markOffsetsForTopic_queue pp pp1 topic h).1
  have hq1 : pp1.inFlightMessageGroups topic =
      (markLoop (-1) (pp.inFlightMessageGroups topic)).2 := by
    rw [hq]; simp
  unfold markOffsetsForTopic
  rw [hq1, markLoop_of_walked]
  simp only [bne_self_eq_false, Bool.false_eq_true, ↓reduceIte, Except.ok.injEq]
  rw [← hq1, Function.update_eq_self]

/-- C19 (as stated, refuted): the messages of offsets 2^63 - 2 and 2^63 - 1 are
processed in this order, each followed by the commit pass; the offsets are
non-negative and strictly increasing, and the values passed to `MarkOffset` are
2^63 - 1 and then -2^63: `offset + 1` wraps around at the largest 64-bit offset. -/
theorem marked_offsets_wrap_around :
    offsetsAscend lastOffsetsTrace ∧
    committed "orders" (run ordersProcessor lastOffsetsTrace) =
      some [9223372036854775807, -9223372036854775808] ∧
    ¬ [(9223372036854775807 : Int), -9223372036854775808].Pairwise (fun v w => v < w) := by
  refine ⟨?_, ?_, ?_⟩
  · unfold offsetsAscend
    decide
  · decide
  · decide

/-- C19 (amended): a fresh processor handles a finite sequence of events without
fault; the consumed records have non-negative offsets below 2^63 - 1, strictly
increasing within each topic.  Then the values passed to `MarkOffset` for a topic
are strictly increasing in the order of the calls; and in any state, a
`markOffsetsForTopic` call that directly follows another one for the same topic
writes nothing and leaves the state as it is. -/
theorem commits_move_forward (pp0 pp : partitionProcessor) (evs : List Event)
    (hfresh : pp0.isFresh) (hoffsets : offsetsAscend evs)
    (hbelow : ∀ cm ∈ consumedMessages evs, cm.offset < 9223372036854775807)
    (hrun : run pp0 evs = .ok pp) :
    (∀ topic marked, pp.offsetManagers topic = some marked →
      marked.Pairwise (fun v w => v < w)) ∧
    (∀ topic pp1, markOffsetsForTopic pp topic = .ok pp1 →
      markOffsetsForTopic pp1 topic = .ok pp1) :=
  ⟨(forward_invariant evs pp0 pp hfresh hoffsets hbelow hrun).ordered,
   fun topic pp1 h => mark_twice pp pp1 topic h⟩

/-- Witness of the amended C19: the end-to-end scenario with a commit pass after the
acknowledgments of offset 10 and another after that of offset 12 marks 12, then 13. -/
theorem commits_move_forward_witness :
    offsetsAscend
      [consume10, consume11, ack10a, ack10b, Event.markOffsetsTick, consume12, ack12,
        Event.markOffsetsTick] ∧
    ∃ pp,
      run ordersProcessor
        [consume10, consume11, ack10a, ack10b, Event.markOffsetsTick, consume12, ack12,
          Event.markOffsetsTick] = .ok pp ∧
      pp.offsetManagers "orders" = some [12, 13] ∧
      [(12 : Int), 13].Pairwise (fun v w => v < w) := by
  have hoffsets : offsetsAscend
      [consume10, consume11, ack10a, ack10b, Event.markOffsetsTick, consume12, ack12,
        Event.markOffsetsTick] := by
    unfold offsetsAscend
    decide
  have hc : committed "orders"
      (run ordersProcessor
        [consume10, consume11, ack10a, ack10b, Event.markOffsetsTick, consume12, ack12,
          Event.markOffsetsTick]) = some [12, 13] := by
    decide
  cases hrun : run ordersProcessor
      [consume10, consume11, ack10a, ack10b, Event.markOffsetsTick, consume12, ack12,
        Event.markOffsetsTick] with
  | error f =>
    rw [hrun] at hc
    simp [committed] at hc
  | ok pp =>
    rw [hrun] at hc
    simp only [committed] at hc
    exact ⟨hoffsets, pp, rfl, hc,
      (commits_move_forward ordersProcessor pp _ ordersProcessor_isFresh hoffsets (by decide)
        hrun).1 "orders" [12, 13] hc⟩

/-! ## The resume offset (C14, C15) -/

/-- With a broker that answers the requests for the remaining topics and accepts the
resolved offsets, the loop of `newPartitionProcessor` returns, having opened one
stream per topic, in order, at "latest" when the stored next-offset exceeds the
newest offset and at the stored next-offset otherwise. -/
theorem newPartitionProcessorLoop_spec (tp : TopicProcessor) (partition : Partition)
    (stored newest : Topic → Int) (topics : List Topic)
    (consumers : List PartitionConsumer) (managers : Topic → Option (List Int))
    (hmanage : ∀ t ∈ topics, tp.client.managePartition t (int32 partition) = .ok (stored t))
    (hnewest : ∀ t ∈ topics,
      tp.client.getOffset t (int32 partition) OffsetNewest = .ok (newest t))
    (hconsume : ∀ t ∈ topics,
      tp.client.consumePartition t (int32 partition)
        (if stored t > newest t then OffsetNewest else stored t) = none) :
    ∃ managers1,
      newPartitionProcessorLoop tp partition topics consumers managers =
        .ok (consumers ++ topics.map (fun t =>
            { topic := t, partition := int32 partition,
              offset := if stored t > newest t then OffsetNewest else stored t }),
          managers1) ∧
      ∀ t marked, managers1 t = some marked → marked = [] ∨ managers t = some marked := by
  induction topics generalizing consumers managers with
  | nil => exact ⟨managers, by simp [newPartitionProcessorLoop], fun t marked h => Or.inr h⟩
  | cons topic rest ih =>
    obtain ⟨managers1, hloop, hfresh⟩ :=
      ih (consumers ++
          [{ topic := topic, partition := int32 partition,
             offset := if stored topic > newest topic then OffsetNewest else stored topic }])
        (Function.update managers topic (some []))
        (fun t ht => hmanage t (List.mem_cons_of_mem _ ht))
        (fun t ht => hnewest t (List.mem_cons_of_mem _ ht))
        (fun t ht => hconsume t (List.mem_cons_of_mem _ ht))
    refine ⟨managers1, ?_, ?_⟩
    · simp only [newPartitionProcessorLoop, hmanage topic (List.mem_cons_self _ _),
        hnewest topic (List.mem_cons_self _ _), hconsume topic (List.mem_cons_self _ _)]
      rw [hloop]
      simp
    · intro t marked h
      rcases hfresh t marked h with h1 | h1
      · exact Or.inl h1
      · by_cases ht : t = topic
        · subst ht
          simp only [Function.update_same, Option.some.injEq] at h1
          exact Or.inl h1.symm
        · simp only [Function.update_noteq ht] at h1
          exact Or.inr h1

theorem newPartitionProcessor_spec (tp : TopicProcessor) (partition : Partition)
    (stored newest : Topic → Int)
    (hconsumer : tp.client.newConsumerFromClient = none)
    (hmanage : ∀ t ∈ tp.inputTopics,
      tp.client.managePartition t (int32 partition) = .ok (stored t))
    (hnewest : ∀ t ∈ tp.inputTopics,
      tp.client.getOffset t (int32 partition) OffsetNewest = .ok (newest t))
    (hconsume : ∀ t ∈ tp.inputTopics,
      tp.client.consumePartition t (int32 partition)
        (if stored t > newest t then OffsetNewest else stored t) = none)
    (hproducer : tp.client.newAsyncProducer = none) :
    ∃ pp,
      newPartitionProcessor tp partition =
        .ok (tp.inputTopics.map (fun t =>
            { topic := t, partition := int32 partition,
              offset := if stored t > newest t then OffsetNewest else stored t }),
          pp) ∧
      pp.isFresh := by
  obtain ⟨managers1, hloop, hfresh⟩ :=
    newPartitionProcessorLoop_spec tp partition stored newest tp.inputTopics []
      (fun _ => none) hmanage hnewest hconsume
  refine ⟨{ TopicSerdes := tp.TopicSerdes
            inputTopics := tp.inputTopics
            offsetManagers := managers1
            producerInput := []
            inFlightMessageGroups := fun _ => []
            nextAddr := 0 }, ?_, ?_⟩
  · simp only [newPartitionProcessor, hconsumer, hloop, hproducer, List.nil_append]
  · refine ⟨fun _ => rfl, rfl, ?_⟩
    intro t marked h
    rcases hfresh t marked h with h1 | h1
    · exact h1
    · exact absurd h1 (by simp)

/-- C14: the broker answers the requests of `newPartitionProcessor` (consumer,
offset manager with stored next-offset `n`, newest offset `w`, producer) and accepts
the stream at the resolved offset.  Then `newPartitionProcessor` returns, without
`log.Fatal`, and the stream of each input topic is opened at `sarama.OffsetNewest`
if `n > w` and at `n` if `n ≤ w`. -/
theorem resume_falls_back_to_newest (tp : TopicProcessor) (partition : Partition)
    (stored newest : Topic → Int)
    (hconsumer : tp.client.newConsumerFromClient = none)
    (hmanage : ∀ t ∈ tp.inputTopics,
      tp.client.managePartition t (int32 partition) = .ok (stored t))
    (hnewest : ∀ t ∈ tp.inputTopics,
      tp.client.getOffset t (int32 partition) OffsetNewest = .ok (newest t))
    (hconsume : ∀ t ∈ tp.inputTopics,
      tp.client.consumePartition t (int32 partition)
        (if stored t > newest t then OffsetNewest else stored t) = none)
    (hproducer : tp.client.newAsyncProducer = none) :
    ∃ consumers pp,
      newPartitionProcessor tp partition = .ok (consumers, pp) ∧
      consumers.map (fun c => c.topic) = tp.inputTopics ∧
      ∀ c ∈ consumers,
        (stored c.topic > newest c.topic → c.offset = OffsetNewest) ∧
        (stored c.topic ≤ newest c.topic → c.offset = stored c.topic) := by
  obtain ⟨pp, hres, _⟩ :=
    newPartitionProcessor_spec tp partition stored newest hconsumer hmanage hnewest hconsume
      hproducer
  refine ⟨_, pp, hres, ?_, ?_⟩
  · simp [List.map_map, Function.comp_def]
  · intro c hc
    obtain ⟨t, _, rfl⟩ := List.mem_map.mp hc
    constructor
    · intro h
      simp only at h ⊢
      rw [if_pos h]
    · intro h
      simp only at h ⊢
      rw [if_neg (not_lt.mpr h)]

/-- Witness of C14: stored next-offset 30 with newest offset 20 resumes at "latest". -/
theorem resume_falls_back_to_newest_witness :
    ∃ consumers pp,
      newPartitionProcessor (ordersTopicProcessor 30 10 20) 0 = .ok (consumers, pp) ∧
      consumers.map (fun c => c.topic) = ["orders"] ∧
      ∀ c ∈ consumers,
        ((30 : Int) > 20 → c.offset = OffsetNewest) ∧ ((30 : Int) ≤ 20 → c.offset = 30) :=
  resume_falls_back_to_newest (ordersTopicProcessor 30 10 20) 0 (fun _ => 30) (fun _ => 20)
    rfl (fun _ _ => rfl) (fun _ _ => rfl) (fun _ _ => rfl) rfl

/-- With the range-checking broker, the loop of `newPartitionProcessor` ends in
`log.Fatal` when one of the topics has a stored next-offset below the earliest
available offset that is neither "latest" nor "earliest", the stored next-offsets
not exceeding the newest offsets. -/
theorem newPartitionProcessorLoop_refused (tp : TopicProcessor) (partition : Partition)
    (stored earliest newest : Topic → Int) (topics : List Topic)
    (consumers : List PartitionConsumer) (managers : Topic → Option (List Int))
    (hclient : tp.client = rangeCheckedClient stored earliest newest)
    (hnewest : ∀ t ∈ topics, stored t ≤ newest t)
    (hbad : ∃ t ∈ topics, stored t < earliest t ∧ stored t ≠ OffsetNewest ∧
      stored t ≠ OffsetOldest) :
    ∃ msg, newPartitionProcessorLoop tp partition topics consumers managers =
      .error (.fatal msg) := by
  induction topics generalizing consumers managers with
  | nil =>
    obtain ⟨t, ht, _⟩ := hbad
    simp at ht
  | cons topic rest ih =>
    have hres : (if stored topic > newest topic then OffsetNewest else stored topic) =
        stored topic := by
      rw [if_neg (not_lt.mpr (hnewest topic (List.mem_cons_self _ _)))]
    have hne : ¬ OffsetNewest = OffsetOldest := by decide
    by_cases hacc : stored topic = OffsetNewest ∨ stored topic = OffsetOldest ∨
        (earliest topic ≤ stored topic ∧ stored topic ≤ newest topic)
    · obtain ⟨t, ht, hlt, hn1, hn2⟩ := hbad
      have htrest : t ∈ rest := by
        rcases List.mem_cons.mp ht with rfl | hr
        · rcases hacc with h | h | h
          · exact absurd h hn1
          · exact absurd h hn2
          · exact absurd hlt (not_lt.mpr h.1)
        · exact hr
      obtain ⟨msg, hmsg⟩ :=
        ih (consumers ++
            [{ topic := topic, partition := int32 partition, offset := stored topic }])
          (Function.update managers topic (some []))
          (fun x hx => hnewest x (List.mem_cons_of_mem _ hx)) ⟨t, htrest, hlt, hn1, hn2⟩
      refine ⟨msg, ?_⟩
      simp only [newPartitionProcessorLoop, hclient, rangeCheckedClient, hne, if_false, hres,
        hacc, if_true]
      exact hmsg
    · exact ⟨"kafka server: The requested offset is outside the range of offsets", by
        simp only [newPartitionProcessorLoop, hclient, rangeCheckedClient, hne, if_false, hres,
          hacc]⟩

/-- C15 (as stated, refuted): the stored next-offset is 5, the earliest available
offset 10 and the newest offset 20, so the stored next-offset does not exceed the
newest; `newPartitionProcessor` asks for a stream at 5, the broker refuses it, and
startup ends in `log.Fatal`: no stream is opened at max(5, 10) = 10. -/
theorem resume_below_earliest_is_fatal :
    ((ordersTopicProcessor 5 10 20).client.getOffset "orders" 0 OffsetOldest).toOption =
      some 10 ∧
    ((ordersTopicProcessor 5 10 20).client.getOffset "orders" 0 OffsetNewest).toOption =
      some 20 ∧
    (5 : Int) ≤ 20 ∧ max (5 : Int) 10 = 10 ∧
    (ordersTopicProcessor 5 10 20).client.consumePartition "orders" 0 10 = none ∧
    faultOf (newPartitionProcessor (ordersTopicProcessor 5 10 20) 0) =
      some (.fatal "kafka server: The requested offset is outside the range of offsets") ∧
    (newPartitionProcessor (ordersTopicProcessor 5 10 20) 0).toOption.map (fun r => r.1) =
      none := by
  decide

/-- C15 (amended): with a broker that opens a stream only at "latest", at
"earliest" or within the available range, and stored next-offsets that do not exceed
the newest offsets: if every stored next-offset is at least the earliest available
offset, the stream of each input topic is opened at the stored next-offset; if the
stored next-offset of some input topic is below the earliest available offset (and
is neither "latest" nor "earliest"), startup ends in `log.Fatal`.  The earliest
available offset is never put in the place of the stored one. -/
theorem resume_within_available_range (tp : TopicProcessor) (partition : Partition)
    (stored earliest newest : Topic → Int)
    (hclient : tp.client = rangeCheckedClient stored earliest newest)
    (hnewest : ∀ t ∈ tp.inputTopics, stored t ≤ newest t) :
    ((∀ t ∈ tp.inputTopics, earliest t ≤ stored t) →
      ∃ pp,
        newPartitionProcessor tp partition =
          .ok (tp.inputTopics.map (fun t =>
              { topic := t, partition := int32 partition, offset := stored t }),
            pp)) ∧
    ((∃ t ∈ tp.inputTopics, stored t < earliest t ∧ stored t ≠ OffsetNewest ∧
        stored t ≠ OffsetOldest) →
      ∃ msg, newPartitionProcessor tp partition = .error (.fatal msg)) := by
  have hresolved : ∀ t ∈ tp.inputTopics,
      (if stored t > newest t then OffsetNewest else stored t) = stored t := by
    intro t ht
    rw [if_neg (not_lt.mpr (hnewest t ht))]
  constructor
  · intro hearliest
    obtain ⟨pp, hres, _⟩ :=
      newPartitionProcessor_spec tp partition stored newest
        (by rw [hclient]; rfl)
        (fun t _ => by rw [hclient]; rfl)
        (fun t _ => by
          rw [hclient]
          simp only [rangeCheckedClient]
          have hne : ¬ OffsetNewest = OffsetOldest := by decide
          rw [if_neg hne])
        (fun t ht => by
          rw [hclient, hresolved t ht]
          simp only [rangeCheckedClient]
          rw [if_pos (Or.inr (Or.inr ⟨hearliest t ht, hnewest t ht⟩))])
        (by rw [hclient]; rfl)
    refine ⟨pp, ?_⟩
    rw [hres]
    have hmap : tp.inputTopics.map (fun t =>
          ({ topic := t, partition := int32 partition,
             offset := if stored t > newest t then OffsetNewest else stored t } :
            PartitionConsumer)) =
        tp.inputTopics.map (fun t =>
          { topic := t, partition := int32 partition, offset := stored t }) := by
      apply List.map_congr_left
      intro t ht
      rw [hresolved t ht]
    rw [hmap]
  · intro hbad
    obtain ⟨msg, hmsg⟩ :=
      newPartitionProcessorLoop_refused tp partition stored earliest newest tp.inputTopics []
        (fun _ => none) hclient hnewest hbad
    refine ⟨msg, ?_⟩
    have hc : tp.client.newConsumerFromClient = none := by rw [hclient]; rfl
    simp only [newPartitionProcessor, hc, hmsg]

/-- Witness of the amended C15: stored next-offset 15 between the earliest available
offset 10 and the newest offset 20 opens the stream at 15; stored next-offset 5
below the earliest available offset 10 ends in `log.Fatal`. -/
theorem resume_within_available_range_witness :
    (∃ pp,
      newPartitionProcessor (ordersTopicProcessor 15 10 20) 0 =
        .ok (["orders"].map (fun t =>
            { topic := t, partition := int32 0, offset := (15 : Int) }),
          pp)) ∧
    ∃ msg, newPartitionProcessor (ordersTopicProcessor 5 10 20) 0 = .error (.fatal msg) :=
  ⟨(resume_within_available_range (ordersTopicProcessor 15 10 20) 0 (fun _ => 15)
      (fun _ => 10) (fun _ => 20) rfl (fun _ _ => show (15 : Int) ≤ 20 by decide)).1
      (fun _ _ => show (10 : Int) ≤ 15 by decide),
   (resume_within_available_range (ordersTopicProcessor 5 10 20) 0 (fun _ => 5)
      (fun _ => 10) (fun _ => 20) rfl (fun _ _ => show (5 : Int) ≤ 20 by decide)).2
      ⟨"orders", by simp [ordersTopicProcessor], by decide, by decide, by decide⟩⟩

/-! ## The key-value round trip (C20) -/

theorem kv_mapSet_new {V : Type} (key : String) (value : V) (m : kv.GoMap V)
    (hnew : key ∉ m.map Prod.fst) : kv.mapSet key value m = m ++ [(key, value)] := by
  induction m with
  | nil => rfl
  | cons p rest ih =>
    obtain ⟨k, v⟩ := p
    simp only [List.map_cons, List.mem_cons, not_or] at hnew
    have hk : ¬ k = key := fun h => hnew.1 h.symm
    simp [kv.mapSet, hk, ih hnew.2]

theorem kv_toMapLoop_distinct {V : Type} (order : List (String × V)) (res : kv.GoMap V)
    (hnodup : ((res ++ order).map Prod.fst).Nodup) :
    kv.toMapLoop (order.map (fun p => some { key := p.1, value := p.2 })) res =
      .ok (res ++ order) := by
  induction order generalizing res with
  | nil => simp [kv.toMapLoop]
  | cons p rest ih =>
    obtain ⟨k, v⟩ := p
    have hnew : k ∉ res.map Prod.fst := by
      rw [List.map_append, List.nodup_append] at hnodup
      intro hk
      exact hnodup.2.2 hk (by simp)
    simp only [List.map_cons, kv.toMapLoop, kv_mapSet_new k v res hnew]
    rw [ih (res ++ [(k, v)]) (by simpa using hnodup)]
    simp

theorem kv_fromMapLoop_fill {V : Type} (order : List (String × V))
    (done : List (Option (kv.Entry V))) (n : Nat) (hn : order.length ≤ n) :
    kv.fromMapLoop order (done ++ List.replicate n none) done.length =
      .ok (done ++ order.map (fun p => some { key := p.1, value := p.2 }) ++
        List.replicate (n - order.length) none) := by
  induction order generalizing done n with
  | nil => simp [kv.fromMapLoop]
  | cons p rest ih =>
    obtain ⟨k, v⟩ := p
    cases n with
    | zero => simp at hn
    | succ n =>
      have hlt : done.length < (done ++ List.replicate (n + 1) none).length := by
        simp
      have hset : (done ++ List.replicate (n + 1) (none : Option (kv.Entry V))).set done.length
            (some { key := k, value := v }) =
          (done ++ [some { key := k, value := v }]) ++ List.replicate n none := by
        rw [List.set_append_right _ _ (Nat.le_refl _)]
        simp [List.replicate_succ]
      simp only [kv.fromMapLoop, hlt, ↓reduceIte, hset]
      have := ih (done ++ [some { key := k, value := v }]) n (by simpa using hn)
      simp only [List.length_append, List.length_singleton] at this
      rw [this]
      simp

/-- C20: for a map `m` (entries with distinct keys) and any order in which the
iteration visits its entries, `FromMap` returns exactly `len(m)` entries, one per
entry of `m` with its key and value, and `ToMap` of them with a nil error returns a
map with the same entries as `m` and a nil error; with a non-nil error `e`, `ToMap`
returns the nil map and `e` whatever the entries. -/
theorem kv_round_trip {V : Type} :
    (∀ (m iteration : kv.GoMap V), (m.map Prod.fst).Nodup → iteration.Perm m →
      ∃ entries,
        kv.FromMap m iteration = .ok entries ∧
        entries.length = m.length ∧
        entries = iteration.map (fun p => some { key := p.1, value := p.2 }) ∧
        ∃ res,
          kv.ToMap entries none = .ok (some res, none) ∧
          res.Perm m ∧ (res.map Prod.fst).Nodup) ∧
    (∀ (entries : List (Option (kv.Entry V))) (e : String),
      kv.ToMap entries (some e) = .ok (none, some e)) := by
  constructor
  · intro m iteration hnodup hperm
    have hlen : iteration.length = m.length := hperm.length_eq
    have hkeys : (iteration.map Prod.fst).Nodup :=
      (hperm.map Prod.fst).nodup_iff.mpr hnodup
    have hfrom : kv.FromMap m iteration =
        .ok (iteration.map (fun p => some { key := p.1, value := p.2 })) := by
      have := kv_fromMapLoop_fill iteration [] m.length (Nat.le_of_eq hlen)
      simp only [List.nil_append, List.length_nil] at this
      unfold kv.FromMap
      rw [this, hlen]
      simp
    refine ⟨_, hfrom, by simp [hlen], rfl, iteration, ?_, hperm, hkeys⟩
    unfold kv.ToMap
    rw [kv_toMapLoop_distinct iteration [] (by simpa using hkeys)]
    simp
  · intro entries e
    rfl

/-- Witness of C20: a map with the keys "a" and "b", visited in the other order. -/
theorem kv_round_trip_witness :
    ∃ entries,
      kv.FromMap [("a", 1), ("b", 2)] [("b", 2), ("a", 1)] = .ok entries ∧
      entries.length = [("a", 1), ("b", 2)].length ∧
      entries =
        [("b", 2), ("a", 1)].map (fun p => some ({ key := p.1, value := p.2 } : kv.Entry Nat)) ∧
      ∃ res,
        kv.ToMap entries none = .ok (some res, none) ∧
        res.Perm [("a", 1), ("b", 2)] ∧ (res.map Prod.fst).Nodup :=
  (@kv_round_trip Nat).1 [("a", 1), ("b", 2)] [("b", 2), ("a", 1)] (by decide)
    (List.Perm.swap _ _ _)

end Kasper
